import Mathlib

/-!
Emoji completer: token parser, ranking engine, text replacement, index and stored values.

A shallow embedding of `src/content.js`.

* A JavaScript string is the list of its UTF-16 code units (`Str`), so that `length`,
  `slice` and the offsets of a token count what the script counts.
* The three regular expressions of the script are written out as matchers over code units.
  They carry the `i` flag and no `u` flag, so `[a-z]` is exactly the Basic Latin letters.
* String primitives whose result depends on the Unicode tables or on the locale
  (`trim`, `toLowerCase`, `localeCompare`) are fields of `JsString` wherever the script
  applies them to arbitrary text.
* A `Map`, a `Set` and a plain object are the lists of their entries in insertion order.
* A value that comes from storage is a `JsValue`; a finite Number is a rational, so that
  `Math.round` and `Math.floor` are exact, and the reading of a string as a Number is a
  parameter.
-/

namespace EmojiCompleter

/-! ## Strings -/

/-- A JavaScript string: its UTF-16 code units. -/
abbrev Str := List Nat

/-- Code units of one Unicode scalar value (a surrogate pair above the BMP). -/
def utf16Char (c : Char) : Str :=
  if c.toNat < 65536 then [c.toNat]
  else [55296 + (c.toNat - 65536) / 1024, 56320 + (c.toNat - 65536) % 1024]

/-- Code units of a string literal; used to write examples legibly. -/
def utf16 (s : String) : Str :=
  s.toList.flatMap utf16Char

/-- Digit class `\d`. -/
def isDigit (c : Nat) : Bool :=
  decide (48 ≤ c) && decide (c ≤ 57)

/-- Letter class `[a-z]` under the `i` flag: `MULTIPLIER_QUERY_GUARD_RE` tests for one such unit. -/
def isLetter (c : Nat) : Bool :=
  (decide (65 ≤ c) && decide (c ≤ 90)) || (decide (97 ≤ c) && decide (c ≤ 122))

/-- Pattern `WORD_CHAR_RE = /[a-z0-9_]/i` on one code unit. -/
def isWordChar (c : Nat) : Bool :=
  isLetter c || isDigit c || c == 95

/-- Class `[a-z0-9_+\-]` under the `i` flag. -/
def isQueryChar (c : Nat) : Bool :=
  isWordChar c || c == 43 || c == 45

/-- Pattern `VALID_QUERY_RE = /^[a-z0-9_+\-]{0,40}$/i`, method `test`. -/
def VALID_QUERY_RE (s : Str) : Bool :=
  s.all isQueryChar && decide (s.length ≤ 40)

/-- Pattern `MULTIPLIER_QUERY_GUARD_RE = /[a-z]/i`, method `test`. -/
def MULTIPLIER_QUERY_GUARD_RE (s : Str) : Bool :=
  s.any isLetter

/-- Method `toLowerCase` on one code unit of the Basic Latin block. -/
def lowerUnit (c : Nat) : Nat :=
  if 65 ≤ c ∧ c ≤ 90 then c + 32 else c

/-- Method `String.prototype.toLowerCase` for text of the Basic Latin block, which is all that
`extractActiveToken` lowers: `queryRaw` has passed `VALID_QUERY_RE`. -/
def toLowerCase (s : Str) : Str :=
  s.map lowerUnit

/-- Method `String.prototype.startsWith` -/
def startsWith (s q : Str) : Bool :=
  q.isPrefixOf s

/-- Method `String.prototype.endsWith` -/
def endsWith (s q : Str) : Bool :=
  q.isSuffixOf s

/-- Method `String.prototype.includes`: `q` occurs in `s` at some offset. -/
def includes : Str → Str → Bool
  | [], q => q.isPrefixOf []
  | c :: s, q => q.isPrefixOf (c :: s) || includes s q

/-- Method `String.prototype.repeat` -/
def strRepeat (s : Str) (count : Nat) : Str :=
  (List.replicate count s).flatten

/-! ## Token parser -/

/-- Result of `TOKEN_WITH_MULTIPLIER_RE.exec`: `index`, then the groups the script reads.
`group3` is `none` where the optional multiplier did not take part (`undefined`). -/
structure RegExpMatch where
  index : Nat
  group1 : Str
  group3 : Option Str
  group4 : Str
  deriving DecidableEq, Repr

/-- The tail `([a-z0-9_+\-]{0,40})$` of the token pattern. The quantifier is greedy and
gives units back one at a time, but `$` holds only where the whole rest is consumed. -/
def matchQueryToEnd (s : Str) : Option Str :=
  let run := (s.takeWhile isQueryChar).take 40
  if run.length = s.length then some run else none

/-- The literal `:` followed by the query group. -/
def matchColonQuery (s : Str) : Option Str :=
  match s with
  | c :: rest => if c = 58 then matchQueryToEnd rest else none
  | [] => none

/-- The part `((\d{1,2})?:)([a-z0-9_+\-]{0,40})$` of the token pattern, in the order a
backtracking matcher tries it: two digits, one digit, then the group left out. -/
def matchMultiplierColonQuery (s : Str) : Option (Option Str × Str) :=
  let two : Option (Option Str × Str) :=
    match s with
    | a :: b :: rest =>
      if isDigit a && isDigit b then (matchColonQuery rest).map (fun q => (some [a, b], q))
      else none
    | _ => none
  let one : Option (Option Str × Str) :=
    match s with
    | a :: rest =>
      if isDigit a then (matchColonQuery rest).map (fun q => (some [a], q)) else none
    | _ => none
  match two with
  | some r => some r
  | none =>
    match one with
    | some r => some r
    | none => (matchColonQuery s).map (fun q => (none, q))

/-- One attempt of `TOKEN_WITH_MULTIPLIER_RE` at offset `i`, where `s` is the text from
`i` on. The alternation `(^|[^a-z0-9_])` tries `^` first. -/
def matchAt (i : Nat) (s : Str) : Option RegExpMatch :=
  let viaStart : Option RegExpMatch :=
    if i = 0 then (matchMultiplierColonQuery s).map (fun r => ⟨i, [], r.1, r.2⟩) else none
  match viaStart with
  | some m => some m
  | none =>
    match s with
    | x :: rest =>
      if isWordChar x then none
      else (matchMultiplierColonQuery rest).map (fun r => ⟨i, [x], r.1, r.2⟩)
    | [] => none

/-- Scan of `exec`: the leftmost offset at which an attempt succeeds. -/
def execFrom (i : Nat) : Str → Option RegExpMatch
  | [] => matchAt i []
  | x :: rest =>
    match matchAt i (x :: rest) with
    | some m => some m
    | none => execFrom (i + 1) rest

/-- Pattern `TOKEN_WITH_MULTIPLIER_RE = /(^|[^a-z0-9_])((\d{1,2})?:)([a-z0-9_+\-]{0,40})$/i`,
method `exec`. -/
def TOKEN_WITH_MULTIPLIER_RE (text : Str) : Option RegExpMatch :=
  execFrom 0 text

/-- Constant `MAX_MULTIPLIER`. -/
def MAX_MULTIPLIER : Nat := 20

/-- Conversion `Number(value)` for a string of decimal digits; the empty string is 0. -/
def numberOfDigits (value : Str) : Nat :=
  value.foldl (fun acc c => 10 * acc + (c - 48)) 0

/-- Function `clampMultiplier` on a number. -/
def clampNumber (parsed : Nat) : Nat :=
  min MAX_MULTIPLIER (max 1 parsed)

/-- Function `clampMultiplier` on the multiplier text of a match (`\d{1,2}` or empty), for which
`Number` is finite and whole. -/
def clampMultiplier (value : Str) : Nat :=
  clampNumber (numberOfDigits value)

/-- The active token. Field `end_` is the script's `end`. -/
structure ActiveToken where
  start : Nat
  end_ : Nat
  query : Str
  multiplier : Nat
  deriving DecidableEq, Repr

/-- Function `extractActiveToken` of the script. -/
def extractActiveToken (textBeforeCaret : Str) : Option ActiveToken :=
  if textBeforeCaret.length = 0 then none
  else
    match TOKEN_WITH_MULTIPLIER_RE textBeforeCaret with
    | none => none
    | some m =>
      let boundary := m.group1
      let multiplierRaw := m.group3.getD []
      let queryRaw := m.group4
      if !VALID_QUERY_RE queryRaw then none
      else if !multiplierRaw.isEmpty && !queryRaw.isEmpty
          && !MULTIPLIER_QUERY_GUARD_RE queryRaw then none
      else
        some {
          start := m.index + boundary.length
          end_ := textBeforeCaret.length
          query := toLowerCase queryRaw
          multiplier := clampMultiplier multiplierRaw }

/-! ## Host string primitives -/

/-- The string primitives of the host that the script applies to arbitrary text:
`String.prototype.trim`, `String.prototype.toLowerCase` and `String.prototype.localeCompare`
(its sign is what the script uses). -/
structure JsString where
  trim : Str → Str
  toLowerCase : Str → Str
  localeCompare : Str → Str → Int

/-- What ECMAScript asks of a comparison function for `sort` to be determined, as far as
the ranking needs it: "not after" is total and transitive. -/
def ConsistentCompare (cmp : Str → Str → Int) : Prop :=
  (∀ a b, cmp a b ≤ 0 ∨ cmp b a ≤ 0) ∧
    (∀ a b c, cmp a b ≤ 0 → cmp b c ≤ 0 → cmp a c ≤ 0)

/-- Comparison by code units, the order of `<` on strings. -/
def codeUnitCompare : Str → Str → Int
  | [], [] => 0
  | [], _ :: _ => -1
  | _ :: _, [] => 1
  | a :: as, b :: bs => if a < b then -1 else if b < a then 1 else codeUnitCompare as bs

/-- White space and line terminators, the units `trim` strips. -/
def isWhiteSpace (c : Nat) : Bool :=
  [9, 10, 11, 12, 13, 32, 160, 5760, 8232, 8233, 8239, 8287, 12288, 65279].contains c
    || (decide (8192 ≤ c) && decide (c ≤ 8202))

/-- A reference host for concrete evaluations: exact on Basic Latin text, with the root
ordering replaced by the code unit order. -/
def basicLatin : JsString where
  trim := fun s => ((s.dropWhile isWhiteSpace).reverse.dropWhile isWhiteSpace).reverse
  toLowerCase := toLowerCase
  localeCompare := codeUnitCompare

/-! ## Emoji index and ranking engine -/

/-- An entry of the index. `aliasesSet` of the script is the set of `aliases`. -/
structure EmojiEntry where
  emoji : Str
  shortcode : Str
  aliases : List Str
  keywords : List Str
  deriving DecidableEq, Repr

/-- The value `indexed` returned by `buildEmojiIndex`; a `Map` is the list of its pairs
in insertion order. -/
structure EmojiIndex where
  list : List EmojiEntry
  shortcodeMap : List (Str × EmojiEntry)
  aliasMap : List (Str × EmojiEntry)
  deriving DecidableEq, Repr

/-- An element of the array returned by `searchEmoji`. -/
structure Suggestion where
  entry : EmojiEntry
  score : Nat
  matchAlias : Str
  deriving DecidableEq, Repr

/-- The object `usageCounts`: its own properties in insertion order. -/
abbrev UsageCounts := List (Str × Nat)

/-- Function `getUsageScore`: `Number(usageCounts[shortcode]) || 0`. -/
def getUsageScore (usageCounts : UsageCounts) (shortcode : Str) : Nat :=
  (usageCounts.lookup shortcode).getD 0

/-- The loop `for (const alias of entry.aliases)` of `searchEmoji`, on the pair
`(score, matchAlias)`. -/
def aliasLoop (q : Str) : List Str → Nat × Str → Nat × Str
  | [], st => st
  | alias_ :: rest, (score, matchAlias) =>
    if startsWith alias_ q then
      aliasLoop q rest (max score 1030, if matchAlias.isEmpty then alias_ else matchAlias)
    else if includes alias_ q then
      aliasLoop q rest (max score 880, if matchAlias.isEmpty then alias_ else matchAlias)
    else aliasLoop q rest (score, matchAlias)

/-- The loop `for (const keyword of entry.keywords)` of `searchEmoji`, with its `break`. -/
def keywordLoop (q : Str) : List Str → Nat → Nat
  | [], score => score
  | keyword :: rest, score =>
    if startsWith keyword q then 780
    else if includes keyword q then keywordLoop q rest 700
    else keywordLoop q rest score

/-- Body of the loop over `indexed.list` in `searchEmoji`, up to the test `score === 0`:
the pair `(score, matchAlias)` before the usage boost. -/
def scoreEntry (q : Str) (entry : EmojiEntry) : Nat × Str :=
  let first : Nat × Str :=
    if entry.shortcode = q then (1200, [])
    else if q ∈ entry.aliases then (1140, q)
    else if startsWith entry.shortcode q then (1080, [])
    else aliasLoop q entry.aliases (0, [])
  let score := if first.1 = 0 ∧ includes entry.shortcode q = true then 900 else first.1
  let score := if score = 0 then keywordLoop q entry.keywords score else score
  (score, first.2)

/-- The term `Math.min(50, getUsageScore(entry.shortcode)) * 4`. -/
def usageBoost (count : Nat) : Nat :=
  min 50 count * 4

/-- The array `matches` of `searchEmoji` before it is sorted. -/
def collectMatches (usageCounts : UsageCounts) (q : Str) : List EmojiEntry → List Suggestion
  | [] => []
  | entry :: rest =>
    let scored := scoreEntry q entry
    if scored.1 = 0 then collectMatches usageCounts q rest
    else
      { entry := entry
        score := scored.1 + usageBoost (getUsageScore usageCounts entry.shortcode)
        matchAlias := scored.2 } :: collectMatches usageCounts q rest

/-- The comparison function handed to `matches.sort`. -/
def compareMatches (J : JsString) (usageCounts : UsageCounts) (a b : Suggestion) : Int :=
  if b.score ≠ a.score then (b.score : Int) - (a.score : Int)
  else
    let usageDelta : Int :=
      (getUsageScore usageCounts b.entry.shortcode : Int)
        - (getUsageScore usageCounts a.entry.shortcode : Int)
    if usageDelta ≠ 0 then usageDelta
    else J.localeCompare a.entry.shortcode b.entry.shortcode

/-- The comparison function of the empty-query path. -/
def compareFallback (J : JsString) (usageCounts : UsageCounts) (a b : EmojiEntry) : Int :=
  let usageDelta : Int :=
    (getUsageScore usageCounts b.shortcode : Int) - (getUsageScore usageCounts a.shortcode : Int)
  if usageDelta ≠ 0 then usageDelta else J.localeCompare a.shortcode b.shortcode

/-- Method `Array.prototype.sort` with a comparison function: a stable sort, `a` staying in front
of `b` when the function does not return a positive number. -/
def arraySort {α : Type} (cmp : α → α → Int) (l : List α) : List α :=
  l.insertionSort (fun a b => cmp a b ≤ 0)

/-- Function `searchEmoji` of the script. -/
def searchEmoji (J : JsString) (indexed : EmojiIndex) (usageCounts : UsageCounts)
    (query : Str) (maxItems : Int) : List Suggestion :=
  let q := J.toLowerCase (J.trim query)
  let limit := max 1 maxItems
  if q.isEmpty then
    ((arraySort (compareFallback J usageCounts) indexed.list).take limit.toNat).map
      (fun entry => { entry := entry, score := 1, matchAlias := [] })
  else
    (arraySort (compareMatches J usageCounts) (collectMatches usageCounts q indexed.list)).take
      limit.toNat

/-- Function `lookupEmojiByCode` of the script. -/
def lookupEmojiByCode (J : JsString) (indexed : EmojiIndex) (rawCode : Str) :
    Option EmojiEntry :=
  let code := J.toLowerCase (J.trim rawCode)
  if code.isEmpty then none
  else
    match indexed.shortcodeMap.lookup code with
    | some byShortcode => some byShortcode
    | none => indexed.aliasMap.lookup code

/-- Assignment `object[key] = value` on the list of own properties. -/
def objectSet (object : UsageCounts) (key : Str) (value : Nat) : UsageCounts :=
  if object.any (fun kv => kv.1 == key) then
    object.map (fun kv => if kv.1 == key then (key, value) else kv)
  else object ++ [(key, value)]

/-- Function `recordUsage`, on the table. `scheduleUsagePersist` arms a timer that later writes the
table to storage and touches nothing else. -/
def recordUsage (J : JsString) (usageCounts : UsageCounts) (shortcode : Str) : UsageCounts :=
  if shortcode.isEmpty then usageCounts
  else
    let key := J.toLowerCase shortcode
    objectSet usageCounts key ((usageCounts.lookup key).getD 0 + 1)

/-! ## Settings, editors and the session -/

/-- Values of `settings.mode`. -/
inductive Mode where
  | discord
  | slack
  deriving DecidableEq, Repr

/-- The object `settings`. -/
structure Settings where
  mode : Mode
  triggerMinChars : Int
  maxSuggestions : Int
  commitWithTab : Bool
  commitWithEnter : Bool
  convertOnCloseColon : Bool
  insertTrailingSpace : Bool
  enableEmoticonConversion : Bool
  deriving DecidableEq, Repr

/-- Constant `DEFAULT_SETTINGS`. -/
def DEFAULT_SETTINGS : Settings where
  mode := Mode.discord
  triggerMinChars := 1
  maxSuggestions := 8
  commitWithTab := true
  commitWithEnter := true
  convertOnCloseColon := true
  insertTrailingSpace := false
  enableEmoticonConversion := false

/-- A flat-buffer editor (`HTMLTextAreaElement`): its value and selection, whether it has
the focus, and the `data` of the input events dispatched on it so far. -/
structure Textarea where
  value : Str
  selectionStart : Nat
  selectionEnd : Nat
  focused : Bool
  inputEvents : List Str
  deriving DecidableEq, Repr

/-- What `getEditorSnapshot` returns, without the caret rectangle. -/
structure EditorSnapshot where
  isCollapsed : Bool
  textBefore : Str
  deriving DecidableEq, Repr

/-- An editor: a textarea, or an editable region whose document state is a `D`. -/
inductive Editor (D : Type) where
  | textarea (t : Textarea)
  | contentEditable (d : D)
  deriving DecidableEq

/-- The document side of an editable region: what `getEditorSnapshot` reads from the
selection, and `replaceInContentEditable` as a step on the document (`none` where it
returns `false`). -/
structure Dom (D : Type) where
  snapshot : D → Option EditorSnapshot
  replaceInContentEditable : D → Nat → Nat → Str → Option D

/-- The variables of the script that a commit reads or writes. `popupHidden` is
`popup.hidden`. -/
structure Session (D : Type) where
  settings : Settings
  usageCounts : UsageCounts
  activeEditor : Option (Editor D)
  isComposing : Bool
  popupHidden : Bool
  suggestions : List Suggestion
  highlightedIndex : Int
  activeToken : Option ActiveToken

/-- Function `getEditorSnapshot` of the script. -/
def getEditorSnapshot {D : Type} (dom : Dom D) : Editor D → Option EditorSnapshot
  | Editor.textarea t =>
    some { isCollapsed := t.selectionStart == t.selectionEnd
           textBefore := t.value.take t.selectionStart }
  | Editor.contentEditable d => dom.snapshot d

/-- Function `buildEmojiReplacement` of the script. -/
def buildEmojiReplacement (settings : Settings) (emoji : Str) (multiplier : Nat) : Str :=
  let count := clampNumber multiplier
  let base := if count > 1 then strRepeat emoji count else emoji
  base ++ (if settings.insertTrailingSpace then [32] else [])

/-- Function `replaceInTextarea`: `focus`, `setRangeText(replacement, safeStart, safeEnd, "end")`,
then `dispatchInputEvent`. The event is handed to the host; what its listeners do with it
is not part of this function. -/
def replaceInTextarea (editor : Textarea) (start end_ : Nat) (replacement : Str) : Textarea :=
  let valueLength := editor.value.length
  let safeStart := max 0 (min start valueLength)
  let safeEnd := max safeStart (min end_ valueLength)
  { value := editor.value.take safeStart ++ replacement ++ editor.value.drop safeEnd
    selectionStart := safeStart + replacement.length
    selectionEnd := safeStart + replacement.length
    focused := true
    inputEvents := editor.inputEvents ++ [replacement] }

/-- Function `replaceTextInEditor`; `none` is the result `false`. Offsets are naturals, so the test
`start < 0` has no case. -/
def replaceTextInEditor {D : Type} (dom : Dom D) (editor : Editor D) (start end_ : Nat)
    (replacement : Str) : Option (Editor D) :=
  if end_ < start then none
  else
    match editor with
    | Editor.textarea t => some (Editor.textarea (replaceInTextarea t start end_ replacement))
    | Editor.contentEditable d =>
      (dom.replaceInContentEditable d start end_ replacement).map Editor.contentEditable

/-- Function `hidePopup` of the script. -/
def hidePopup {D : Type} (s : Session D) : Session D :=
  { s with suggestions := [], highlightedIndex := 0, activeToken := none, popupHidden := true }

/-- The token `liveToken` of `commitSuggestion`. -/
def liveTokenOf (snapshot : Option EditorSnapshot) : Option ActiveToken :=
  match snapshot with
  | some snap => if snap.isCollapsed then extractActiveToken snap.textBefore else none
  | none => none

/-- Function `commitSuggestion` of the script. -/
def commitSuggestion {D : Type} (J : JsString) (dom : Dom D) (s : Session D) (index : Int) :
    Session D :=
  match s.activeEditor with
  | none => s
  | some editor =>
    if index < 0 ∨ index ≥ (s.suggestions.length : Int) then s
    else
      match liveTokenOf (getEditorSnapshot dom editor) with
      | none => hidePopup s
      | some liveToken =>
        match s.suggestions.get? index.toNat with
        | none => s
        | some suggestion =>
          let replacement :=
            buildEmojiReplacement s.settings suggestion.entry.emoji liveToken.multiplier
          match replaceTextInEditor dom editor liveToken.start liveToken.end_ replacement with
          | none => s
          | some replaced =>
            hidePopup { s with
              activeEditor := some replaced
              usageCounts := recordUsage J s.usageCounts suggestion.entry.shortcode }

/-- Function `maybeAutoConvertExactShortcode(editor)`. Its caller `onInput` has just stored `editor`
in `activeEditor`, so the edited editor is written back there. -/
def maybeAutoConvertExactShortcode {D : Type} (J : JsString) (dom : Dom D)
    (indexed : EmojiIndex) (s : Session D) (editor : Editor D) : Session D × Bool :=
  match getEditorSnapshot dom editor with
  | none => (s, false)
  | some snapshot =>
    if !snapshot.isCollapsed || snapshot.textBefore.isEmpty
        || !endsWith snapshot.textBefore [58] then (s, false)
    else
      let withoutClosingColon := snapshot.textBefore.take (snapshot.textBefore.length - 1)
      match extractActiveToken withoutClosingColon with
      | none => (s, false)
      | some token =>
        if token.query.isEmpty then (s, false)
        else
          match lookupEmojiByCode J indexed token.query with
          | none => (s, false)
          | some found =>
            let replacement := buildEmojiReplacement s.settings found.emoji token.multiplier
            match replaceTextInEditor dom editor token.start snapshot.textBefore.length
                replacement with
            | none => (s, false)
            | some replaced =>
              (hidePopup { s with
                activeEditor := some replaced
                usageCounts := recordUsage J s.usageCounts found.shortcode }, true)

/-- Function `moveSelection` of the script, on the session; `syncSelectedOption` redraws
the rows and changes no variable. The operator `%` is the truncating remainder. -/
def moveSelection {D : Type} (s : Session D) (direction : Int) : Session D :=
  if s.suggestions.length = 0 then s
  else
    { s with
      highlightedIndex :=
        Int.tmod (s.highlightedIndex + direction + (s.suggestions.length : Int))
          (s.suggestions.length : Int) }

/-! ## Emoticon conversion -/

/-- Pattern `WORD_CHAR_RE = /[a-z0-9_]/i`, method `test`: some unit is a word character. -/
def WORD_CHAR_RE (s : Str) : Bool :=
  s.any isWordChar

/-- An element of `EMOTICON_PAIRS`. -/
structure EmoticonPair where
  code : Str
  emoji : Str
  deriving DecidableEq, Repr

/-- Constant `EMOTICON_PAIRS`, in the order of the script. The last code is a colon, an
apostrophe and an opening parenthesis. -/
def EMOTICON_PAIRS : List EmoticonPair :=
  [ ⟨utf16 ":)", utf16 "🙂"⟩,
    ⟨utf16 ":-)", utf16 "🙂"⟩,
    ⟨utf16 ":(", utf16 "🙁"⟩,
    ⟨utf16 ":-(", utf16 "🙁"⟩,
    ⟨utf16 ":D", utf16 "😄"⟩,
    ⟨utf16 ";)", utf16 "😉"⟩,
    ⟨utf16 ":P", utf16 "😛"⟩,
    ⟨utf16 "<3", utf16 "❤️"⟩,
    ⟨[58, 39, 40], utf16 "😢"⟩ ]

/-- The string `prev` of `maybeAutoConvertEmoticon`: the unit in front of offset `start`,
or a space where `start` is 0. -/
def prevOf (textBefore : Str) (start : Nat) : Str :=
  if start > 0 then (textBefore.drop (start - 1)).take 1 else [32]

/-- The loop `for (const pair of EMOTICON_PAIRS)` of `maybeAutoConvertEmoticon`, over the
pairs still to try. -/
def emoticonLoop {D : Type} (dom : Dom D) (s : Session D) (editor : Editor D)
    (textBefore : Str) : List EmoticonPair → Session D × Bool
  | [] => (s, false)
  | pair :: rest =>
    if !endsWith textBefore pair.code then emoticonLoop dom s editor textBefore rest
    else
      let start := textBefore.length - pair.code.length
      let prev := prevOf textBefore start
      if WORD_CHAR_RE prev then emoticonLoop dom s editor textBefore rest
      else
        let replacement := pair.emoji ++ (if s.settings.insertTrailingSpace then [32] else [])
        match replaceTextInEditor dom editor start textBefore.length replacement with
        | some replaced => (hidePopup { s with activeEditor := some replaced }, true)
        | none => emoticonLoop dom s editor textBefore rest

/-- Function `maybeAutoConvertEmoticon(editor)`. As for the closing colon, its caller
`onInput` has stored `editor` in `activeEditor`, where the edited editor is written back. -/
def maybeAutoConvertEmoticon {D : Type} (dom : Dom D) (s : Session D) (editor : Editor D) :
    Session D × Bool :=
  match getEditorSnapshot dom editor with
  | none => (s, false)
  | some snapshot =>
    if !snapshot.isCollapsed || snapshot.textBefore.isEmpty then (s, false)
    else emoticonLoop dom s editor snapshot.textBefore EMOTICON_PAIRS

/-! ## Offsets into the text leaves of an editable region -/

/-- A boundary point `{ node, offset }` returned by `locateTextPoint`: a text leaf, given by
its position in document order, or the root itself. -/
inductive TextPoint where
  | leaf (index : Nat) (offset : Nat)
  | root (offset : Nat)
  deriving DecidableEq, Repr

/-- The `while (node)` loop of `locateTextPoint` and what follows it. The arguments are the
values of the text leaves from `node` on, the position of `node`, `remaining`, and
`lastTextNode` as its position and length. -/
def locateLoop (childCount : Nat) : List Str → Nat → Nat → Option (Nat × Nat) → TextPoint
  | [], _, remaining, lastTextNode =>
    match lastTextNode with
    | some last => TextPoint.leaf last.1 last.2
    | none => TextPoint.root (min remaining childCount)
  | value :: rest, index, remaining, _ =>
    if remaining ≤ value.length then TextPoint.leaf index remaining
    else locateLoop childCount rest (index + 1) (remaining - value.length)
      (some (index, value.length))

/-- Function `locateTextPoint(root, targetOffset)`, where `leaves` are the values of the
text nodes that the tree walker yields under `root` and `childCount` is
`root.childNodes.length`. -/
def locateTextPoint (leaves : List Str) (childCount : Nat) (targetOffset : Int) : TextPoint :=
  locateLoop childCount leaves 0 (max 0 targetOffset).toNat none

/-- Function `createRangeFromTextOffsets`: the start and the end of the range it sets. Both
points are objects, so the test for a missing point has no case. -/
def createRangeFromTextOffsets (leaves : List Str) (childCount : Nat)
    (startOffset endOffset : Int) : TextPoint × TextPoint :=
  (locateTextPoint leaves childCount startOffset, locateTextPoint leaves childCount endOffset)

/-! ## Building the index -/

/-- An element of the corpus that is an object, as far as `buildEmojiIndex` reads it:
`emoji` and `shortcode` are given when they are strings, `aliases` and `keywords` when they
are arrays, whose elements stand here after `String(·)`. -/
structure RawEntry where
  emoji : Option Str
  shortcode : Option Str
  aliases : Option (List Str)
  keywords : Option (List Str)
  deriving DecidableEq, Repr

/-- Method `Set.prototype.add`, on the elements of the set in insertion order. -/
def setAdd (set : List Str) (value : Str) : List Str :=
  if set.contains value then set else set ++ [value]

/-- The elements of `new Set(values)` in insertion order, which is what `Array.from` lists. -/
def newSet (values : List Str) : List Str :=
  values.foldl setAdd []

/-- Method `Map.prototype.has`, on the pairs of the map in insertion order. -/
def mapHas (map : List (Str × EmojiEntry)) (key : Str) : Bool :=
  map.any (fun kv => kv.1 == key)

/-- Method `Map.prototype.set`: a key that is present keeps its place. -/
def mapSet (map : List (Str × EmojiEntry)) (key : Str) (value : EmojiEntry) :
    List (Str × EmojiEntry) :=
  if mapHas map key then map.map (fun kv => if kv.1 == key then (key, value) else kv)
  else map ++ [(key, value)]

/-- The constant `emoji` of the loop body of `buildEmojiIndex`. -/
def rawEmoji (raw : RawEntry) : Str :=
  raw.emoji.getD []

/-- The constant `shortcode` of the loop body of `buildEmojiIndex`. -/
def rawShortcode (J : JsString) (raw : RawEntry) : Str :=
  match raw.shortcode with
  | some shortcode => J.toLowerCase (J.trim shortcode)
  | none => []

/-- The constant `aliases` of the loop body of `buildEmojiIndex`. -/
def rawAliases (J : JsString) (raw : RawEntry) (shortcode : Str) : List Str :=
  match raw.aliases with
  | some aliases =>
    (aliases.map (fun alias_ => J.toLowerCase (J.trim alias_))).filter
      (fun alias_ => !alias_.isEmpty && alias_ != shortcode)
  | none => []

/-- The constant `keywords` of the loop body of `buildEmojiIndex`. -/
def rawKeywords (J : JsString) (raw : RawEntry) : List Str :=
  match raw.keywords with
  | some keywords =>
    (keywords.map (fun keyword => J.toLowerCase (J.trim keyword))).filter
      (fun keyword => !keyword.isEmpty)
  | none => []

/-- The constant `entry` of the loop body of `buildEmojiIndex`. -/
def rawIndexEntry (J : JsString) (raw : RawEntry) : EmojiEntry where
  emoji := rawEmoji raw
  shortcode := rawShortcode J raw
  aliases := newSet (rawAliases J raw (rawShortcode J raw))
  keywords := rawKeywords J raw

/-- The variables of `buildEmojiIndex`. -/
structure IndexBuild where
  list : List EmojiEntry
  shortcodeMap : List (Str × EmojiEntry)
  aliasMap : List (Str × EmojiEntry)
  seen : List Str
  deriving DecidableEq, Repr

/-- The inner loop of `buildEmojiIndex`, over the aliases of a new entry. -/
def aliasMapLoop (entry : EmojiEntry) : List Str → List (Str × EmojiEntry) →
    List (Str × EmojiEntry)
  | [], aliasMap => aliasMap
  | alias_ :: rest, aliasMap =>
    if !mapHas aliasMap alias_ then aliasMapLoop entry rest (mapSet aliasMap alias_ entry)
    else aliasMapLoop entry rest aliasMap

/-- One round of the loop of `buildEmojiIndex`; an element that is no object is `none`. -/
def indexStep (J : JsString) (st : IndexBuild) : Option RawEntry → IndexBuild
  | none => st
  | some raw =>
    let emoji := rawEmoji raw
    let shortcode := rawShortcode J raw
    if emoji.isEmpty || shortcode.isEmpty || st.seen.contains shortcode then st
    else
      let entry := rawIndexEntry J raw
      { list := st.list ++ [entry]
        shortcodeMap := mapSet st.shortcodeMap shortcode entry
        aliasMap := aliasMapLoop entry entry.aliases st.aliasMap
        seen := setAdd st.seen shortcode }

/-- Function `buildEmojiIndex` of the script. -/
def buildEmojiIndex (J : JsString) (rawEntries : List (Option RawEntry)) : EmojiIndex :=
  let st := rawEntries.foldl (indexStep J) ⟨[], [], [], []⟩
  { list := st.list, shortcodeMap := st.shortcodeMap, aliasMap := st.aliasMap }

/-! ## Stored values and their sanitizers -/

/-- A Number of the host: a finite one, which is a rational, or NaN, or an infinity. -/
inductive JsNumber where
  | finite (q : ℚ)
  | nan
  | posInf
  | negInf
  deriving DecidableEq

/-- A value that storage hands to the script. Of an object the script uses the Number that
`Number(·)` turns it into and its own enumerable properties, in the order of
`Object.entries`. -/
inductive JsValue where
  | undefined
  | null
  | bool (b : Bool)
  | number (n : JsNumber)
  | string (s : Str)
  | object (asNumber : JsNumber) (entries : List (Str × JsValue))

/-- A plain object: its own properties. -/
abbrev JsObject := List (Str × JsValue)

/-- Property read `object[key]` on a plain object. -/
def getProperty (object : JsObject) (key : Str) : JsValue :=
  (object.lookup key).getD JsValue.undefined

/-- Assignment `object[key] = value` on a plain object. -/
def setProperty (object : JsObject) (key : Str) (value : JsValue) : JsObject :=
  if object.any (fun kv => kv.1 == key) then
    object.map (fun kv => if kv.1 == key then (key, value) else kv)
  else object ++ [(key, value)]

/-- Conversion `Number(value)`; `stringToNumber` is the host's reading of a string as a
numeric literal. -/
def toNumber (stringToNumber : Str → JsNumber) : JsValue → JsNumber
  | JsValue.undefined => JsNumber.nan
  | JsValue.null => JsNumber.finite 0
  | JsValue.bool b => JsNumber.finite (if b then 1 else 0)
  | JsValue.number n => n
  | JsValue.string s => stringToNumber s
  | JsValue.object asNumber _ => asNumber

/-- Conversion `Boolean(value)`. -/
def toBoolean : JsValue → Bool
  | JsValue.undefined => false
  | JsValue.null => false
  | JsValue.bool b => b
  | JsValue.number (JsNumber.finite q) => decide (q ≠ 0)
  | JsValue.number JsNumber.nan => false
  | JsValue.number _ => true
  | JsValue.string s => !s.isEmpty
  | JsValue.object _ _ => true

/-- Function `Math.round` on a finite Number: the nearest integer, a tie going up. -/
def mathRound (q : ℚ) : Int :=
  ⌊q + 1 / 2⌋

/-- Function `Math.floor` on a finite Number. -/
def mathFloor (q : ℚ) : Int :=
  ⌊q⌋

/-- Function `Number.isFinite` on a Number. -/
def isFinite : JsNumber → Bool
  | JsNumber.finite _ => true
  | _ => false

/-- Function `coerceNumber` of the script; the bounds and the fallback are integers, as in
its two calls. The first branch is the Number on which `Number.isFinite` holds. -/
def coerceNumber (stringToNumber : Str → JsNumber) (value : JsValue)
    (min max fallback : Int) : Int :=
  match toNumber stringToNumber value with
  | JsNumber.finite numeric => Min.min max (Max.max min (mathRound numeric))
  | _ => fallback

/-- Function `sanitizeSettings` of the script. -/
def sanitizeSettings (stringToNumber : Str → JsNumber) (candidate : JsObject) : Settings where
  mode :=
    match getProperty candidate (utf16 "mode") with
    | JsValue.string s => if s = utf16 "slack" then Mode.slack else Mode.discord
    | _ => Mode.discord
  triggerMinChars :=
    coerceNumber stringToNumber (getProperty candidate (utf16 "triggerMinChars")) 0 3
      DEFAULT_SETTINGS.triggerMinChars
  maxSuggestions :=
    coerceNumber stringToNumber (getProperty candidate (utf16 "maxSuggestions")) 3 20
      DEFAULT_SETTINGS.maxSuggestions
  commitWithTab := toBoolean (getProperty candidate (utf16 "commitWithTab"))
  commitWithEnter := toBoolean (getProperty candidate (utf16 "commitWithEnter"))
  convertOnCloseColon := toBoolean (getProperty candidate (utf16 "convertOnCloseColon"))
  insertTrailingSpace := toBoolean (getProperty candidate (utf16 "insertTrailingSpace"))
  enableEmoticonConversion :=
    toBoolean (getProperty candidate (utf16 "enableEmoticonConversion"))

/-- The string that stands for a mode in the object `settings`. -/
def modeName : Mode → Str
  | Mode.discord => utf16 "discord"
  | Mode.slack => utf16 "slack"

/-- The object `{ ...settings }`. -/
def spreadSettings (settings : Settings) : JsObject :=
  [ (utf16 "mode", JsValue.string (modeName settings.mode)),
    (utf16 "triggerMinChars", JsValue.number (JsNumber.finite settings.triggerMinChars)),
    (utf16 "maxSuggestions", JsValue.number (JsNumber.finite settings.maxSuggestions)),
    (utf16 "commitWithTab", JsValue.bool settings.commitWithTab),
    (utf16 "commitWithEnter", JsValue.bool settings.commitWithEnter),
    (utf16 "convertOnCloseColon", JsValue.bool settings.convertOnCloseColon),
    (utf16 "insertTrailingSpace", JsValue.bool settings.insertTrailingSpace),
    (utf16 "enableEmoticonConversion", JsValue.bool settings.enableEmoticonConversion) ]

/-- The array `Object.keys(DEFAULT_SETTINGS)`. -/
def SETTINGS_KEYS : List Str :=
  [ utf16 "mode", utf16 "triggerMinChars", utf16 "maxSuggestions", utf16 "commitWithTab",
    utf16 "commitWithEnter", utf16 "convertOnCloseColon", utf16 "insertTrailingSpace",
    utf16 "enableEmoticonConversion" ]

/-- Constant `USAGE_KEY`. -/
def USAGE_KEY : Str := utf16 "emojiCompleterUsage"

/-- The loop of `sanitizeUsageObject` over `Object.entries(raw)`; a positive finite count
has a floor that is no negative number. -/
def usageLoop (stringToNumber : Str → JsNumber) (J : JsString) :
    List (Str × JsValue) → UsageCounts → UsageCounts
  | [], clean => clean
  | (key, value) :: rest, clean =>
    if key.isEmpty then usageLoop stringToNumber J rest clean
    else
      let normalized := J.toLowerCase (J.trim key)
      if normalized.isEmpty then usageLoop stringToNumber J rest clean
      else
        match toNumber stringToNumber value with
        | JsNumber.finite count =>
          if count ≤ 0 then usageLoop stringToNumber J rest clean
          else usageLoop stringToNumber J rest (objectSet clean normalized (mathFloor count).toNat)
        | _ => usageLoop stringToNumber J rest clean

/-- Function `sanitizeUsageObject` of the script: a value that is falsy or no object gives
the empty table. -/
def sanitizeUsageObject (stringToNumber : Str → JsNumber) (J : JsString) :
    JsValue → UsageCounts
  | JsValue.object _ entries => usageLoop stringToNumber J entries []
  | _ => []

/-- The loop of `onStorageChanged` over the keys of `DEFAULT_SETTINGS`. The object `changes`
is given by the `newValue` of each of its keys, which is `undefined` when the change has
none. -/
def assignChanges (changes : JsObject) : List Str → JsObject → JsObject
  | [], next => next
  | key :: rest, next =>
    match changes.lookup key with
    | some newValue => assignChanges changes rest (setProperty next key newValue)
    | none => assignChanges changes rest next

/-- The two variables that storage writes: `settings` and `usageCounts`. -/
structure StoredState where
  settings : Settings
  usageCounts : UsageCounts
  deriving DecidableEq, Repr

/-- Function `onStorageChanged` of the script. The spread of `DEFAULT_SETTINGS` under the
result of `sanitizeSettings` adds nothing, since that result has all eight fields;
`scheduleRefresh` arms a timer and writes neither variable. -/
def onStorageChanged (stringToNumber : Str → JsNumber) (J : JsString) (st : StoredState)
    (changes : JsObject) (areaName : Str) : StoredState :=
  if areaName = utf16 "sync" then
    { st with
      settings :=
        sanitizeSettings stringToNumber
          (assignChanges changes SETTINGS_KEYS (spreadSettings st.settings)) }
  else if areaName = utf16 "local" then
    match changes.lookup USAGE_KEY with
    | some newValue => { st with usageCounts := sanitizeUsageObject stringToNumber J newValue }
    | none => st
  else st

/-- What `storage.sync` answers to the request of `loadSettings`. -/
inductive SyncStorage where
  /-- There is no storage interface: `loadSettings` returns at once. -/
  | unavailable
  /-- The request fails: the callback gets `undefined`. -/
  | failed
  /-- The items that storage holds. -/
  | items (stored : JsObject)

/-- Method `storage.sync.get(defaults, callback)`: for each key of `defaults` the callback
gets the stored item, or the default where none is stored. -/
def storageGet (defaults items : JsObject) : JsObject :=
  defaults.map (fun kv => (kv.1, (items.lookup kv.1).getD kv.2))

/-- The callback of `loadSettings`, with `stored || {}` for its argument. -/
def onSettingsLoaded (stringToNumber : Str → JsNumber) (stored : Option JsObject) : Settings :=
  sanitizeSettings stringToNumber (stored.getD [])

/-- Function `loadSettings` of the script, on the variable `settings`. -/
def loadSettings (stringToNumber : Str → JsNumber) (settings : Settings) :
    SyncStorage → Settings
  | SyncStorage.unavailable => settings
  | SyncStorage.failed => onSettingsLoaded stringToNumber none
  | SyncStorage.items stored =>
    onSettingsLoaded stringToNumber (some (storageGet (spreadSettings DEFAULT_SETTINGS) stored))

/-- What storage does to the two variables. -/
inductive StorageEvent where
  | settingsLoaded (sync : SyncStorage)
  | changed (changes : JsObject) (areaName : Str)

/-- The effect of one event on the two variables. -/
def storageStep (stringToNumber : Str → JsNumber) (J : JsString) (st : StoredState) :
    StorageEvent → StoredState
  | StorageEvent.settingsLoaded sync =>
    { st with settings := loadSettings stringToNumber st.settings sync }
  | StorageEvent.changed changes areaName => onStorageChanged stringToNumber J st changes areaName

/-- The two variables as the script declares them. -/
def initialStoredState : StoredState where
  settings := DEFAULT_SETTINGS
  usageCounts := []

/-! ## Example data -/

/-- Entry `{shortcode: "smile"}` of the ranking example. -/
def smile : EmojiEntry where
  emoji := utf16 "😄"
  shortcode := utf16 "smile"
  aliases := []
  keywords := []

/-- Entry `{shortcode: "smiley", aliases: ["grinning"]}` of the ranking example. -/
def smiley : EmojiEntry where
  emoji := utf16 "😃"
  shortcode := utf16 "smiley"
  aliases := [utf16 "grinning"]
  keywords := []

/-- Entry for the shortcode `heart`. -/
def heart : EmojiEntry where
  emoji := utf16 "❤️"
  shortcode := utf16 "heart"
  aliases := [utf16 "love"]
  keywords := [utf16 "red"]

/-- An entry whose shortcode is `joy`. -/
def joy : EmojiEntry where
  emoji := utf16 "😂"
  shortcode := utf16 "joy"
  aliases := []
  keywords := []

/-- An entry that carries `joy` as an alias. -/
def laughing : EmojiEntry where
  emoji := utf16 "😆"
  shortcode := utf16 "laughing"
  aliases := [utf16 "joy"]
  keywords := []

/-- An index over the example entries, with the maps `buildEmojiIndex` gives it. -/
def exampleIndex : EmojiIndex where
  list := [smiley, smile, heart, joy, laughing]
  shortcodeMap := [(utf16 "smiley", smiley), (utf16 "smile", smile), (utf16 "heart", heart),
    (utf16 "joy", joy), (utf16 "laughing", laughing)]
  aliasMap := [(utf16 "grinning", smiley), (utf16 "love", heart), (utf16 "joy", laughing)]

/-- A document model with no editable region. -/
def noDom : Dom Unit where
  snapshot := fun _ => none
  replaceInContentEditable := fun _ _ _ _ => none

/-- A session after `I 3:heart` has been typed in front of ` you` in a textarea, with the
popup open on `heart` and `insertTrailingSpace` switched on. -/
def heartSession : Session Unit where
  settings := { DEFAULT_SETTINGS with insertTrailingSpace := true }
  usageCounts := []
  activeEditor := some (Editor.textarea
    { value := utf16 "I 3:heart you", selectionStart := 9, selectionEnd := 9,
      focused := true, inputEvents := [] })
  isComposing := false
  popupHidden := false
  suggestions := [⟨heart, 1200, []⟩]
  highlightedIndex := 0
  activeToken := some ⟨2, 9, utf16 "heart", 3⟩

/-- A session in which the popup was rendered for `:smi` and the text has since grown to
`:smil`, the refresh for that input still pending. -/
def staleSession : Session Unit where
  settings := DEFAULT_SETTINGS
  usageCounts := []
  activeEditor := some (Editor.textarea
    { value := utf16 ":smil", selectionStart := 5, selectionEnd := 5,
      focused := true, inputEvents := [] })
  isComposing := false
  popupHidden := false
  suggestions := searchEmoji basicLatin exampleIndex [] (utf16 "smi") 8
  highlightedIndex := 0
  activeToken := extractActiveToken (utf16 ":smi")

/-- A textarea in which the closing colon of `2:love:` has just been typed, in front of
`!`. -/
def colonTextarea : Textarea where
  value := utf16 "hi 2:love:!"
  selectionStart := 10
  selectionEnd := 10
  focused := true
  inputEvents := []

/-- The session around `colonTextarea`, with default settings and the popup open. -/
def colonSession : Session Unit where
  settings := DEFAULT_SETTINGS
  usageCounts := []
  activeEditor := some (Editor.textarea colonTextarea)
  isComposing := false
  popupHidden := false
  suggestions := searchEmoji basicLatin exampleIndex [] (utf16 "love") 8
  highlightedIndex := 0
  activeToken := extractActiveToken (utf16 "hi 2:love")

/-- A session whose popup is still open although the text before the caret, `smile`, holds
no token any more. -/
def tokenlessSession : Session Unit where
  settings := DEFAULT_SETTINGS
  usageCounts := [(utf16 "smile", 2)]
  activeEditor := some (Editor.textarea
    { value := utf16 "smile", selectionStart := 5, selectionEnd := 5,
      focused := true, inputEvents := [] })
  isComposing := false
  popupHidden := false
  suggestions := searchEmoji basicLatin exampleIndex [] (utf16 "smi") 8
  highlightedIndex := 0
  activeToken := extractActiveToken (utf16 ":smi")

/-- An entry whose first alias holds `joy` inside and whose second alias starts with it. -/
def glad : EmojiEntry where
  emoji := utf16 "😊"
  shortcode := utf16 "glad"
  aliases := [utf16 "enjoy", utf16 "joyful"]
  keywords := []

/-- A textarea in which `:)` has just been typed behind a space. -/
def smileyTextarea : Textarea where
  value := utf16 " :)"
  selectionStart := 3
  selectionEnd := 3
  focused := true
  inputEvents := []

/-- A textarea in which `:)` has just been typed behind the letter `x`. -/
def wordSmileyTextarea : Textarea where
  value := utf16 "x:)"
  selectionStart := 3
  selectionEnd := 3
  focused := true
  inputEvents := []

/-- A session with the default settings and a closed popup around the given textarea. -/
def idleSession (settings : Settings) (t : Textarea) : Session Unit where
  settings := settings
  usageCounts := []
  activeEditor := some (Editor.textarea t)
  isComposing := false
  popupHidden := true
  suggestions := []
  highlightedIndex := 0
  activeToken := none

/-- A corpus with an element that is no object, one without an emoji, and a shortcode that
comes twice. -/
def exampleCorpus : List (Option RawEntry) :=
  [ some ⟨some (utf16 "😄"), some (utf16 " Smile "),
      some [utf16 "happy", utf16 "SMILE", utf16 "Happy ", utf16 "joy", utf16 ""],
      some [utf16 "face"]⟩,
    none,
    some ⟨none, some (utf16 "sad"), none, none⟩,
    some ⟨some (utf16 "😃"), some (utf16 "smile"), some [utf16 "grin"], none⟩,
    some ⟨some (utf16 "😂"), some (utf16 "joy"), some [utf16 "happy", utf16 "tears"], none⟩ ]

/-- The entry that the first element of `exampleCorpus` gives. -/
def corpusSmile : EmojiEntry where
  emoji := utf16 "😄"
  shortcode := utf16 "smile"
  aliases := [utf16 "happy", utf16 "joy"]
  keywords := [utf16 "face"]

/-- The entry that the last element of `exampleCorpus` gives. -/
def corpusJoy : EmojiEntry where
  emoji := utf16 "😂"
  shortcode := utf16 "joy"
  aliases := [utf16 "happy", utf16 "tears"]
  keywords := []

/-! ## Statements of the specification -/

/-- The trigger grammar in the words of the specification: the text before the token `p`
is empty or ends in a unit that is no word character, the multiplier `d` is at most two
digits, and the query `q` is at most 40 units of `[A-Za-z0-9_+-]`. The token itself is
`d ++ ":" ++ q`. -/
def TokenGrammar (p d q : Str) : Prop :=
  (p = [] ∨ ∃ p0 x, p = p0 ++ [x] ∧ isWordChar x = false) ∧
  d.all isDigit = true ∧ d.length ≤ 2 ∧
  q.all isQueryChar = true ∧ q.length ≤ 40

/-- The class `[a-z0-9_+-]` of a lowercased query, in the words of the specification. -/
def isLowerQueryChar (c : Nat) : Bool :=
  (decide (97 ≤ c) && decide (c ≤ 122)) || isDigit c || c == 95 || c == 43 || c == 45

/-- The tier table of the specification: the base score of an entry for the query `q`, by
the first rule that fires; 0 where none does. -/
def specBase (q : Str) (e : EmojiEntry) : Nat :=
  if e.shortcode = q then 1200
  else if ∃ a ∈ e.aliases, a = q then 1140
  else if q <+: e.shortcode then 1080
  else if ∃ a ∈ e.aliases, q <+: a then 1030
  else if ∃ a ∈ e.aliases, q <:+: a then 880
  else if q <:+: e.shortcode then 900
  else if ∃ k ∈ e.keywords, q <+: k then 780
  else if ∃ k ∈ e.keywords, q <:+: k then 700
  else 0

/-- The ranking order of the specification: descending score, then descending raw usage
count, then ascending shortcode. The usage count of a shortcode is the count that the table
holds for it, and 0 where it holds none. -/
def rankedBefore (J : JsString) (usageCounts : UsageCounts) (a b : Suggestion) : Prop :=
  b.score < a.score ∨ (a.score = b.score ∧
    ((usageCounts.lookup b.entry.shortcode).getD 0
        < (usageCounts.lookup a.entry.shortcode).getD 0 ∨
      ((usageCounts.lookup a.entry.shortcode).getD 0
          = (usageCounts.lookup b.entry.shortcode).getD 0 ∧
        J.localeCompare a.entry.shortcode b.entry.shortcode ≤ 0)))

/-- The order of the empty-query path in the words of the specification: descending usage
count, ties by ascending shortcode. The usage count of a shortcode is the count that the
table holds for it, and 0 where it holds none. -/
def fallbackBefore (J : JsString) (usageCounts : UsageCounts) (a b : EmojiEntry) : Prop :=
  (usageCounts.lookup b.shortcode).getD 0 < (usageCounts.lookup a.shortcode).getD 0 ∨
    ((usageCounts.lookup a.shortcode).getD 0 = (usageCounts.lookup b.shortcode).getD 0 ∧
      J.localeCompare a.shortcode b.shortcode ≤ 0)

/-- The text that a DOM range denotes when both boundary points lie in text leaves: from
the start offset in the start leaf, through the leaves between, up to the end offset in the
end leaf; empty when the end does not come after the start. -/
def rangeText (leaves : List Str) : TextPoint → TextPoint → Str
  | TextPoint.leaf i o, TextPoint.leaf j p =>
    if i = j then ((leaves.getD i []).drop o).take (p - o)
    else if i < j then
      (leaves.getD i []).drop o ++ ((leaves.take j).drop (i + 1)).flatten
        ++ (leaves.getD j []).take p
    else []
  | _, _ => []

/-- The number of code units that stand in front of leaf `i`. -/
def leafStart (leaves : List Str) (i : Nat) : Nat := (leaves.take i).flatten.length

/-- Leaf `i` with offset `o` stands for the linear offset `k`, cut off at the end of the
text: the offset lies within the leaf and the units in front of it number `min k total`. -/
def ResolvesTo (leaves : List Str) (k i o : Nat) : Prop :=
  i < leaves.length ∧ o ≤ (leaves.getD i []).length ∧
    leafStart leaves i + o = min k leaves.flatten.length

/-- What holds of the variables of `buildEmojiIndex` after the loop has gone through the
elements `done`. -/
def IndexInvariant (J : JsString) (done : List (Option RawEntry)) (st : IndexBuild) : Prop :=
  st.seen = st.list.map (fun e => e.shortcode) ∧
  st.shortcodeMap = st.list.map (fun e => (e.shortcode, e)) ∧
  (st.list.map (fun e => e.shortcode)).Nodup ∧
  (∀ a, st.aliasMap.lookup a = st.list.find? (fun e => e.aliases.contains a)) ∧
  (∀ e ∈ st.list, ∃ pre raw post, done = pre ++ some raw :: post ∧
    e = rawIndexEntry J raw ∧ rawEmoji raw ≠ [] ∧ rawShortcode J raw ≠ [] ∧
    ∀ raw', some raw' ∈ pre → rawEmoji raw' ≠ [] → rawShortcode J raw' ≠ e.shortcode) ∧
  (∀ raw, some raw ∈ done → rawEmoji raw ≠ [] → rawShortcode J raw ≠ [] →
    rawShortcode J raw ∈ st.list.map (fun e => e.shortcode))

/-- The settings are within their ranges: the mode is one of the two, `triggerMinChars`
is an integer from 0 to 3 and `maxSuggestions` one from 3 to 20. The five flags are values
of `Boolean(·)`. -/
def ValidSettings (s : Settings) : Prop :=
  (s.mode = Mode.discord ∨ s.mode = Mode.slack) ∧
    0 ≤ s.triggerMinChars ∧ s.triggerMinChars ≤ 3 ∧
    3 ≤ s.maxSuggestions ∧ s.maxSuggestions ≤ 20 ∧
    (∀ flag ∈ [s.commitWithTab, s.commitWithEnter, s.convertOnCloseColon,
      s.insertTrailingSpace, s.enableEmoticonConversion], flag = true ∨ flag = false)

/-- The value of the field of the settings that a key names. -/
def settingsField (s : Settings) (key : Str) : JsValue :=
  getProperty (spreadSettings s) key

/-! ## Lemmas on the token pattern -/

theorem isQueryChar_colon : isQueryChar 58 = false := by decide

theorem isDigit_colon : isDigit 58 = false := by decide

theorem isWordChar_of_isDigit {c : Nat} (h : isDigit c = true) : isWordChar c = true := by
  simp [isWordChar, h]

theorem isQueryChar_of_isLetter {c : Nat} (h : isLetter c = true) : isQueryChar c = true := by
  simp [isQueryChar, isWordChar, h]

theorem colon_not_mem_of_all_query {q : Str} (h : q.all isQueryChar = true) : 58 ∉ q := by
  intro hm
  have := (List.all_eq_true.mp h) 58 hm
  rw [isQueryChar_colon] at this
  exact Bool.noConfusion this

theorem matchQueryToEnd_eq_some {s q : Str} :
    matchQueryToEnd s = some q ↔ q = s ∧ s.all isQueryChar = true ∧ s.length ≤ 40 := by
  unfold matchQueryToEnd
  have hle : (s.takeWhile isQueryChar).length ≤ s.length :=
    (List.takeWhile_sublist isQueryChar).length_le
  constructor
  · intro h
    simp only at h
    split at h
    · rename_i hlen
      have hq : q = (s.takeWhile isQueryChar).take 40 := by
        injection h with h; exact h.symm
      rw [List.length_take] at hlen
      have h1 : (s.takeWhile isQueryChar).length = s.length := by omega
      have h2 : s.length ≤ 40 := by omega
      have h3 : s.takeWhile isQueryChar = s :=
        (List.takeWhile_sublist isQueryChar).eq_of_length h1
      refine ⟨?_, ?_, h2⟩
      · rw [hq, h3]; exact List.take_of_length_le h2
      · rw [List.all_eq_true]; exact List.takeWhile_eq_self_iff.mp h3
    · exact Option.noConfusion h
  · rintro ⟨rfl, hall, hlen⟩
    have h3 : q.takeWhile isQueryChar = q :=
      List.takeWhile_eq_self_iff.mpr (List.all_eq_true.mp hall)
    simp only [h3, List.take_of_length_le hlen, if_true]

theorem matchColonQuery_eq_some {s q : Str} :
    matchColonQuery s = some q ↔
      s = 58 :: q ∧ q.all isQueryChar = true ∧ q.length ≤ 40 := by
  cases s with
  | nil => simp [matchColonQuery]
  | cons c rest =>
    simp only [matchColonQuery]
    by_cases hc : c = 58
    · subst hc
      simp only [if_true, matchQueryToEnd_eq_some]
      constructor
      · rintro ⟨rfl, h1, h2⟩; exact ⟨rfl, h1, h2⟩
      · rintro ⟨h0, h1, h2⟩
        have : rest = q := by injection h0
        subst this; exact ⟨rfl, h1, h2⟩
    · simp only [if_neg hc]
      constructor
      · intro h; exact Option.noConfusion h
      · rintro ⟨h0, -, -⟩
        injection h0 with h0 _
        exact absurd h0 hc

theorem map_matchColonQuery_eq_some {rest : Str} {g : Option Str} {r : Option Str × Str}
    (h : (matchColonQuery rest).map (fun q => (g, q)) = some r) :
    r.1 = g ∧ rest = 58 :: r.2 ∧ r.2.all isQueryChar = true ∧ r.2.length ≤ 40 := by
  cases hq : matchColonQuery rest with
  | none => rw [hq] at h; exact Option.noConfusion h
  | some q0 =>
    rw [hq] at h
    simp only [Option.map_some'] at h
    injection h with h
    subst h
    exact ⟨rfl, matchColonQuery_eq_some.mp hq⟩

/-- What a successful attempt on the multiplier, the colon and the query has consumed. -/
theorem matchMultiplierColonQuery_sound {s : Str} {g3 : Option Str} {q : Str}
    (h : matchMultiplierColonQuery s = some (g3, q)) :
    s = g3.getD [] ++ 58 :: q ∧ q.all isQueryChar = true ∧ q.length ≤ 40 ∧
      (g3.getD []).all isDigit = true ∧ (g3.getD []).length ≤ 2 ∧
      (g3 = none ∨ (g3.getD []).length ≠ 0) := by
  have key : ∀ (g : Option Str) (rest : Str) (r : Option Str × Str),
      (matchColonQuery rest).map (fun q => (g, q)) = some r → r = (g3, q) →
      g3 = g ∧ rest = 58 :: q ∧ q.all isQueryChar = true ∧ q.length ≤ 40 := by
    intro g rest r hr hrq
    subst hrq
    obtain ⟨h1, h2, h3, h4⟩ := map_matchColonQuery_eq_some hr
    exact ⟨h1, h2, h3, h4⟩
  rcases s with _ | ⟨a, _ | ⟨b, rest⟩⟩
  · simp [matchMultiplierColonQuery, matchColonQuery] at h
  · -- a single unit
    simp only [matchMultiplierColonQuery] at h
    by_cases ha : isDigit a = true
    · simp [ha, matchColonQuery] at h
      obtain ⟨⟨h58, -⟩, -⟩ := h
      rw [h58, isDigit_colon] at ha
      exact Bool.noConfusion ha
    · simp only [ha, if_false] at h
      obtain ⟨h1, h2, h3, h4⟩ := key none [a] _ h rfl
      subst h1
      simp [h2, h3, h4]
  · simp only [matchMultiplierColonQuery] at h
    by_cases hab : (isDigit a && isDigit b) = true
    · simp only [hab, if_true] at h
      cases htwo : (matchColonQuery rest).map (fun q => (some [a, b], q)) with
      | some r =>
        rw [htwo] at h
        simp only at h
        injection h with h
        obtain ⟨h1, h2, h3, h4⟩ := key _ _ _ htwo h
        subst h1
        simp only [Bool.and_eq_true] at hab
        simp [h2, h3, h4, hab.1, hab.2]
      | none =>
        rw [htwo] at h
        simp only at h
        simp only [Bool.and_eq_true] at hab
        simp only [hab.1, if_true] at h
        cases hone : (matchColonQuery (b :: rest)).map (fun q => (some [a], q)) with
        | some r =>
          rw [hone] at h
          simp only at h
          injection h with h
          obtain ⟨h1, h2, h3, h4⟩ := key _ _ _ hone h
          subst h1
          simp [h2, h3, h4, hab.1]
        | none =>
          rw [hone] at h
          simp only at h
          obtain ⟨h1, h2, h3, h4⟩ := key none _ _ h rfl
          subst h1
          simp [h2, h3, h4]
    · simp only [hab, if_false] at h
      by_cases ha : isDigit a = true
      · simp only [ha, if_true] at h
        cases hone : (matchColonQuery (b :: rest)).map (fun q => (some [a], q)) with
        | some r =>
          rw [hone] at h
          simp only at h
          injection h with h
          obtain ⟨h1, h2, h3, h4⟩ := key _ _ _ hone h
          subst h1
          simp [h2, h3, h4, ha]
        | none =>
          rw [hone] at h
          simp only at h
          obtain ⟨h1, h2, h3, h4⟩ := key none _ _ h rfl
          subst h1
          simp [h2, h3, h4]
      · simp only [ha, if_false] at h
        obtain ⟨h1, h2, h3, h4⟩ := key none _ _ h rfl
        subst h1
        simp [h2, h3, h4]

/-- A multiplier of at most two digits, a colon and a valid query are matched. -/
theorem matchMultiplierColonQuery_complete {d q : Str}
    (hd : d.all isDigit = true) (hdl : d.length ≤ 2)
    (hq : q.all isQueryChar = true) (hql : q.length ≤ 40) :
    matchMultiplierColonQuery (d ++ 58 :: q) = some (if d = [] then none else some d, q) := by
  have hcq : matchColonQuery (58 :: q) = some q := matchColonQuery_eq_some.mpr ⟨rfl, hq, hql⟩
  rcases d with _ | ⟨a, _ | ⟨b, _ | ⟨c, d3⟩⟩⟩
  · cases q with
    | nil => simp [matchMultiplierColonQuery, isDigit_colon, hcq]
    | cons c q1 => simp [matchMultiplierColonQuery, isDigit_colon, hcq]
  · have ha : isDigit a = true := by simpa using hd
    simp [matchMultiplierColonQuery, isDigit_colon, ha, hcq]
  · have hab : isDigit a = true ∧ isDigit b = true := by simpa using hd
    simp [matchMultiplierColonQuery, hab.1, hab.2, hcq]
  · simp at hdl

/-- What a successful attempt at offset `i` has consumed. -/
theorem matchAt_sound {i : Nat} {s : Str} {m : RegExpMatch} (h : matchAt i s = some m) :
    m.index = i ∧ s = m.group1 ++ m.group3.getD [] ++ 58 :: m.group4 ∧
      m.group4.all isQueryChar = true ∧ m.group4.length ≤ 40 ∧
      (m.group3.getD []).all isDigit = true ∧ (m.group3.getD []).length ≤ 2 ∧
      (m.group3 = none ∨ (m.group3.getD []).length ≠ 0) ∧
      ((i = 0 ∧ m.group1 = []) ∨ ∃ x, m.group1 = [x] ∧ isWordChar x = false) := by
  have viaGroups : ∀ (b : Str) (rest : Str),
      (matchMultiplierColonQuery rest).map
        (fun r => (⟨i, b, r.1, r.2⟩ : RegExpMatch)) = some m →
      m.index = i ∧ m.group1 = b ∧ rest = m.group3.getD [] ++ 58 :: m.group4 ∧
      m.group4.all isQueryChar = true ∧ m.group4.length ≤ 40 ∧
      (m.group3.getD []).all isDigit = true ∧ (m.group3.getD []).length ≤ 2 ∧
      (m.group3 = none ∨ (m.group3.getD []).length ≠ 0) := by
    intro b rest hr
    cases hq : matchMultiplierColonQuery rest with
    | none => rw [hq] at hr; exact Option.noConfusion hr
    | some r =>
      rw [hq] at hr
      simp only [Option.map_some'] at hr
      injection hr with hr
      subst hr
      obtain ⟨g3, q⟩ := r
      obtain ⟨h1, h2, h3, h4, h5, h6⟩ := matchMultiplierColonQuery_sound hq
      exact ⟨rfl, rfl, h1, h2, h3, h4, h5, h6⟩
  unfold matchAt at h
  simp only at h
  by_cases hi : i = 0
  · simp only [hi, if_true] at h
    cases hstart : (matchMultiplierColonQuery s).map
        (fun r => (⟨0, [], r.1, r.2⟩ : RegExpMatch)) with
    | some m0 =>
      rw [hstart] at h
      simp only at h
      injection h with h
      subst h
      subst hi
      obtain ⟨h0, hb, h1, h2, h3, h4, h5, h6⟩ := viaGroups [] s hstart
      refine ⟨h0, ?_, h2, h3, h4, h5, h6, Or.inl ⟨rfl, hb⟩⟩
      rw [hb]; simpa using h1
    | none =>
      rw [hstart] at h
      simp only at h
      subst hi
      cases s with
      | nil => exact Option.noConfusion h
      | cons x rest =>
        simp only at h
        by_cases hx : isWordChar x = true
        · simp only [hx, if_true] at h; exact Option.noConfusion h
        · simp only [hx, if_false] at h
          obtain ⟨h0, hb, h1, h2, h3, h4, h5, h6⟩ := viaGroups [x] rest h
          refine ⟨h0, ?_, h2, h3, h4, h5, h6, Or.inr ⟨x, hb, by simpa using hx⟩⟩
          rw [hb, h1]; simp
  · simp only [hi, if_false] at h
    cases s with
    | nil => exact Option.noConfusion h
    | cons x rest =>
      simp only at h
      by_cases hx : isWordChar x = true
      · simp only [hx, if_true] at h; exact Option.noConfusion h
      · simp only [hx, if_false] at h
        obtain ⟨h0, hb, h1, h2, h3, h4, h5, h6⟩ := viaGroups [x] rest h
        refine ⟨h0, ?_, h2, h3, h4, h5, h6, Or.inr ⟨x, hb, by simpa using hx⟩⟩
        rw [hb, h1]; simp

/-- The scan stops at an offset inside the text, and returns that attempt. -/
theorem execFrom_sound {s : Str} : ∀ {i : Nat} {m : RegExpMatch}, execFrom i s = some m →
    ∃ pre rest, s = pre ++ rest ∧ matchAt (i + pre.length) rest = some m := by
  induction s with
  | nil =>
    intro i m h
    exact ⟨[], [], rfl, by simpa [execFrom] using h⟩
  | cons x xs ih =>
    intro i m h
    simp only [execFrom] at h
    cases hm : matchAt i (x :: xs) with
    | some m0 =>
      rw [hm] at h
      injection h with h; subst h
      exact ⟨[], x :: xs, rfl, by simpa using hm⟩
    | none =>
      rw [hm] at h
      obtain ⟨pre, rest, hs, hr⟩ := ih h
      refine ⟨x :: pre, rest, by rw [hs]; rfl, ?_⟩
      have : i + (x :: pre).length = i + 1 + pre.length := by simp; omega
      rw [this]; exact hr

/-- The scan finds a match as soon as an attempt at some offset succeeds. -/
theorem execFrom_isSome (rest : Str) : ∀ (pre : Str) (i : Nat),
    (matchAt (i + pre.length) rest).isSome = true → (execFrom i (pre ++ rest)).isSome = true := by
  intro pre
  induction pre with
  | nil =>
    intro i h
    simp only [List.length_nil, Nat.add_zero] at h
    cases rest with
    | nil => simpa [execFrom] using h
    | cons y ys =>
      simp only [List.nil_append, execFrom]
      cases hm : matchAt i (y :: ys) with
      | some m0 => rfl
      | none => rw [hm] at h; exact Bool.noConfusion h
  | cons x xs ih =>
    intro i h
    simp only [List.cons_append, execFrom]
    cases hm : matchAt i (x :: (xs ++ rest)) with
    | some m0 => rfl
    | none =>
      apply ih (i + 1)
      have : i + 1 + xs.length = i + (x :: xs).length := by simp; omega
      rw [this]; exact h

/-- A text has one split at its last colon. -/
theorem colon_split_unique {q q' : Str} (hq : 58 ∉ q) (hq' : 58 ∉ q') :
    ∀ {a a' : Str}, a ++ 58 :: q = a' ++ 58 :: q' → a = a' ∧ q = q' := by
  intro a
  induction a with
  | nil =>
    intro a' h
    cases a' with
    | nil => simpa using h
    | cons y ys =>
      simp only [List.nil_append, List.cons_append, List.cons.injEq] at h
      exact absurd (h.2 ▸ List.mem_append_right ys (List.mem_cons_self 58 q')) hq
  | cons x xs ih =>
    intro a' h
    cases a' with
    | nil =>
      simp only [List.nil_append, List.cons_append, List.cons.injEq] at h
      exact absurd (h.2 ▸ List.mem_append_right xs (List.mem_cons_self 58 q)) hq'
    | cons y ys =>
      simp only [List.cons_append, List.cons.injEq] at h
      obtain ⟨h1, h2⟩ := ih h.2
      exact ⟨by rw [h.1, h1], h2⟩

/-- Digits cannot reach back over the boundary unit in front of a token. -/
theorem digits_after_boundary {p' p a : Str}
    (hp' : p' = [] ∨ ∃ p0 x, p' = p0 ++ [x] ∧ isWordChar x = false)
    (h : p' = p ++ a) (ha : a.all isDigit = true) : a = [] := by
  by_contra hne
  rcases hp' with h0 | ⟨p0, x, hx, hw⟩
  · rw [h0] at h
    have := List.append_eq_nil.mp h.symm
    exact hne this.2
  · have h1 : (p ++ a).getLast? = some x := by rw [← h, hx]; exact List.getLast?_concat p0
    rw [List.getLast?_append, List.getLast?_eq_getLast a hne] at h1
    simp only [Option.or] at h1
    injection h1 with h1
    have hmem : x ∈ a := h1 ▸ List.getLast_mem hne
    have hdig := (List.all_eq_true.mp ha) x hmem
    rw [isWordChar_of_isDigit hdig] at hw
    exact Bool.noConfusion hw

/-- The grammar reads a text in one way only. -/
theorem tokenGrammar_unique {p d q p' d' q' : Str}
    (hg : TokenGrammar p d q) (hg' : TokenGrammar p' d' q')
    (h : p ++ d ++ 58 :: q = p' ++ d' ++ 58 :: q') : p = p' ∧ d = d' ∧ q = q' := by
  obtain ⟨hp, hd, -, hq, -⟩ := hg
  obtain ⟨hp', hd', -, hq', -⟩ := hg'
  obtain ⟨h1, h2⟩ := colon_split_unique (colon_not_mem_of_all_query hq)
    (colon_not_mem_of_all_query hq') h
  rcases List.append_eq_append_iff.mp h1 with ⟨a, ha1, ha2⟩ | ⟨c, hc1, hc2⟩
  · -- `p' = p ++ a` and `d = a ++ d'`
    have hda : a.all isDigit = true := by
      rw [ha2, List.all_append, Bool.and_eq_true] at hd; exact hd.1
    have := digits_after_boundary hp' ha1 hda
    subst this
    simp only [List.append_nil, List.nil_append] at ha1 ha2
    exact ⟨ha1.symm, ha2, h2⟩
  · have hdc : c.all isDigit = true := by
      rw [hc2, List.all_append, Bool.and_eq_true] at hd'; exact hd'.1
    have := digits_after_boundary hp hc1 hdc
    subst this
    simp only [List.append_nil, List.nil_append] at hc1 hc2
    exact ⟨hc1, hc2.symm, h2⟩

/-- Every match of the token pattern reads the text by the grammar. -/
theorem grammar_of_exec {text : Str} {m : RegExpMatch}
    (h : TOKEN_WITH_MULTIPLIER_RE text = some m) :
    ∃ p, TokenGrammar p (m.group3.getD []) m.group4 ∧
      text = p ++ m.group3.getD [] ++ 58 :: m.group4 ∧
      m.index + m.group1.length = p.length ∧
      (m.group3 = none ∨ (m.group3.getD []).length ≠ 0) := by
  obtain ⟨pre, rest, hs, hm⟩ := execFrom_sound h
  obtain ⟨hi, hr, h2, h3, h4, h5, h6, hb⟩ := matchAt_sound hm
  refine ⟨pre ++ m.group1, ⟨?_, h4, h5, h2, h3⟩, ?_, ?_, h6⟩
  · rcases hb with ⟨h0, hb⟩ | ⟨x, hb, hx⟩
    · left
      have : pre = [] := by
        have : pre.length = 0 := by omega
        exact List.length_eq_zero.mp this
      rw [this, hb]; rfl
    · right; exact ⟨pre, x, by rw [hb], hx⟩
  · rw [hs, hr]; simp
  · rw [hi]; simp

/-- A text that follows the grammar is matched, and the match reads it as written. -/
theorem exec_of_grammar {p d q : Str} (hg : TokenGrammar p d q) :
    ∃ m, TOKEN_WITH_MULTIPLIER_RE (p ++ d ++ 58 :: q) = some m ∧
      m.index + m.group1.length = p.length ∧ m.group3.getD [] = d ∧ m.group4 = q := by
  have hsome : (TOKEN_WITH_MULTIPLIER_RE (p ++ d ++ 58 :: q)).isSome = true := by
    obtain ⟨hp, hd, hdl, hq, hql⟩ := hg
    have hmc := matchMultiplierColonQuery_complete hd hdl hq hql
    rcases hp with h0 | ⟨p0, x, hx, hw⟩
    · subst h0
      have := execFrom_isSome (d ++ 58 :: q) [] 0
      apply this
      simp [matchAt, hmc]
    · subst hx
      have := execFrom_isSome (x :: (d ++ 58 :: q)) p0 0
      have heq : p0 ++ [x] ++ d ++ 58 :: q = p0 ++ x :: (d ++ 58 :: q) := by simp
      unfold TOKEN_WITH_MULTIPLIER_RE
      rw [heq]
      apply this
      unfold matchAt
      simp only
      cases hstart : (if 0 + p0.length = 0 then
          (matchMultiplierColonQuery (x :: (d ++ 58 :: q))).map
            (fun r => (⟨0 + p0.length, [], r.1, r.2⟩ : RegExpMatch)) else none) with
      | some m0 => rfl
      | none => simp [hw, hmc]
  obtain ⟨m, hm⟩ := Option.isSome_iff_exists.mp hsome
  obtain ⟨p', hg', htext, hidx, -⟩ := grammar_of_exec hm
  obtain ⟨h1, h2, h3⟩ := tokenGrammar_unique hg hg' htext
  exact ⟨m, hm, by rw [hidx, h1], h2.symm, h3.symm⟩

theorem isLowerQueryChar_lowerUnit {c : Nat} (h : isQueryChar c = true) :
    isLowerQueryChar (lowerUnit c) = true := by
  simp only [isQueryChar, isWordChar, isLetter, isDigit, Bool.or_eq_true, Bool.and_eq_true,
    decide_eq_true_eq, beq_iff_eq] at h
  simp only [isLowerQueryChar, isDigit, lowerUnit, Bool.or_eq_true, Bool.and_eq_true,
    decide_eq_true_eq, beq_iff_eq]
  split <;> omega

theorem get?_boundary (p0 : Str) (x : Nat) (rest : Str) :
    (p0 ++ x :: rest).get? p0.length = some x := by
  induction p0 with
  | nil => rfl
  | cons y ys ih => simpa using ih

theorem clampNumber_bounds (n : Nat) : 1 ≤ clampNumber n ∧ clampNumber n ≤ 20 := by
  simp only [clampNumber, MAX_MULTIPLIER]
  omega

/-- The token that `extractActiveToken` builds from a match, when it builds one. -/
theorem extractActiveToken_of_match {text : Str} {m : RegExpMatch} (hne : text ≠ [])
    (hm : TOKEN_WITH_MULTIPLIER_RE text = some m) :
    extractActiveToken text =
      if VALID_QUERY_RE m.group4 = false then none
      else if (m.group3.getD []) ≠ [] ∧ m.group4 ≠ [] ∧ m.group4.any isLetter = false
        then none
      else some
        { start := m.index + m.group1.length
          end_ := text.length
          query := toLowerCase m.group4
          multiplier := clampMultiplier (m.group3.getD []) } := by
  have hlen : text.length ≠ 0 := fun h => hne (List.length_eq_zero.mp h)
  unfold extractActiveToken
  rw [if_neg hlen, hm]
  simp only
  by_cases hv : VALID_QUERY_RE m.group4 = true
  · by_cases hd : m.group3.getD [] = []
    · simp [hv, hd]
    · by_cases hq : m.group4 = []
      · simp [hv, hd, hq, MULTIPLIER_QUERY_GUARD_RE]
      · by_cases hl : m.group4.any isLetter = true
        · simp [hv, hd, hq, MULTIPLIER_QUERY_GUARD_RE, hl, List.isEmpty_iff]
        · have hl' : m.group4.any isLetter = false := by simpa using hl
          simp [hv, hd, hq, MULTIPLIER_QUERY_GUARD_RE, hl', List.isEmpty_iff]
  · have hv' : VALID_QUERY_RE m.group4 = false := by simpa using hv
    simp [hv']

theorem valid_query_of_grammar {p d q : Str} (hg : TokenGrammar p d q) :
    VALID_QUERY_RE q = true := by
  obtain ⟨-, -, -, hq, hql⟩ := hg
  simp [VALID_QUERY_RE, hq, hql]

/-! ## Lemmas on the ranking engine -/

theorem startsWith_iff {s q : Str} : startsWith s q = true ↔ q <+: s := by
  simp [startsWith]

theorem includes_iff {s q : Str} : includes s q = true ↔ q <:+: s := by
  induction s with
  | nil => simp [includes]
  | cons c s ih =>
    simp only [includes, Bool.or_eq_true, ih, List.isPrefixOf_iff_prefix]
    rw [List.infix_cons_iff]

theorem includes_of_startsWith {s q : Str} (h : startsWith s q = true) :
    includes s q = true :=
  includes_iff.mpr (startsWith_iff.mp h).isInfix

/-- The score left by the loop over the aliases. -/
theorem aliasLoop_fst (q : Str) : ∀ (l : List Str) (st : Nat × Str),
    (aliasLoop q l st).1 =
      if l.any (fun a => startsWith a q) = true then max st.1 1030
      else if l.any (fun a => includes a q) = true then max st.1 880
      else st.1 := by
  intro l
  induction l with
  | nil => intro st; simp [aliasLoop]
  | cons a rest ih =>
    intro st
    obtain ⟨score, matchAlias⟩ := st
    simp only [aliasLoop, List.any_cons]
    by_cases hA : rest.any (fun a => startsWith a q) = true <;>
      by_cases hB : rest.any (fun a => includes a q) = true <;>
      by_cases h1 : startsWith a q = true <;>
      by_cases h2 : includes a q = true <;>
      simp only [h1, h2, if_true, if_false, Bool.true_or, Bool.false_or, Bool.or_true,
        Bool.or_false, ih, hA, hB, Bool.false_eq_true, Bool.or_eq_true, or_true, true_or,
        or_self, or_false, false_or] <;>
      omega

/-- The score left by the loop over the keywords. -/
theorem keywordLoop_eq (q : Str) : ∀ (l : List Str) (score : Nat),
    keywordLoop q l score =
      if l.any (fun k => startsWith k q) = true then 780
      else if l.any (fun k => includes k q) = true then 700
      else score := by
  intro l
  induction l with
  | nil => intro score; simp [keywordLoop]
  | cons k rest ih =>
    intro score
    simp only [keywordLoop, List.any_cons]
    by_cases hA : rest.any (fun k => startsWith k q) = true <;>
      by_cases hB : rest.any (fun k => includes k q) = true <;>
      by_cases h1 : startsWith k q = true <;>
      by_cases h2 : includes k q = true <;>
      simp only [h1, h2, if_true, if_false, Bool.true_or, Bool.false_or, Bool.or_true,
        Bool.or_false, ih, hA, hB, Bool.false_eq_true, Bool.or_eq_true, or_true, true_or,
        or_self, or_false, false_or, ite_self]

/-- The loop body of `searchEmoji` computes the tier table of the specification. -/
theorem scoreEntry_fst (q : Str) (e : EmojiEntry) : (scoreEntry q e).1 = specBase q e := by
  have hA : (∃ a ∈ e.aliases, q <+: a) ↔ e.aliases.any (fun a => startsWith a q) = true := by
    simp [List.any_eq_true, startsWith_iff]
  have hB : (∃ a ∈ e.aliases, q <:+: a) ↔ e.aliases.any (fun a => includes a q) = true := by
    simp [List.any_eq_true, includes_iff]
  have hC : (∃ k ∈ e.keywords, q <+: k) ↔
      e.keywords.any (fun k => startsWith k q) = true := by
    simp [List.any_eq_true, startsWith_iff]
  have hD : (∃ k ∈ e.keywords, q <:+: k) ↔ e.keywords.any (fun k => includes k q) = true := by
    simp [List.any_eq_true, includes_iff]
  have hE : (∃ a ∈ e.aliases, a = q) ↔ q ∈ e.aliases := by simp
  have hF : q <+: e.shortcode ↔ startsWith e.shortcode q = true := startsWith_iff.symm
  have hG : q <:+: e.shortcode ↔ includes e.shortcode q = true := includes_iff.symm
  unfold scoreEntry specBase
  simp only [hA, hB, hC, hD, hE, hF, hG]
  by_cases h1 : e.shortcode = q
  · simp [h1]
  · by_cases h2 : q ∈ e.aliases
    · simp [h1, h2]
    · by_cases h3 : startsWith e.shortcode q = true
      · simp [h1, h2, h3]
      · simp only [h1, h2, h3, if_false, aliasLoop_fst, keywordLoop_eq, Bool.false_eq_true]
        by_cases h4 : e.aliases.any (fun a => startsWith a q) = true
        · simp [h4]
        · by_cases h5 : e.aliases.any (fun a => includes a q) = true
          · simp [h4, h5]
          · by_cases h6 : includes e.shortcode q = true
            · simp [h4, h5, h6]
            · simp only [h4, h5, h6, if_false, and_false, Bool.false_eq_true, Nat.zero_max,
                if_true]

/-- The entries of `matches`, before the sort. -/
theorem mem_collectMatches {usageCounts : UsageCounts} {q : Str} {s : Suggestion} :
    ∀ {l : List EmojiEntry}, s ∈ collectMatches usageCounts q l ↔
      ∃ e ∈ l, (scoreEntry q e).1 ≠ 0 ∧
        s = { entry := e
              score := (scoreEntry q e).1 + usageBoost (getUsageScore usageCounts e.shortcode)
              matchAlias := (scoreEntry q e).2 } := by
  intro l
  induction l with
  | nil => simp [collectMatches]
  | cons e rest ih =>
    simp only [collectMatches]
    by_cases h0 : (scoreEntry q e).1 = 0
    · simp only [h0, if_true, ih, List.mem_cons, exists_eq_or_imp, ne_eq, not_true_eq_false,
        false_and, false_or]
    · simp only [h0, if_false, ih, List.mem_cons, exists_eq_or_imp, ne_eq, not_false_eq_true,
        true_and]

theorem length_collectMatches_le (usageCounts : UsageCounts) (q : Str) :
    ∀ l : List EmojiEntry, (collectMatches usageCounts q l).length ≤ l.length := by
  intro l
  induction l with
  | nil => simp [collectMatches]
  | cons e rest ih =>
    simp only [collectMatches]
    split
    · simp only [List.length_cons]; omega
    · simp only [List.length_cons]; omega

/-- An entry has a positive base score exactly when the query occurs in its shortcode, in
an alias or in a keyword. -/
theorem specBase_ne_zero_iff (q : Str) (e : EmojiEntry) :
    specBase q e ≠ 0 ↔
      (q <:+: e.shortcode ∨ (∃ a ∈ e.aliases, q <:+: a) ∨
        ∃ k ∈ e.keywords, q <:+: k) := by
  unfold specBase
  constructor
  · intro h
    by_contra hno
    simp only [not_or] at hno
    obtain ⟨n1, n2, n3⟩ := hno
    have m1 : ¬ e.shortcode = q := fun h => n1 (h ▸ List.infix_refl _)
    have m2 : ¬ ∃ a ∈ e.aliases, a = q :=
      fun ⟨a, ha, h⟩ => n2 ⟨a, ha, h ▸ List.infix_refl _⟩
    have m3 : ¬ q <+: e.shortcode := fun h => n1 h.isInfix
    have m4 : ¬ ∃ a ∈ e.aliases, q <+: a := fun ⟨a, ha, h⟩ => n2 ⟨a, ha, h.isInfix⟩
    have m7 : ¬ ∃ k ∈ e.keywords, q <+: k := fun ⟨k, hk, h⟩ => n3 ⟨k, hk, h.isInfix⟩
    rw [if_neg m1, if_neg m2, if_neg m3, if_neg m4, if_neg n2, if_neg n1, if_neg m7,
      if_neg n3] at h
    exact h rfl
  · intro h
    split
    · simp
    · split
      · simp
      · split
        · simp
        · split
          · simp
          · split
            · simp
            · split
              · simp
              · split
                · simp
                · split
                  · simp
                  · rename_i n1 n2 n3 n4 n5 n6 n7 n8
                    rcases h with h | h | h
                    · exact absurd h n6
                    · exact absurd h n5
                    · exact absurd h n8

/-- The comparison function of `matches.sort` orders as the specification says. -/
theorem compareMatches_le_iff (J : JsString) (usageCounts : UsageCounts) (a b : Suggestion) :
    compareMatches J usageCounts a b ≤ 0 ↔ rankedBefore J usageCounts a b := by
  unfold compareMatches rankedBefore getUsageScore
  by_cases hs : b.score = a.score
  · by_cases hu : (usageCounts.lookup b.entry.shortcode).getD 0
        = (usageCounts.lookup a.entry.shortcode).getD 0
    · simp [hs, hu]
    · simp only [hs, ne_eq, not_true_eq_false, if_false, lt_irrefl, true_and, false_or]
      have hu' : (((usageCounts.lookup b.entry.shortcode).getD 0 : Int)
          - ((usageCounts.lookup a.entry.shortcode).getD 0 : Int)) ≠ 0 := by omega
      rw [if_pos hu']
      constructor
      · intro h; left; omega
      · rintro (h | ⟨h, -⟩)
        · omega
        · exact absurd h.symm hu
  · have hs' : ¬ a.score = b.score := fun h => hs h.symm
    simp only [ne_eq, hs, not_false_eq_true, if_true, hs', false_and, or_false]
    omega

theorem rankedBefore_total {J : JsString} (hJ : ConsistentCompare J.localeCompare)
    (usageCounts : UsageCounts) (a b : Suggestion) :
    rankedBefore J usageCounts a b ∨ rankedBefore J usageCounts b a := by
  unfold rankedBefore
  rcases Nat.lt_trichotomy a.score b.score with h | h | h
  · right; left; exact h
  · rcases Nat.lt_trichotomy ((usageCounts.lookup a.entry.shortcode).getD 0)
        ((usageCounts.lookup b.entry.shortcode).getD 0) with hu | hu | hu
    · right; right; exact ⟨h.symm, Or.inl hu⟩
    · rcases hJ.1 a.entry.shortcode b.entry.shortcode with hl | hl
      · left; right; exact ⟨h, Or.inr ⟨hu, hl⟩⟩
      · right; right; exact ⟨h.symm, Or.inr ⟨hu.symm, hl⟩⟩
    · left; right; exact ⟨h, Or.inl hu⟩
  · left; left; exact h

theorem rankedBefore_trans {J : JsString} (hJ : ConsistentCompare J.localeCompare)
    (usageCounts : UsageCounts) {a b c : Suggestion}
    (hab : rankedBefore J usageCounts a b) (hbc : rankedBefore J usageCounts b c) :
    rankedBefore J usageCounts a c := by
  unfold rankedBefore at *
  rcases hab with h1 | ⟨h1, h2⟩
  · rcases hbc with g1 | ⟨g1, -⟩
    · left; omega
    · left; omega
  · rcases hbc with g1 | ⟨g1, g2⟩
    · left; omega
    · right
      refine ⟨h1.trans g1, ?_⟩
      rcases h2 with h2 | ⟨h2, h3⟩
      · rcases g2 with g2 | ⟨g2, -⟩
        · left; omega
        · left; omega
      · rcases g2 with g2 | ⟨g2, g3⟩
        · left; omega
        · right; exact ⟨h2.trans g2, hJ.2 _ _ _ h3 g3⟩

/-- The sorted array is ranked in the order of the specification. -/
theorem arraySort_compareMatches_sorted {J : JsString}
    (hJ : ConsistentCompare J.localeCompare) (usageCounts : UsageCounts) (l : List Suggestion) :
    (arraySort (compareMatches J usageCounts) l).Pairwise (rankedBefore J usageCounts) := by
  haveI : IsTotal Suggestion (fun a b => compareMatches J usageCounts a b ≤ 0) :=
    ⟨fun a b => by
      simp only [compareMatches_le_iff]; exact rankedBefore_total hJ usageCounts a b⟩
  haveI : IsTrans Suggestion (fun a b => compareMatches J usageCounts a b ≤ 0) :=
    ⟨fun a b c hab hbc => by
      simp only [compareMatches_le_iff] at *; exact rankedBefore_trans hJ usageCounts hab hbc⟩
  have h := List.sorted_insertionSort (fun a b => compareMatches J usageCounts a b ≤ 0) l
  exact List.Pairwise.imp (fun {a b} hab => (compareMatches_le_iff J usageCounts a b).mp hab) h

theorem arraySort_perm {α : Type} (cmp : α → α → Int) (l : List α) :
    (arraySort cmp l).Perm l :=
  List.perm_insertionSort _ l

/-- The ranked path of `searchEmoji`, taken for a query that is not empty once trimmed and
lowercased. -/
theorem searchEmoji_of_ne (J : JsString) (indexed : EmojiIndex) (usageCounts : UsageCounts)
    (query : Str) (maxItems : Int) (hq : J.toLowerCase (J.trim query) ≠ []) :
    searchEmoji J indexed usageCounts query maxItems =
      (arraySort (compareMatches J usageCounts)
        (collectMatches usageCounts (J.toLowerCase (J.trim query)) indexed.list)).take
        (max 1 maxItems).toNat := by
  unfold searchEmoji
  have : (J.toLowerCase (J.trim query)).isEmpty = false := by
    cases h : J.toLowerCase (J.trim query) with
    | nil => exact absurd h hq
    | cons c cs => rfl
  simp only [this, Bool.false_eq_true, if_false]

/-- Whatever `searchEmoji` returns on the ranked path is a scored entry of the index. -/
theorem mem_searchEmoji_of_ne {J : JsString} {indexed : EmojiIndex}
    {usageCounts : UsageCounts} {query : Str} {maxItems : Int}
    (hq : J.toLowerCase (J.trim query) ≠ []) {s : Suggestion}
    (hs : s ∈ searchEmoji J indexed usageCounts query maxItems) :
    s.entry ∈ indexed.list ∧ specBase (J.toLowerCase (J.trim query)) s.entry ≠ 0 ∧
      s.score = specBase (J.toLowerCase (J.trim query)) s.entry
        + usageBoost (getUsageScore usageCounts s.entry.shortcode) := by
  rw [searchEmoji_of_ne J indexed usageCounts query maxItems hq] at hs
  have h1 := (arraySort_perm _ _).mem_iff.mp (List.mem_of_mem_take hs)
  obtain ⟨e, he, hne, rfl⟩ := mem_collectMatches.mp h1
  rw [scoreEntry_fst] at hne
  exact ⟨he, hne, by simp only [scoreEntry_fst]⟩

/-- The code unit order, read at the heads of two non-empty strings. -/
theorem codeUnitCompare_cons_le (x y : Nat) (xs ys : Str) :
    codeUnitCompare (x :: xs) (y :: ys) ≤ 0 ↔
      x < y ∨ (x = y ∧ codeUnitCompare xs ys ≤ 0) := by
  simp only [codeUnitCompare]
  by_cases h1 : x < y
  · simp [h1]
  · by_cases h2 : y < x
    · simp only [h1, h2, if_false, if_true, false_or]
      constructor
      · intro h; omega
      · rintro ⟨h, -⟩; omega
    · have : x = y := by omega
      simp [h1, h2, this]

/-- The code unit order is a consistent comparison. -/
theorem codeUnitCompare_consistent : ConsistentCompare codeUnitCompare := by
  constructor
  · intro a
    induction a with
    | nil =>
      intro b
      cases b with
      | nil => left; simp [codeUnitCompare]
      | cons y ys => left; simp [codeUnitCompare]
    | cons x xs ih =>
      intro b
      cases b with
      | nil => right; simp [codeUnitCompare]
      | cons y ys =>
        rw [codeUnitCompare_cons_le, codeUnitCompare_cons_le]
        rcases Nat.lt_trichotomy x y with h | h | h
        · left; left; exact h
        · rcases ih ys with h' | h'
          · left; right; exact ⟨h, h'⟩
          · right; right; exact ⟨h.symm, h'⟩
        · right; left; exact h
  · intro a
    induction a with
    | nil =>
      intro b c _ _
      cases c with
      | nil => simp [codeUnitCompare]
      | cons z zs => simp [codeUnitCompare]
    | cons x xs ih =>
      intro b c hab hbc
      cases b with
      | nil => simp [codeUnitCompare] at hab
      | cons y ys =>
        cases c with
        | nil => simp [codeUnitCompare] at hbc
        | cons z zs =>
          rw [codeUnitCompare_cons_le] at hab hbc ⊢
          rcases hab with h | ⟨h, h'⟩
          · rcases hbc with g | ⟨g, -⟩
            · left; omega
            · left; omega
          · rcases hbc with g | ⟨g, g'⟩
            · left; omega
            · right; exact ⟨h.trans g, ih ys zs h' g'⟩

/-! ## Token parser: claims -/

/-- C1: for a text `p ++ d ++ ":" ++ q` that follows the trigger grammar (`p` empty or
ending outside `[A-Za-z0-9_]`, `d` at most two digits, `q` at most 40 units of
`[A-Za-z0-9_+-]`) and passes the multiplier guard (`d` empty, or `q` empty, or `q` with a
letter), `extractActiveToken` returns the token with `start = |p|`, `end = |text|`, the
query `q` lowercased, and the multiplier 1 for an empty `d` and otherwise the value of `d`
clamped to `[1, 20]`; with the two instances `"hello :smi"` and `"hello 3:heart"`. -/
theorem C1_extractActiveToken_of_grammar (p d q : Str) (hg : TokenGrammar p d q)
    (hguard : d = [] ∨ q = [] ∨ q.any isLetter = true) :
    extractActiveToken (p ++ d ++ 58 :: q) = some
        { start := p.length
          end_ := (p ++ d ++ 58 :: q).length
          query := q.map lowerUnit
          multiplier := if d = [] then 1 else min 20 (max 1 (numberOfDigits d)) } ∧
      extractActiveToken (utf16 "hello :smi") = some ⟨6, 10, utf16 "smi", 1⟩ ∧
      extractActiveToken (utf16 "hello 3:heart") = some ⟨6, 13, utf16 "heart", 3⟩ := by
  refine ⟨?_, by decide, by decide⟩
  obtain ⟨m, hm, hidx, hd, hq⟩ := exec_of_grammar hg
  have hne : p ++ d ++ 58 :: q ≠ [] := by simp
  rw [extractActiveToken_of_match hne hm, hd, hq, hidx, valid_query_of_grammar hg]
  have hno : ¬(d ≠ [] ∧ q ≠ [] ∧ q.any isLetter = false) := by
    rintro ⟨h1, h2, h3⟩
    rcases hguard with h | h | h
    · exact h1 h
    · exact h2 h
    · rw [h] at h3; exact Bool.noConfusion h3
  rw [if_neg (by simp), if_neg hno]
  congr 2
  by_cases hd0 : d = []
  · subst hd0; simp [clampMultiplier, clampNumber, numberOfDigits, MAX_MULTIPLIER]
  · simp [hd0, clampMultiplier, clampNumber, MAX_MULTIPLIER]

/-- Witness of C1 at `p = "hello "`, `d = "3"`, `q = "heart"`. -/
theorem C1_extractActiveToken_of_grammar_witness :
    TokenGrammar (utf16 "hello ") (utf16 "3") (utf16 "heart") ∧
      extractActiveToken (utf16 "hello " ++ utf16 "3" ++ 58 :: utf16 "heart") = some
        { start := 6, end_ := 13, query := utf16 "heart", multiplier := 3 } :=
  have hg : TokenGrammar (utf16 "hello ") (utf16 "3") (utf16 "heart") :=
    ⟨Or.inr ⟨utf16 "hello", 32, by decide, by decide⟩, by decide, by decide, by decide,
      by decide⟩
  ⟨hg, (C1_extractActiveToken_of_grammar (utf16 "hello ") (utf16 "3") (utf16 "heart") hg
    (Or.inr (Or.inr (by decide)))).1⟩

/-- C2: whenever `extractActiveToken` returns a token `t`, `t.end` is the length of the
text; the slice from `t.start` is at most two digits, a colon and a run `r` of at most 40
units of `[A-Za-z0-9_+-]`; `t.start` is 0 or the unit in front of it is no word character;
`t.query` is `r` lowercased, of length at most 40 and within `[a-z0-9_+-]`; and
`1 ≤ t.multiplier ≤ 20`. In every other case the result is none. -/
theorem C2_extractActiveToken_sound (text : Str) (t : ActiveToken)
    (h : extractActiveToken text = some t) :
    t.end_ = text.length ∧ t.start < t.end_ ∧
      (∃ d r, text.drop t.start = d ++ 58 :: r ∧
        d.all isDigit = true ∧ d.length ≤ 2 ∧
        r.all isQueryChar = true ∧ r.length ≤ 40 ∧
        t.query = r.map lowerUnit) ∧
      (t.start = 0 ∨ ∃ x, text.get? (t.start - 1) = some x ∧ isWordChar x = false) ∧
      t.query.length ≤ 40 ∧ t.query.all isLowerQueryChar = true ∧
      1 ≤ t.multiplier ∧ t.multiplier ≤ 20 := by
  have hne : text ≠ [] := by
    intro h0
    subst h0
    simp [extractActiveToken] at h
  cases hm : TOKEN_WITH_MULTIPLIER_RE text with
  | none =>
    have hlen : text.length ≠ 0 := fun h0 => hne (List.length_eq_zero.mp h0)
    simp [extractActiveToken, hlen, hm] at h
  | some m =>
    obtain ⟨p, ⟨hp, hd, hdl, hq, hql⟩, htext, hidx, -⟩ := grammar_of_exec hm
    rw [extractActiveToken_of_match hne hm] at h
    split at h
    · exact Option.noConfusion h
    · split at h
      · exact Option.noConfusion h
      · injection h with h
        subst h
        simp only
        have hstart : m.index + m.group1.length = p.length := hidx
        have hlen : text.length = p.length + (m.group3.getD []).length + (m.group4.length + 1) := by
          rw [htext]; simp only [List.length_append, List.length_cons]
        refine ⟨trivial, by omega, ⟨m.group3.getD [], m.group4, ?_, hd, hdl, hq, hql, rfl⟩,
          ?_, ?_, ?_, (clampNumber_bounds _).1, (clampNumber_bounds _).2⟩
        · rw [hstart, htext, List.append_assoc, List.drop_left]
        · rcases hp with h0 | ⟨p0, x, hx, hw⟩
          · left; rw [hstart, h0]; rfl
          · right
            refine ⟨x, ?_, hw⟩
            rw [hstart, htext, hx]
            simp only [List.length_append, List.length_singleton, Nat.add_sub_cancel,
              List.append_assoc, List.singleton_append]
            exact get?_boundary p0 x _
        · simpa [toLowerCase] using hql
        · rw [List.all_eq_true]
          intro c hc
          simp only [toLowerCase, List.mem_map] at hc
          obtain ⟨c0, hc0, rfl⟩ := hc
          exact isLowerQueryChar_lowerUnit ((List.all_eq_true.mp hq) c0 hc0)

/-- Witness of C2 at the text `"hello 3:heart"`. -/
theorem C2_extractActiveToken_sound_witness :
    extractActiveToken (utf16 "hello 3:heart") = some ⟨6, 13, utf16 "heart", 3⟩ ∧
      (13 = (utf16 "hello 3:heart").length ∧ 6 < 13 ∧
        (∃ d r, (utf16 "hello 3:heart").drop 6 = d ++ 58 :: r ∧
          d.all isDigit = true ∧ d.length ≤ 2 ∧
          r.all isQueryChar = true ∧ r.length ≤ 40 ∧
          utf16 "heart" = r.map lowerUnit) ∧
        (6 = 0 ∨
          ∃ x, (utf16 "hello 3:heart").get? (6 - 1) = some x ∧ isWordChar x = false) ∧
        (utf16 "heart").length ≤ 40 ∧ (utf16 "heart").all isLowerQueryChar = true ∧
        1 ≤ 3 ∧ 3 ≤ 20) :=
  ⟨by decide, C2_extractActiveToken_sound (utf16 "hello 3:heart") ⟨6, 13, utf16 "heart", 3⟩
    (by decide)⟩

/-- C8: for a text `p ++ d ++ ":" ++ q` where `p` is empty or ends outside the word
characters, `d` is one or two digits and `q` is a non-empty run of at most 40 units of
`[0-9_+-]` (no letter), `extractActiveToken` returns none; so it does on `"3:22"`. -/
theorem C8_numeric_query_with_multiplier_rejected (p d q : Str) (hg : TokenGrammar p d q)
    (hd : d ≠ []) (hq : q ≠ []) (hletter : q.any isLetter = false) :
    extractActiveToken (p ++ d ++ 58 :: q) = none ∧
      extractActiveToken (utf16 "3:22") = none := by
  refine ⟨?_, by decide⟩
  obtain ⟨m, hm, -, hmd, hmq⟩ := exec_of_grammar hg
  have hne : p ++ d ++ 58 :: q ≠ [] := by simp
  rw [extractActiveToken_of_match hne hm, hmd, hmq, valid_query_of_grammar hg]
  rw [if_neg (by simp), if_pos ⟨hd, hq, hletter⟩]

/-- Witness of C8 at `p = "x "`, `d = "12"`, `q = "4_5"`. -/
theorem C8_numeric_query_with_multiplier_rejected_witness :
    TokenGrammar (utf16 "x ") (utf16 "12") (utf16 "4_5") ∧
      extractActiveToken (utf16 "x " ++ utf16 "12" ++ 58 :: utf16 "4_5") = none :=
  have hg : TokenGrammar (utf16 "x ") (utf16 "12") (utf16 "4_5") :=
    ⟨Or.inr ⟨utf16 "x", 32, by decide, by decide⟩, by decide, by decide, by decide,
      by decide⟩
  ⟨hg, (C8_numeric_query_with_multiplier_rejected (utf16 "x ") (utf16 "12") (utf16 "4_5") hg
    (by decide) (by decide) (by decide)).1⟩

/-! ## Ranking engine: claims -/

theorem usageBoost_le (c : Nat) : usageBoost c ≤ 200 := by
  simp only [usageBoost]; omega

theorem pairwise_get? {α : Type} {R : α → α → Prop} {l : List α} (h : l.Pairwise R)
    {i j : Nat} {a b : α} (ha : l.get? i = some a) (hb : l.get? j = some b) (hij : i < j) :
    R a b := by
  obtain ⟨hi, ha'⟩ := List.get?_eq_some.mp ha
  obtain ⟨hj, hb'⟩ := List.get?_eq_some.mp hb
  have := (List.pairwise_iff_get.mp h) ⟨i, hi⟩ ⟨j, hj⟩ hij
  rw [ha', hb'] at this
  exact this

/-- The result of the ranked path is ranked. -/
theorem searchEmoji_pairwise {J : JsString} (hJ : ConsistentCompare J.localeCompare)
    (indexed : EmojiIndex) (usageCounts : UsageCounts) (query : Str) (maxItems : Int)
    (hq : J.toLowerCase (J.trim query) ≠ []) :
    (searchEmoji J indexed usageCounts query maxItems).Pairwise
      (rankedBefore J usageCounts) := by
  rw [searchEmoji_of_ne J indexed usageCounts query maxItems hq]
  exact (arraySort_compareMatches_sorted hJ usageCounts _).sublist (List.take_sublist _ _)

/-- C3: for a query that is not empty once trimmed and lowercased (`q`), any usage table
and `maxItems` at least the size of the index, an index entry appears in the result of
`searchEmoji` exactly when `q` occurs in its shortcode, in one of its aliases or in one of
its keywords, and the score of every result is the base of the first tier rule that fires
(`specBase`) plus `4 * min(50, usage count)`, the usage count being the count that the table
holds for the shortcode of the entry and 0 where it holds none; that usage term is monotone
in the count, at most 200, and the same for every count from 50 on. -/
theorem C3_search_membership_and_score (J : JsString) (indexed : EmojiIndex)
    (usageCounts : UsageCounts) (query : Str) (maxItems : Int)
    (hq : J.toLowerCase (J.trim query) ≠ [])
    (hmax : (indexed.list.length : Int) ≤ maxItems) :
    (∀ e ∈ indexed.list,
      (∃ s ∈ searchEmoji J indexed usageCounts query maxItems, s.entry = e) ↔
        (J.toLowerCase (J.trim query) <:+: e.shortcode ∨
          (∃ a ∈ e.aliases, J.toLowerCase (J.trim query) <:+: a) ∨
          ∃ k ∈ e.keywords, J.toLowerCase (J.trim query) <:+: k)) ∧
      (∀ s ∈ searchEmoji J indexed usageCounts query maxItems,
        s.score = specBase (J.toLowerCase (J.trim query)) s.entry
          + 4 * min 50 ((usageCounts.lookup s.entry.shortcode).getD 0)) ∧
      (∀ c₁ c₂ : Nat, c₁ ≤ c₂ → 4 * min 50 c₁ ≤ 4 * min 50 c₂) ∧
      (∀ c : Nat, 4 * min 50 c ≤ 200) ∧
      (∀ c : Nat, 50 ≤ c → 4 * min 50 c = 4 * min 50 50) ∧
      (∀ c : Nat, usageBoost c = 4 * min 50 c) := by
  refine ⟨?_, ?_, fun c₁ c₂ h => by omega, fun c => by omega, fun c h => by omega,
    fun c => by simp only [usageBoost]; omega⟩
  · intro e he
    rw [← specBase_ne_zero_iff]
    constructor
    · rintro ⟨s, hs, rfl⟩
      exact (mem_searchEmoji_of_ne hq hs).2.1
    · intro hne
      refine ⟨{ entry := e
                score := (scoreEntry (J.toLowerCase (J.trim query)) e).1
                  + usageBoost (getUsageScore usageCounts e.shortcode)
                matchAlias := (scoreEntry (J.toLowerCase (J.trim query)) e).2 }, ?_, rfl⟩
      rw [searchEmoji_of_ne J indexed usageCounts query maxItems hq]
      have hmem : _ ∈ collectMatches usageCounts (J.toLowerCase (J.trim query)) indexed.list :=
        mem_collectMatches.mpr ⟨e, he, by rw [scoreEntry_fst]; exact hne, rfl⟩
      have hlen := length_collectMatches_le usageCounts (J.toLowerCase (J.trim query))
        indexed.list
      rw [List.take_of_length_le]
      · exact (arraySort_perm _ _).mem_iff.mpr hmem
      · rw [(arraySort_perm _ _).length_eq]
        omega
  · intro s hs
    rw [(mem_searchEmoji_of_ne hq hs).2.2]
    simp only [usageBoost, getUsageScore]; omega

/-- Witness of C3 on the example index, with the query `" Smi "` and `smiley` used 3 times:
the count lifts `smiley` to 1080 + 12 and in front of `smile`, which stays at 1080. -/
theorem C3_search_membership_and_score_witness :
    basicLatin.toLowerCase (basicLatin.trim (utf16 " Smi ")) ≠ [] ∧
      ((exampleIndex.list.length : Int) ≤ 8) ∧
      searchEmoji basicLatin exampleIndex [(utf16 "smiley", 3)] (utf16 " Smi ") 8
        = [⟨smiley, 1092, []⟩, ⟨smile, 1080, []⟩] ∧
      specBase (utf16 "smi") smiley = 1080 ∧
      List.lookup (utf16 "smiley") [(utf16 "smiley", 3)] = some 3 ∧
      (∀ s ∈ searchEmoji basicLatin exampleIndex [(utf16 "smiley", 3)] (utf16 " Smi ") 8,
        s.score = specBase (basicLatin.toLowerCase (basicLatin.trim (utf16 " Smi "))) s.entry
          + 4 * min 50 ((List.lookup s.entry.shortcode [(utf16 "smiley", 3)]).getD 0)) :=
  ⟨by decide, by decide, by decide, by decide, by decide,
    (C3_search_membership_and_score basicLatin exampleIndex [(utf16 "smiley", 3)]
      (utf16 " Smi ") 8 (by decide) (by decide)).2.1⟩

/-- The two entries of the ranking example both fall in the shortcode-prefix tier. -/
theorem collectMatches_smile_smiley :
    collectMatches [] (utf16 "smi") [smile, smiley]
        = [⟨smile, 1080, []⟩, ⟨smiley, 1080, []⟩] ∧
      collectMatches [] (utf16 "smi") [smiley, smile]
        = [⟨smiley, 1080, []⟩, ⟨smile, 1080, []⟩] := by
  constructor <;> decide

/-- The entries `smile`, used 50 times, and `smiley`, used 60 times, both score 1280 for the
query `"smi"`: the usage term is capped at 200. -/
theorem collectMatches_smile_smiley_used :
    collectMatches [(utf16 "smile", 50), (utf16 "smiley", 60)] (utf16 "smi") [smile, smiley]
      = [⟨smile, 1280, []⟩, ⟨smiley, 1280, []⟩] := by
  decide

/-- C4: for a query that is not empty once trimmed and lowercased and `maxItems ≥ 1`, with a
consistent `localeCompare`, `searchEmoji` returns the first `maxItems` elements of the
matching entries ordered by descending final score, ties by descending raw usage count,
remaining ties by ascending shortcode; so two results with equal score and equal usage stand
in ascending shortcode order. The final score is the base of the tier plus
`4 * min(50, usage count)`, and the usage count of an entry is the count that the table
holds for its shortcode, 0 where it holds none. Instances: with the index entries `smile`
and `smiley` (alias `grinning`), in either order, and no usage, the query `"smi"` ranks
`smile` before `smiley`; with `smile` used 50 times and `smiley` 60 times both score 1280
and the raw usage count ranks `smiley` before `smile`. -/
theorem C4_search_ranking (J : JsString) (hJ : ConsistentCompare J.localeCompare)
    (indexed : EmojiIndex) (usageCounts : UsageCounts) (query : Str) (maxItems : Int)
    (hq : J.toLowerCase (J.trim query) ≠ []) (hmax : 1 ≤ maxItems) :
    (∃ ranked : List Suggestion,
      ranked.Perm (collectMatches usageCounts (J.toLowerCase (J.trim query)) indexed.list) ∧
      ranked.Pairwise (rankedBefore J usageCounts) ∧
      searchEmoji J indexed usageCounts query maxItems = ranked.take maxItems.toNat) ∧
      (searchEmoji J indexed usageCounts query maxItems).Pairwise
        (fun a b => a.score = b.score →
          (usageCounts.lookup a.entry.shortcode).getD 0
            = (usageCounts.lookup b.entry.shortcode).getD 0 →
          J.localeCompare a.entry.shortcode b.entry.shortcode ≤ 0) ∧
      (J.toLowerCase (J.trim (utf16 "smi")) = utf16 "smi" →
        J.localeCompare (utf16 "smile") (utf16 "smiley") < 0 →
        0 < J.localeCompare (utf16 "smiley") (utf16 "smile") →
        ∀ shortcodeMap aliasMap,
          searchEmoji J ⟨[smile, smiley], shortcodeMap, aliasMap⟩ [] (utf16 "smi") maxItems
              = [⟨smile, 1080, []⟩, ⟨smiley, 1080, []⟩].take maxItems.toNat ∧
            searchEmoji J ⟨[smiley, smile], shortcodeMap, aliasMap⟩ [] (utf16 "smi") maxItems
              = [⟨smile, 1080, []⟩, ⟨smiley, 1080, []⟩].take maxItems.toNat) ∧
      (∀ s ∈ collectMatches usageCounts (J.toLowerCase (J.trim query)) indexed.list,
        s.score = specBase (J.toLowerCase (J.trim query)) s.entry
          + 4 * min 50 ((usageCounts.lookup s.entry.shortcode).getD 0)) ∧
      (J.toLowerCase (J.trim (utf16 "smi")) = utf16 "smi" →
        ∀ shortcodeMap aliasMap,
          searchEmoji J ⟨[smile, smiley], shortcodeMap, aliasMap⟩
              [(utf16 "smile", 50), (utf16 "smiley", 60)] (utf16 "smi") maxItems
            = [⟨smiley, 1280, []⟩, ⟨smile, 1280, []⟩].take maxItems.toNat) := by
  have hlimit : (max 1 maxItems).toNat = maxItems.toNat := by rw [max_eq_right hmax]
  refine ⟨⟨arraySort (compareMatches J usageCounts)
      (collectMatches usageCounts (J.toLowerCase (J.trim query)) indexed.list),
      arraySort_perm _ _, arraySort_compareMatches_sorted hJ usageCounts _, ?_⟩, ?_, ?_, ?_, ?_⟩
  · rw [searchEmoji_of_ne J indexed usageCounts query maxItems hq, hlimit]
  · refine List.Pairwise.imp ?_ (searchEmoji_pairwise hJ indexed usageCounts query maxItems hq)
    intro a b hab hs hu
    rcases hab with h | ⟨-, h | ⟨-, h⟩⟩
    · omega
    · omega
    · exact h
  · intro hsmi hlt hgt shortcodeMap aliasMap
    have hne : J.toLowerCase (J.trim (utf16 "smi")) ≠ [] := by rw [hsmi]; decide
    have h1 : compareMatches J [] ⟨smile, 1080, []⟩ ⟨smiley, 1080, []⟩
        = J.localeCompare (utf16 "smile") (utf16 "smiley") := by
      simp [compareMatches, getUsageScore, smile, smiley]
    have h2 : compareMatches J [] ⟨smiley, 1080, []⟩ ⟨smile, 1080, []⟩
        = J.localeCompare (utf16 "smiley") (utf16 "smile") := by
      simp [compareMatches, getUsageScore, smile, smiley]
    constructor
    · rw [searchEmoji_of_ne J _ [] (utf16 "smi") maxItems hne, hlimit, hsmi]
      show List.take _ (arraySort _ (collectMatches [] (utf16 "smi") [smile, smiley])) = _
      rw [collectMatches_smile_smiley.1]
      show List.take _ (if compareMatches J [] ⟨smile, 1080, []⟩ ⟨smiley, 1080, []⟩ ≤ 0
        then _ else _) = _
      rw [h1, if_pos (le_of_lt hlt)]
    · rw [searchEmoji_of_ne J _ [] (utf16 "smi") maxItems hne, hlimit, hsmi]
      show List.take _ (arraySort _ (collectMatches [] (utf16 "smi") [smiley, smile])) = _
      rw [collectMatches_smile_smiley.2]
      show List.take _ (if compareMatches J [] ⟨smiley, 1080, []⟩ ⟨smile, 1080, []⟩ ≤ 0
        then _ else _) = _
      rw [h2, if_neg (not_le_of_lt hgt)]
      rfl
  · intro s hs
    obtain ⟨e, -, -, rfl⟩ := mem_collectMatches.mp hs
    simp only [scoreEntry_fst, usageBoost, getUsageScore]
    omega
  · intro hsmi shortcodeMap aliasMap
    have hne : J.toLowerCase (J.trim (utf16 "smi")) ≠ [] := by rw [hsmi]; decide
    have h1 : compareMatches J [(utf16 "smile", 50), (utf16 "smiley", 60)]
        ⟨smile, 1280, []⟩ ⟨smiley, 1280, []⟩ = 10 := rfl
    have hpos : ¬ ((10 : Int) ≤ 0) := by decide
    have hsort : arraySort (compareMatches J [(utf16 "smile", 50), (utf16 "smiley", 60)])
        [⟨smile, 1280, []⟩, ⟨smiley, 1280, []⟩]
        = [⟨smiley, 1280, []⟩, ⟨smile, 1280, []⟩] := by
      show (if compareMatches J [(utf16 "smile", 50), (utf16 "smiley", 60)]
          ⟨smile, 1280, []⟩ ⟨smiley, 1280, []⟩ ≤ 0
        then [(⟨smile, 1280, []⟩ : Suggestion), ⟨smiley, 1280, []⟩]
        else [⟨smiley, 1280, []⟩, ⟨smile, 1280, []⟩]) = _
      rw [h1, if_neg hpos]
    rw [searchEmoji_of_ne J _ _ (utf16 "smi") maxItems hne, hlimit, hsmi]
    show List.take _ (arraySort _ (collectMatches [(utf16 "smile", 50), (utf16 "smiley", 60)]
      (utf16 "smi") [smile, smiley])) = _
    rw [collectMatches_smile_smiley_used, hsort]

/-- Witness of C4 on the reference host and the query `"smi"`: with the index
`[smiley, smile]` and no usage the shortcode decides, and with the index `[smile, smiley]`,
`smile` used 50 times and `smiley` 60 times, both score 1280 and the raw usage count puts
`smiley` in front. -/
theorem C4_search_ranking_witness :
    ConsistentCompare basicLatin.localeCompare ∧
      basicLatin.toLowerCase (basicLatin.trim (utf16 "smi")) ≠ [] ∧ (1 : Int) ≤ 8 ∧
      searchEmoji basicLatin ⟨[smiley, smile], [], []⟩ [] (utf16 "smi") 8
        = [⟨smile, 1080, []⟩, ⟨smiley, 1080, []⟩].take (8 : Int).toNat ∧
      searchEmoji basicLatin ⟨[smile, smiley], [], []⟩
          [(utf16 "smile", 50), (utf16 "smiley", 60)] (utf16 "smi") 8
        = [⟨smiley, 1280, []⟩, ⟨smile, 1280, []⟩].take (8 : Int).toNat :=
  ⟨codeUnitCompare_consistent, by decide, by decide,
    ((C4_search_ranking basicLatin codeUnitCompare_consistent ⟨[smiley, smile], [], []⟩ []
      (utf16 "smi") 8 (by decide) (by decide)).2.2.1 (by decide) (by decide) (by decide)
      [] []).2,
    (C4_search_ranking basicLatin codeUnitCompare_consistent ⟨[smiley, smile], [], []⟩ []
      (utf16 "smi") 8 (by decide) (by decide)).2.2.2.2 (by decide) [] []⟩

/-- Counterexample to C9 as stated: `joy` is the shortcode of one entry and an alias of
`laughing`; once `laughing` has been used 16 times, the query `"joy"` ranks `laughing`
(alias-exact, 1140 + 64) in front of `joy` (exact shortcode, 1200). -/
theorem C9_counterexample :
    searchEmoji basicLatin ⟨[joy, laughing], [], []⟩ [(utf16 "laughing", 16)] (utf16 "joy") 8
        = [⟨laughing, 1204, utf16 "joy"⟩, ⟨joy, 1200, []⟩] ∧
      joy.shortcode = utf16 "joy" ∧ utf16 "joy" ∈ laughing.aliases := by
  decide

/-- C9 (amended): for a consistent `localeCompare` and a query `q` that is not empty once
trimmed and lowercased, in the result of `searchEmoji` an entry whose shortcode equals `q`
precedes an entry that has `q` as an exact alias, and an alias-exact entry precedes an entry
whose shortcode merely starts with `q`, whenever the usage boost `4 * min(50, count)` of the
lower-tier entry exceeds that of the higher-tier entry by less than the tier gap 60. -/
theorem C9_tier_order_within_boost_gap (J : JsString)
    (hJ : ConsistentCompare J.localeCompare) (indexed : EmojiIndex)
    (usageCounts : UsageCounts) (query : Str) (maxItems : Int)
    (hq : J.toLowerCase (J.trim query) ≠ []) (a b : Suggestion) (i j : Nat)
    (ha : (searchEmoji J indexed usageCounts query maxItems).get? i = some a)
    (hb : (searchEmoji J indexed usageCounts query maxItems).get? j = some b)
    (hgap : 4 * min 50 (getUsageScore usageCounts b.entry.shortcode)
      < 4 * min 50 (getUsageScore usageCounts a.entry.shortcode) + 60) :
    (a.entry.shortcode = J.toLowerCase (J.trim query) →
      b.entry.shortcode ≠ J.toLowerCase (J.trim query) →
      J.toLowerCase (J.trim query) ∈ b.entry.aliases → i < j) ∧
    (a.entry.shortcode ≠ J.toLowerCase (J.trim query) →
      J.toLowerCase (J.trim query) ∈ a.entry.aliases →
      b.entry.shortcode ≠ J.toLowerCase (J.trim query) →
      J.toLowerCase (J.trim query) ∉ b.entry.aliases →
      J.toLowerCase (J.trim query) <+: b.entry.shortcode → i < j) := by
  have hsa := (mem_searchEmoji_of_ne hq (List.get?_mem ha)).2.2
  have hsb := (mem_searchEmoji_of_ne hq (List.get?_mem hb)).2.2
  have hsorted := searchEmoji_pairwise hJ indexed usageCounts query maxItems hq
  have hscore : ∀ (na nb : Nat), specBase (J.toLowerCase (J.trim query)) a.entry = na →
      specBase (J.toLowerCase (J.trim query)) b.entry = nb → nb + 60 ≤ na → a ≠ b →
      i < j := by
    intro na nb hna hnb hle hne
    by_contra hij
    have hji : j < i := by
      rcases Nat.lt_trichotomy i j with h | h | h
      · exact absurd h hij
      · subst h
        rw [ha] at hb
        injection hb with hb
        exact absurd hb hne
      · exact h
    have hrank := pairwise_get? hsorted hb ha hji
    simp only [usageBoost] at hsa hsb
    rcases hrank with h | ⟨h, -⟩ <;> omega
  constructor
  · intro h1 h2 h3
    have hna : specBase (J.toLowerCase (J.trim query)) a.entry = 1200 := by
      simp [specBase, h1]
    have hnb : specBase (J.toLowerCase (J.trim query)) b.entry = 1140 := by
      have : ∃ x ∈ b.entry.aliases, x = J.toLowerCase (J.trim query) := ⟨_, h3, rfl⟩
      simp only [specBase, if_neg h2, if_pos this]
    exact hscore 1200 1140 hna hnb (by omega) (fun h => h2 (h ▸ h1))
  · intro h1 h2 h3 h4 h5
    have hna : specBase (J.toLowerCase (J.trim query)) a.entry = 1140 := by
      have : ∃ x ∈ a.entry.aliases, x = J.toLowerCase (J.trim query) := ⟨_, h2, rfl⟩
      simp only [specBase, if_neg h1, if_pos this]
    have hnb : specBase (J.toLowerCase (J.trim query)) b.entry = 1080 := by
      have : ¬ ∃ x ∈ b.entry.aliases, x = J.toLowerCase (J.trim query) := by
        rintro ⟨x, hx, rfl⟩; exact h4 hx
      simp only [specBase, if_neg h3, if_neg this, if_pos h5]
    exact hscore 1140 1080 hna hnb (by omega) (fun h => h4 (h ▸ h2))

/-- Witness of C9 (amended): `joy` and `laughing` with equal usage, query `"joy"`. -/
theorem C9_tier_order_within_boost_gap_witness :
    ConsistentCompare basicLatin.localeCompare ∧
      (searchEmoji basicLatin exampleIndex [] (utf16 "joy") 8).get? 0
        = some ⟨joy, 1200, []⟩ ∧
      (searchEmoji basicLatin exampleIndex [] (utf16 "joy") 8).get? 1
        = some ⟨laughing, 1140, utf16 "joy"⟩ ∧
      (joy.shortcode = basicLatin.toLowerCase (basicLatin.trim (utf16 "joy")) →
        laughing.shortcode ≠ basicLatin.toLowerCase (basicLatin.trim (utf16 "joy")) →
        basicLatin.toLowerCase (basicLatin.trim (utf16 "joy")) ∈ laughing.aliases → 0 < 1) :=
  ⟨codeUnitCompare_consistent, by decide, by decide,
    (C9_tier_order_within_boost_gap basicLatin codeUnitCompare_consistent exampleIndex []
      (utf16 "joy") 8 (by decide) ⟨joy, 1200, []⟩ ⟨laughing, 1140, utf16 "joy"⟩ 0 1
      (by decide) (by decide) (by decide)).1⟩

/-- Counterexample to C10 as stated: with `maxItems = 0` the limit is raised to 1, and one
suggestion is returned. -/
theorem C10_counterexample :
    (searchEmoji basicLatin ⟨[smile], [], []⟩ [] (utf16 "smi") 0).length = 1 ∧
      ¬ (((searchEmoji basicLatin ⟨[smile], [], []⟩ [] (utf16 "smi") 0).length : Int) ≤ 0) := by
  decide

/-- C10 (amended): for every query and every integer `maxItems`, the list returned by
`searchEmoji` has length at most `max(1, maxItems)`. -/
theorem C10_length_le_limit (J : JsString) (indexed : EmojiIndex) (usageCounts : UsageCounts)
    (query : Str) (maxItems : Int) :
    ((searchEmoji J indexed usageCounts query maxItems).length : Int) ≤ max 1 maxItems := by
  have hnat : (((max 1 maxItems).toNat : Nat) : Int) = max 1 maxItems :=
    Int.toNat_of_nonneg (le_trans (by decide) (le_max_left 1 maxItems))
  rw [← hnat]
  unfold searchEmoji
  simp only
  split
  · rw [List.length_map, List.length_take]
    exact_mod_cast Nat.min_le_left _ _
  · rw [List.length_take]
    exact_mod_cast Nat.min_le_left _ _

/-! ## Commit and auto-conversion: claims -/

/-- Offsets and multiplier of a returned token. -/
theorem extractActiveToken_bounds {text : Str} {t : ActiveToken}
    (h : extractActiveToken text = some t) :
    t.end_ = text.length ∧ t.start < t.end_ ∧ 1 ≤ t.multiplier ∧ t.multiplier ≤ 20 := by
  have hne : text ≠ [] := by
    intro h0
    subst h0
    simp [extractActiveToken] at h
  cases hm : TOKEN_WITH_MULTIPLIER_RE text with
  | none =>
    have hlen : text.length ≠ 0 := fun h0 => hne (List.length_eq_zero.mp h0)
    simp [extractActiveToken, hlen, hm] at h
  | some m =>
    obtain ⟨p, -, htext, hidx, -⟩ := grammar_of_exec hm
    rw [extractActiveToken_of_match hne hm] at h
    split at h
    · exact Option.noConfusion h
    · split at h
      · exact Option.noConfusion h
      · injection h with h
        subst h
        have hlen : text.length = p.length + (m.group3.getD []).length
            + (m.group4.length + 1) := by
          rw [htext]; simp only [List.length_append, List.length_cons]
        exact ⟨rfl, by simp only; omega, (clampNumber_bounds _).1, (clampNumber_bounds _).2⟩

theorem strRepeat_one (e : Str) : strRepeat e 1 = e := by
  simp [strRepeat]

/-- The replacement text for a multiplier that is already within `[1, 20]`. -/
theorem buildEmojiReplacement_eq (settings : Settings) (emoji : Str) {multiplier : Nat}
    (h1 : 1 ≤ multiplier) (h20 : multiplier ≤ 20) :
    buildEmojiReplacement settings emoji multiplier =
      strRepeat emoji multiplier ++ (if settings.insertTrailingSpace then [32] else []) := by
  have hc : clampNumber multiplier = multiplier := by
    simp only [clampNumber, MAX_MULTIPLIER]; omega
  unfold buildEmojiReplacement
  simp only [hc]
  by_cases h : multiplier > 1
  · simp [h]
  · have : multiplier = 1 := by omega
    subst this
    simp [strRepeat_one]

/-- The splice of `replaceInTextarea` for a span that ends at the caret. -/
theorem replaceInTextarea_span (ta : Textarea) (start caret : Nat) (replacement : Str)
    (hstart : start < (ta.value.take caret).length) :
    (replaceInTextarea ta start (ta.value.take caret).length replacement).value
        = ta.value.take start ++ replacement ++ ta.value.drop caret ∧
      (replaceInTextarea ta start (ta.value.take caret).length replacement).selectionStart
        = start + replacement.length ∧
      (replaceInTextarea ta start (ta.value.take caret).length replacement).selectionEnd
        = start + replacement.length := by
  rw [List.length_take] at hstart
  have h1 : max 0 (min start ta.value.length) = start := by omega
  have hdrop : ta.value.drop (min caret ta.value.length) = ta.value.drop caret := by
    by_cases hc : caret ≤ ta.value.length
    · rw [min_eq_left hc]
    · have hc' : ta.value.length ≤ caret := by omega
      rw [min_eq_right hc', List.drop_of_length_le hc', List.drop_of_length_le (le_refl _)]
  have h2 : max start (min (min caret ta.value.length) ta.value.length)
      = min caret ta.value.length := by omega
  simp only [replaceInTextarea, List.length_take, h1, h2, hdrop, and_self]

theorem liveTokenOf_textarea {D : Type} (dom : Dom D) (ta : Textarea)
    (hcollapsed : ta.selectionStart = ta.selectionEnd) :
    liveTokenOf (getEditorSnapshot dom (Editor.textarea ta))
      = extractActiveToken (ta.value.take ta.selectionStart) := by
  simp [liveTokenOf, getEditorSnapshot, hcollapsed]

/-- The session left by a commit on a textarea whose caret still stands behind a token. -/
theorem commitSuggestion_textarea {D : Type} (J : JsString) (dom : Dom D) (s : Session D)
    (ta : Textarea) (index : Nat) (sug : Suggestion) (tok : ActiveToken)
    (hed : s.activeEditor = some (Editor.textarea ta))
    (hcollapsed : ta.selectionStart = ta.selectionEnd)
    (htok : extractActiveToken (ta.value.take ta.selectionStart) = some tok)
    (hsug : s.suggestions.get? index = some sug) :
    commitSuggestion J dom s (index : Int) =
      hidePopup { s with
        activeEditor := some (Editor.textarea (replaceInTextarea ta tok.start tok.end_
          (buildEmojiReplacement s.settings sug.entry.emoji tok.multiplier)))
        usageCounts := recordUsage J s.usageCounts sug.entry.shortcode } := by
  obtain ⟨hi, -⟩ := List.get?_eq_some.mp hsug
  obtain ⟨-, hlt, -, -⟩ := extractActiveToken_bounds htok
  have hidx : ¬((index : Int) < 0 ∨ (index : Int) ≥ (s.suggestions.length : Int)) := by
    omega
  unfold commitSuggestion
  rw [hed]
  simp only [if_neg hidx, liveTokenOf_textarea dom ta hcollapsed, htok, Int.toNat_ofNat, hsug,
    replaceTextInEditor, if_neg (Nat.not_lt.mpr (Nat.le_of_lt hlt))]

/-- C5: on a textarea with text `t` and a collapsed caret at `c` such that
`extractActiveToken(t[0..c))` returns `tok`, committing a suggestion with emoji `e` changes
the text to `t[0..tok.start) ++ e` repeated `tok.multiplier` times `++ (" " if
insertTrailingSpace) ++ t[c..)` and leaves the caret right behind the inserted text.
Instance: `heart` with multiplier 3 and `insertTrailingSpace` inserts three hearts and one
space in place of `3:heart`. -/
theorem C5_commit_replaces_token_span {D : Type} (J : JsString) (dom : Dom D) (s : Session D)
    (ta : Textarea) (index : Nat) (sug : Suggestion) (tok : ActiveToken)
    (hed : s.activeEditor = some (Editor.textarea ta))
    (hcollapsed : ta.selectionStart = ta.selectionEnd)
    (htok : extractActiveToken (ta.value.take ta.selectionStart) = some tok)
    (hsug : s.suggestions.get? index = some sug) :
    (∃ ta2, (commitSuggestion J dom s (index : Int)).activeEditor
          = some (Editor.textarea ta2) ∧
        ta2.value = ta.value.take tok.start
          ++ (strRepeat sug.entry.emoji tok.multiplier
            ++ (if s.settings.insertTrailingSpace then [32] else []))
          ++ ta.value.drop ta.selectionStart ∧
        ta2.selectionStart = tok.start
          + (strRepeat sug.entry.emoji tok.multiplier
            ++ (if s.settings.insertTrailingSpace then [32] else [])).length ∧
        ta2.selectionEnd = ta2.selectionStart) ∧
      (commitSuggestion basicLatin noDom heartSession 0).activeEditor
        = some (Editor.textarea
          { value := utf16 "I ❤️❤️❤️  you", selectionStart := 9, selectionEnd := 9,
            focused := true, inputEvents := [utf16 "❤️❤️❤️ "] }) := by
  refine ⟨?_, by decide⟩
  obtain ⟨hend, hlt, h1, h20⟩ := extractActiveToken_bounds htok
  rw [commitSuggestion_textarea J dom s ta index sug tok hed hcollapsed htok hsug]
  rw [buildEmojiReplacement_eq s.settings sug.entry.emoji h1 h20, hend]
  have hspan := replaceInTextarea_span ta tok.start ta.selectionStart
    (strRepeat sug.entry.emoji tok.multiplier
      ++ (if s.settings.insertTrailingSpace then [32] else [])) (by rw [← hend]; exact hlt)
  exact ⟨_, rfl, hspan.1, hspan.2.1, by rw [hspan.2.1, hspan.2.2]⟩

/-- Witness of C5 on the session `heartSession`. -/
theorem C5_commit_replaces_token_span_witness :
    heartSession.activeEditor = some (Editor.textarea
        { value := utf16 "I 3:heart you", selectionStart := 9, selectionEnd := 9,
          focused := true, inputEvents := [] }) ∧
      extractActiveToken ((utf16 "I 3:heart you").take 9) = some ⟨2, 9, utf16 "heart", 3⟩ ∧
      heartSession.suggestions.get? 0 = some ⟨heart, 1200, []⟩ ∧
      ∃ ta2, (commitSuggestion basicLatin noDom heartSession ((0 : Nat) : Int)).activeEditor
          = some (Editor.textarea ta2) ∧
        ta2.value = (utf16 "I 3:heart you").take 2
          ++ (strRepeat (utf16 "❤️") 3 ++ (if true then [32] else []))
          ++ (utf16 "I 3:heart you").drop 9 ∧
        ta2.selectionStart = 2
          + (strRepeat (utf16 "❤️") 3 ++ (if true then [32] else [])).length ∧
        ta2.selectionEnd = ta2.selectionStart :=
  ⟨rfl, by decide, rfl,
    (C5_commit_replaces_token_span basicLatin noDom heartSession
      { value := utf16 "I 3:heart you", selectionStart := 9, selectionEnd := 9,
        focused := true, inputEvents := [] } 0 ⟨heart, 1200, []⟩ ⟨2, 9, utf16 "heart", 3⟩
      rfl rfl (by decide) rfl).1⟩

/-- The auto-conversion on a textarea whose text before a collapsed caret ends in a colon,
up to the token test. -/
theorem maybeAutoConvert_of_colon {D : Type} (J : JsString) (dom : Dom D)
    (indexed : EmojiIndex) (s : Session D) (ta : Textarea) (pre : Str)
    (hcollapsed : ta.selectionStart = ta.selectionEnd)
    (hpre : ta.value.take ta.selectionStart = pre ++ [58]) :
    maybeAutoConvertExactShortcode J dom indexed s (Editor.textarea ta) =
      match extractActiveToken pre with
      | none => (s, false)
      | some token =>
        if token.query.isEmpty then (s, false)
        else
          match lookupEmojiByCode J indexed token.query with
          | none => (s, false)
          | some found =>
            match replaceTextInEditor dom (Editor.textarea ta) token.start
                (ta.value.take ta.selectionStart).length
                (buildEmojiReplacement s.settings found.emoji token.multiplier) with
            | none => (s, false)
            | some replaced =>
              (hidePopup { s with
                activeEditor := some replaced
                usageCounts := recordUsage J s.usageCounts found.shortcode }, true) := by
  have h1 : (pre ++ [58]).isEmpty = false := by
    cases pre <;> rfl
  have h2 : endsWith (pre ++ [58]) [58] = true := by
    simp [endsWith]
  have h3 : (pre ++ [58]).take ((pre ++ [58]).length - 1) = pre := by
    simp
  have hpre' : ta.value.take ta.selectionEnd = pre ++ [58] := hcollapsed ▸ hpre
  unfold maybeAutoConvertExactShortcode
  simp only [getEditorSnapshot, hcollapsed, beq_self_eq_true, hpre', h1, h2, h3, Bool.not_true,
    Bool.or_self, Bool.false_eq_true, if_false]

/-- The auto-conversion leaves everything as it is unless the caret is collapsed behind a
colon. -/
theorem maybeAutoConvert_of_no_colon {D : Type} (J : JsString) (dom : Dom D)
    (indexed : EmojiIndex) (s : Session D) (ta : Textarea)
    (h : ¬(ta.selectionStart = ta.selectionEnd ∧
      ∃ pre, ta.value.take ta.selectionStart = pre ++ [58])) :
    maybeAutoConvertExactShortcode J dom indexed s (Editor.textarea ta) = (s, false) := by
  unfold maybeAutoConvertExactShortcode
  simp only [getEditorSnapshot]
  by_cases hcol : ta.selectionStart = ta.selectionEnd
  · have hno : endsWith (ta.value.take ta.selectionStart) [58] = false := by
      by_contra hends
      have hends' : endsWith (ta.value.take ta.selectionStart) [58] = true := by
        simpa using hends
      simp only [endsWith, List.isSuffixOf_iff_suffix] at hends'
      obtain ⟨pre, hpre⟩ := hends'
      exact h ⟨hcol, pre, hpre.symm⟩
    simp [hno]
  · have : (ta.selectionStart == ta.selectionEnd) = false := by simpa using hcol
    simp [this]

/-- C6: on a textarea, if the caret is collapsed, the text before it is `pre ++ ":"`,
`extractActiveToken(pre)` returns a token with a non-empty query and `lookupEmojiByCode`
resolves that query to an entry (a shortcode match first, an alias match otherwise), then
`maybeAutoConvertExactShortcode` replaces the span from `tok.start` to the caret by the
emoji repeated `tok.multiplier` times (and a space if `insertTrailingSpace`), hides the
popup and returns true; in every other case it returns false and leaves the session and
the text as they were. -/
theorem C6_autoconvert_on_closing_colon {D : Type} (J : JsString) (dom : Dom D)
    (indexed : EmojiIndex) (s : Session D) (ta : Textarea)
    (hed : s.activeEditor = some (Editor.textarea ta)) :
    (∀ pre tok found,
      ta.selectionStart = ta.selectionEnd →
      ta.value.take ta.selectionStart = pre ++ [58] →
      extractActiveToken pre = some tok → tok.query ≠ [] →
      lookupEmojiByCode J indexed tok.query = some found →
      ∃ ta2 s2,
        maybeAutoConvertExactShortcode J dom indexed s (Editor.textarea ta) = (s2, true) ∧
        s2.activeEditor = some (Editor.textarea ta2) ∧ s2.popupHidden = true ∧
        ta2.value = ta.value.take tok.start
          ++ (strRepeat found.emoji tok.multiplier
            ++ (if s.settings.insertTrailingSpace then [32] else []))
          ++ ta.value.drop ta.selectionStart ∧
        ta2.selectionStart = tok.start
          + (strRepeat found.emoji tok.multiplier
            ++ (if s.settings.insertTrailingSpace then [32] else [])).length ∧
        ta2.selectionEnd = ta2.selectionStart) ∧
      (¬(ta.selectionStart = ta.selectionEnd ∧
          ∃ pre tok found, ta.value.take ta.selectionStart = pre ++ [58] ∧
            extractActiveToken pre = some tok ∧ tok.query ≠ [] ∧
            lookupEmojiByCode J indexed tok.query = some found) →
        maybeAutoConvertExactShortcode J dom indexed s (Editor.textarea ta) = (s, false) ∧
          s.activeEditor = some (Editor.textarea ta)) ∧
      (∀ rawCode, J.toLowerCase (J.trim rawCode) ≠ [] →
        (∀ e, indexed.shortcodeMap.lookup (J.toLowerCase (J.trim rawCode)) = some e →
          lookupEmojiByCode J indexed rawCode = some e) ∧
        (indexed.shortcodeMap.lookup (J.toLowerCase (J.trim rawCode)) = none →
          lookupEmojiByCode J indexed rawCode
            = indexed.aliasMap.lookup (J.toLowerCase (J.trim rawCode)))) := by
  refine ⟨?_, ?_, ?_⟩
  · intro pre tok found hcol hpre htok hquery hfound
    obtain ⟨hend, hlt, h1, h20⟩ := extractActiveToken_bounds htok
    have hq : tok.query.isEmpty = false := by
      cases hqq : tok.query with
      | nil => exact absurd hqq hquery
      | cons c cs => rfl
    have hstart : tok.start < (ta.value.take ta.selectionStart).length := by
      rw [hpre, List.length_append]; omega
    have hspan := replaceInTextarea_span ta tok.start ta.selectionStart
      (strRepeat found.emoji tok.multiplier
        ++ (if s.settings.insertTrailingSpace then [32] else [])) hstart
    rw [maybeAutoConvert_of_colon J dom indexed s ta pre hcol hpre]
    simp only [htok, hq, Bool.false_eq_true, if_false, hfound, replaceTextInEditor,
      if_neg (Nat.not_lt.mpr (Nat.le_of_lt hstart)),
      buildEmojiReplacement_eq s.settings found.emoji h1 h20]
    exact ⟨_, _, rfl, rfl, rfl, hspan.1, hspan.2.1, by rw [hspan.2.1, hspan.2.2]⟩
  · intro hno
    refine ⟨?_, hed⟩
    by_cases hcolon : ta.selectionStart = ta.selectionEnd ∧
        ∃ pre, ta.value.take ta.selectionStart = pre ++ [58]
    · obtain ⟨hcol, pre, hpre⟩ := hcolon
      rw [maybeAutoConvert_of_colon J dom indexed s ta pre hcol hpre]
      cases htok : extractActiveToken pre with
      | none => rfl
      | some tok =>
        simp only
        by_cases hq : tok.query.isEmpty = true
        · simp only [hq, if_true]
        · simp only [hq, Bool.false_eq_true, if_false]
          cases hfound : lookupEmojiByCode J indexed tok.query with
          | none => rfl
          | some found =>
            exfalso
            apply hno
            refine ⟨hcol, pre, tok, found, hpre, htok, ?_, hfound⟩
            intro h0
            rw [h0] at hq
            exact hq rfl
    · exact maybeAutoConvert_of_no_colon J dom indexed s ta hcolon
  · intro rawCode hcode
    have hne : (J.toLowerCase (J.trim rawCode)).isEmpty = false := by
      cases h : J.toLowerCase (J.trim rawCode) with
      | nil => exact absurd h hcode
      | cons c cs => rfl
    constructor
    · intro e he
      simp only [lookupEmojiByCode, hne, Bool.false_eq_true, if_false, he]
    · intro hnone
      simp only [lookupEmojiByCode, hne, Bool.false_eq_true, if_false, hnone]

/-- Witness of C6 on `colonSession`: `2:love:` resolves through the alias `love` to
`heart`. -/
theorem C6_autoconvert_on_closing_colon_witness :
    colonSession.activeEditor = some (Editor.textarea colonTextarea) ∧
      extractActiveToken (utf16 "hi 2:love") = some ⟨3, 9, utf16 "love", 2⟩ ∧
      lookupEmojiByCode basicLatin exampleIndex (utf16 "love") = some heart ∧
      ∃ ta2 s2,
        maybeAutoConvertExactShortcode basicLatin noDom exampleIndex colonSession
          (Editor.textarea colonTextarea) = (s2, true) ∧
        s2.activeEditor = some (Editor.textarea ta2) ∧ s2.popupHidden = true ∧
        ta2.value = colonTextarea.value.take 3
          ++ (strRepeat heart.emoji 2
            ++ (if colonSession.settings.insertTrailingSpace then [32] else []))
          ++ colonTextarea.value.drop colonTextarea.selectionStart ∧
        ta2.selectionStart = 3
          + (strRepeat heart.emoji 2
            ++ (if colonSession.settings.insertTrailingSpace then [32] else [])).length ∧
        ta2.selectionEnd = ta2.selectionStart :=
  ⟨rfl, by decide, by decide,
    (C6_autoconvert_on_closing_colon basicLatin noDom exampleIndex colonSession colonTextarea
      rfl).1 (utf16 "hi 2:love") ⟨3, 9, utf16 "love", 2⟩ heart rfl (by decide) (by decide)
      (by decide) (by decide)⟩

/-- Counterexample to C7 as stated: the popup was rendered for `:smi` (`activeToken`), the
text is `:smil` by the time of the commit, so the live token differs from the one shown;
`commitSuggestion` replaces the text all the same and records the usage. -/
theorem C7_counterexample :
    staleSession.activeToken = some ⟨0, 4, utf16 "smi", 1⟩ ∧
      liveTokenOf (getEditorSnapshot noDom (Editor.textarea
        { value := utf16 ":smil", selectionStart := 5, selectionEnd := 5,
          focused := true, inputEvents := [] })) = some ⟨0, 5, utf16 "smil", 1⟩ ∧
      staleSession.activeEditor = some (Editor.textarea
        { value := utf16 ":smil", selectionStart := 5, selectionEnd := 5,
          focused := true, inputEvents := [] }) ∧
      (commitSuggestion basicLatin noDom staleSession 0).activeEditor
        = some (Editor.textarea
          { value := utf16 "😄", selectionStart := 2, selectionEnd := 2,
            focused := true, inputEvents := [utf16 "😄"] }) ∧
      staleSession.usageCounts = [] ∧
      (commitSuggestion basicLatin noDom staleSession 0).usageCounts
        = [(utf16 "smile", 1)] := by
  decide

/-- C7 (amended): for every session state, if no token can be extracted from the fresh
snapshot at commit time (no snapshot, a selection that is not collapsed, or no token before
the caret), `commitSuggestion` mutates no text and records no usage. -/
theorem C7_commit_without_live_token {D : Type} (J : JsString) (dom : Dom D) (s : Session D)
    (index : Int)
    (hno : ∀ editor, s.activeEditor = some editor →
      liveTokenOf (getEditorSnapshot dom editor) = none) :
    (commitSuggestion J dom s index).activeEditor = s.activeEditor ∧
      (commitSuggestion J dom s index).usageCounts = s.usageCounts := by
  unfold commitSuggestion
  cases hed : s.activeEditor with
  | none => simp only [hed, and_self]
  | some editor =>
    simp only [hno editor hed]
    split
    · simp only [hed, and_self]
    · simp only [hidePopup, hed, and_self]

/-- Witness of C7 (amended) on `tokenlessSession`. -/
theorem C7_commit_without_live_token_witness :
    (∀ editor, tokenlessSession.activeEditor = some editor →
        liveTokenOf (getEditorSnapshot noDom editor) = none) ∧
      (commitSuggestion basicLatin noDom tokenlessSession 0).activeEditor
        = tokenlessSession.activeEditor ∧
      (commitSuggestion basicLatin noDom tokenlessSession 0).usageCounts
        = tokenlessSession.usageCounts :=
  have hno : ∀ editor, tokenlessSession.activeEditor = some editor →
      liveTokenOf (getEditorSnapshot noDom editor) = none := by
    intro editor h
    have : editor = Editor.textarea
        { value := utf16 "smile", selectionStart := 5, selectionEnd := 5,
          focused := true, inputEvents := [] } := by
      have h' : some (Editor.textarea
          { value := utf16 "smile", selectionStart := 5, selectionEnd := 5,
            focused := true, inputEvents := [] }) = some editor := h
      injection h' with h'
      exact h'.symm
    subst this
    decide
  ⟨hno, C7_commit_without_live_token basicLatin noDom tokenlessSession 0 hno⟩

/-! ## Empty query, numeric query, navigation: claims -/

theorem compareFallback_le_iff (J : JsString) (usageCounts : UsageCounts) (a b : EmojiEntry) :
    compareFallback J usageCounts a b ≤ 0 ↔ fallbackBefore J usageCounts a b := by
  unfold compareFallback fallbackBefore getUsageScore
  by_cases hu : (usageCounts.lookup b.shortcode).getD 0 = (usageCounts.lookup a.shortcode).getD 0
  · simp [hu]
  · have hu' : (((usageCounts.lookup b.shortcode).getD 0 : Int)
        - ((usageCounts.lookup a.shortcode).getD 0 : Int)) ≠ 0 := by omega
    simp only [ne_eq, hu', not_false_eq_true, if_true]
    constructor
    · intro h; left; omega
    · rintro (h | ⟨h, -⟩)
      · omega
      · exact absurd h.symm hu

theorem fallbackBefore_total {J : JsString} (hJ : ConsistentCompare J.localeCompare)
    (usageCounts : UsageCounts) (a b : EmojiEntry) :
    fallbackBefore J usageCounts a b ∨ fallbackBefore J usageCounts b a := by
  unfold fallbackBefore
  rcases Nat.lt_trichotomy ((usageCounts.lookup a.shortcode).getD 0)
      ((usageCounts.lookup b.shortcode).getD 0) with hu | hu | hu
  · right; left; exact hu
  · rcases hJ.1 a.shortcode b.shortcode with hl | hl
    · left; right; exact ⟨hu, hl⟩
    · right; right; exact ⟨hu.symm, hl⟩
  · left; left; exact hu

theorem fallbackBefore_trans {J : JsString} (hJ : ConsistentCompare J.localeCompare)
    (usageCounts : UsageCounts) {a b c : EmojiEntry}
    (hab : fallbackBefore J usageCounts a b) (hbc : fallbackBefore J usageCounts b c) :
    fallbackBefore J usageCounts a c := by
  unfold fallbackBefore at *
  rcases hab with h | ⟨h, h'⟩
  · rcases hbc with g | ⟨g, -⟩
    · left; omega
    · left; omega
  · rcases hbc with g | ⟨g, g'⟩
    · left; omega
    · right; exact ⟨h.trans g, hJ.2 _ _ _ h' g'⟩

/-- The array sorted on the empty-query path is in the order of the specification. -/
theorem arraySort_compareFallback_sorted {J : JsString}
    (hJ : ConsistentCompare J.localeCompare) (usageCounts : UsageCounts)
    (l : List EmojiEntry) :
    (arraySort (compareFallback J usageCounts) l).Pairwise (fallbackBefore J usageCounts) := by
  haveI : IsTotal EmojiEntry (fun a b => compareFallback J usageCounts a b ≤ 0) :=
    ⟨fun a b => by
      simp only [compareFallback_le_iff]; exact fallbackBefore_total hJ usageCounts a b⟩
  haveI : IsTrans EmojiEntry (fun a b => compareFallback J usageCounts a b ≤ 0) :=
    ⟨fun a b c hab hbc => by
      simp only [compareFallback_le_iff] at *
      exact fallbackBefore_trans hJ usageCounts hab hbc⟩
  have h := List.sorted_insertionSort (fun a b => compareFallback J usageCounts a b ≤ 0) l
  exact List.Pairwise.imp
    (fun {a b} hab => (compareFallback_le_iff J usageCounts a b).mp hab) h

/-- The empty-query path of `searchEmoji`. -/
theorem searchEmoji_of_empty (J : JsString) (indexed : EmojiIndex)
    (usageCounts : UsageCounts) (query : Str) (maxItems : Int)
    (hq : J.toLowerCase (J.trim query) = []) :
    searchEmoji J indexed usageCounts query maxItems =
      ((arraySort (compareFallback J usageCounts) indexed.list).take
        (max 1 maxItems).toNat).map
        (fun entry => { entry := entry, score := 1, matchAlias := [] }) := by
  unfold searchEmoji
  simp only [hq, List.isEmpty_nil, if_true]

/-- C11: for a query that is empty once trimmed (and lowercased) and `maxItems ≥ 1`, with
a consistent `localeCompare`, `searchEmoji` returns the first `maxItems` entries of the
index ordered by descending usage count, ties by ascending shortcode: `min(maxItems, index
size)` suggestions, each with score 1 and an empty `matchAlias`, and no entry left out has a
higher usage count than one returned. The usage count of an entry is the count that the
table holds for its shortcode, 0 where it holds none. -/
theorem C11_empty_query_top_usage (J : JsString) (hJ : ConsistentCompare J.localeCompare)
    (indexed : EmojiIndex) (usageCounts : UsageCounts) (query : Str) (maxItems : Int)
    (hq : J.toLowerCase (J.trim query) = []) (hmax : 1 ≤ maxItems) :
    ∃ ranked : List EmojiEntry,
      ranked.Perm indexed.list ∧
      ranked.Pairwise (fallbackBefore J usageCounts) ∧
      searchEmoji J indexed usageCounts query maxItems =
        (ranked.take maxItems.toNat).map
          (fun entry => { entry := entry, score := 1, matchAlias := [] }) ∧
      (searchEmoji J indexed usageCounts query maxItems).length
        = min maxItems.toNat indexed.list.length ∧
      (∀ s ∈ searchEmoji J indexed usageCounts query maxItems,
        s.score = 1 ∧ s.matchAlias = []) ∧
      (∀ s ∈ searchEmoji J indexed usageCounts query maxItems,
        ∀ e ∈ ranked.drop maxItems.toNat,
          (usageCounts.lookup e.shortcode).getD 0
            ≤ (usageCounts.lookup s.entry.shortcode).getD 0) := by
  have hlimit : (max 1 maxItems).toNat = maxItems.toNat := by rw [max_eq_right hmax]
  have hsorted := arraySort_compareFallback_sorted hJ usageCounts indexed.list
  have hperm := arraySort_perm (compareFallback J usageCounts) indexed.list
  have heq := searchEmoji_of_empty J indexed usageCounts query maxItems hq
  rw [hlimit] at heq
  refine ⟨arraySort (compareFallback J usageCounts) indexed.list, hperm, hsorted, heq,
    ?_, ?_, ?_⟩
  · rw [heq, List.length_map, List.length_take, hperm.length_eq]
  · intro s hs
    rw [heq, List.mem_map] at hs
    obtain ⟨e, -, rfl⟩ := hs
    exact ⟨rfl, rfl⟩
  · intro s hs e he
    rw [heq, List.mem_map] at hs
    obtain ⟨e0, he0, rfl⟩ := hs
    have hsplit : (arraySort (compareFallback J usageCounts) indexed.list).Pairwise
        (fallbackBefore J usageCounts) := hsorted
    rw [← List.take_append_drop maxItems.toNat
      (arraySort (compareFallback J usageCounts) indexed.list)] at hsplit
    have hrel := (List.pairwise_append.mp hsplit).2.2 e0 he0 e he
    simp only
    rcases hrel with h | ⟨h, -⟩
    · omega
    · omega

/-- Witness of C11 on the example index `[smiley, smile, heart, joy, laughing]`, with
`smile` used 3 times and `joy` once: the result is `smile`, `joy`, `heart`, where the order
of the shortcodes alone would give `heart`, `joy`, `laughing`. -/
theorem C11_empty_query_top_usage_witness :
    ConsistentCompare basicLatin.localeCompare ∧
      basicLatin.toLowerCase (basicLatin.trim (utf16 "  ")) = [] ∧ (1 : Int) ≤ 3 ∧
      searchEmoji basicLatin exampleIndex [(utf16 "smile", 3), (utf16 "joy", 1)]
          (utf16 "  ") 3
        = [⟨smile, 1, []⟩, ⟨joy, 1, []⟩, ⟨heart, 1, []⟩] ∧
      searchEmoji basicLatin exampleIndex [] (utf16 "  ") 3
        = [⟨heart, 1, []⟩, ⟨joy, 1, []⟩, ⟨laughing, 1, []⟩] ∧
      ∃ ranked : List EmojiEntry,
        ranked.Perm exampleIndex.list ∧
        ranked.Pairwise
          (fallbackBefore basicLatin [(utf16 "smile", 3), (utf16 "joy", 1)]) ∧
        searchEmoji basicLatin exampleIndex [(utf16 "smile", 3), (utf16 "joy", 1)]
            (utf16 "  ") 3
          = (ranked.take (3 : Int).toNat).map
            (fun entry => { entry := entry, score := 1, matchAlias := [] }) :=
  ⟨codeUnitCompare_consistent, by decide, by decide, by decide, by decide,
    (C11_empty_query_top_usage basicLatin codeUnitCompare_consistent exampleIndex
      [(utf16 "smile", 3), (utf16 "joy", 1)] (utf16 "  ") 3 (by decide) (by decide)).elim
      (fun ranked h => ⟨ranked, h.1, h.2.1, h.2.2.1⟩)⟩

/-- Counterexample to C13 as stated: in `"x:3"` the colon follows the word character `x`
and does not stand at the start, so the pattern has no match and the result is none. -/
theorem C13_counterexample :
    extractActiveToken (utf16 "x:3") = none ∧ isWordChar 120 = true ∧
      utf16 "x:3" = [120, 58, 51] := by
  decide

/-- C13 (amended): `extractActiveToken(":3")` and `extractActiveToken(" :3")` return a token
with query `"3"` and multiplier 1: a pure-numeric query with no multiplier prefix is
allowed where the colon stands at the start of the text or behind a unit that is no word
character. -/
theorem C13_numeric_query_without_multiplier :
    extractActiveToken (utf16 ":3") = some ⟨0, 2, utf16 "3", 1⟩ ∧
      extractActiveToken (utf16 " :3") = some ⟨1, 3, utf16 "3", 1⟩ ∧
      extractActiveToken (utf16 "x :3") = some ⟨2, 4, utf16 "3", 1⟩ := by
  decide

theorem moveSelection_index {D : Type} (s : Session D) (direction : Int)
    (hlen : s.suggestions.length ≠ 0) :
    (moveSelection s direction).highlightedIndex
        = Int.tmod (s.highlightedIndex + direction + (s.suggestions.length : Int))
          (s.suggestions.length : Int) ∧
      (moveSelection s direction).suggestions = s.suggestions := by
  simp only [moveSelection, if_neg hlen, and_self]

/-- C18: for a non-empty suggestion list of length `n` and a highlighted index `h` with
`0 ≤ h < n`, `moveSelection(1)` sets the index to `(h + 1) mod n` (from the last row to row
0), `moveSelection(-1)` sets it to `(h - 1 + n) mod n` (from row 0 to the last row), the new
index is again within `0 ≤ index < n`, and `moveSelection(1)` followed by `moveSelection(-1)`
restores `h`; with an empty list the session is unchanged. -/
theorem C18_moveSelection_wraps {D : Type} (s : Session D)
    (h0 : 0 ≤ s.highlightedIndex)
    (hn : s.highlightedIndex < (s.suggestions.length : Int)) :
    (moveSelection s 1).highlightedIndex
        = (s.highlightedIndex + 1) % (s.suggestions.length : Int) ∧
      (moveSelection s (-1)).highlightedIndex
        = (s.highlightedIndex - 1 + (s.suggestions.length : Int))
          % (s.suggestions.length : Int) ∧
      (s.highlightedIndex = (s.suggestions.length : Int) - 1 →
        (moveSelection s 1).highlightedIndex = 0) ∧
      (s.highlightedIndex = 0 →
        (moveSelection s (-1)).highlightedIndex = (s.suggestions.length : Int) - 1) ∧
      (0 ≤ (moveSelection s 1).highlightedIndex ∧
        (moveSelection s 1).highlightedIndex < (s.suggestions.length : Int)) ∧
      (0 ≤ (moveSelection s (-1)).highlightedIndex ∧
        (moveSelection s (-1)).highlightedIndex < (s.suggestions.length : Int)) ∧
      (moveSelection (moveSelection s 1) (-1)).highlightedIndex = s.highlightedIndex ∧
      (moveSelection s 1).suggestions = s.suggestions ∧
      (moveSelection s (-1)).suggestions = s.suggestions ∧
      (∀ (t : Session D) (direction : Int), t.suggestions = [] →
        moveSelection t direction = t) := by
  have hlen : s.suggestions.length ≠ 0 := by
    intro h
    rw [h] at hn
    simp only [Nat.cast_zero] at hn
    omega
  have hpos : (0 : Int) < (s.suggestions.length : Int) := by omega
  have hup : (moveSelection s 1).highlightedIndex
      = (s.highlightedIndex + 1) % (s.suggestions.length : Int) := by
    simp only [moveSelection, if_neg hlen]
    rw [Int.tmod_eq_emod (by omega) (by omega), Int.add_emod_self]
  have hdown : (moveSelection s (-1)).highlightedIndex
      = (s.highlightedIndex - 1 + (s.suggestions.length : Int))
        % (s.suggestions.length : Int) := by
    simp only [moveSelection, if_neg hlen]
    rw [Int.tmod_eq_emod (by omega) (by omega)]
    rfl
  have hsugg : ∀ d : Int, (moveSelection s d).suggestions = s.suggestions := by
    intro d
    simp only [moveSelection, if_neg hlen]
  have hupRange : 0 ≤ (moveSelection s 1).highlightedIndex ∧
      (moveSelection s 1).highlightedIndex < (s.suggestions.length : Int) := by
    rw [hup]
    exact ⟨Int.emod_nonneg _ (by omega), Int.emod_lt_of_pos _ hpos⟩
  have hdownRange : 0 ≤ (moveSelection s (-1)).highlightedIndex ∧
      (moveSelection s (-1)).highlightedIndex < (s.suggestions.length : Int) := by
    rw [hdown]
    exact ⟨Int.emod_nonneg _ (by omega), Int.emod_lt_of_pos _ hpos⟩
  refine ⟨hup, hdown, ?_, ?_, hupRange, hdownRange, ?_, hsugg 1, hsugg (-1), ?_⟩
  · intro hlast
    rw [hup, hlast]
    simp
  · intro hfirst
    rw [hdown, hfirst]
    simp only [zero_sub]
    rw [Int.emod_eq_of_lt (by omega) (by omega)]
    omega
  · have hlen1 : (moveSelection s 1).suggestions.length ≠ 0 := by rw [hsugg 1]; exact hlen
    rw [(moveSelection_index (moveSelection s 1) (-1) hlen1).1, hsugg 1]
    rw [Int.tmod_eq_emod (by omega) (by omega)]
    rw [hup]
    by_cases hlast : s.highlightedIndex + 1 < (s.suggestions.length : Int)
    · rw [Int.emod_eq_of_lt (by omega) hlast]
      have : s.highlightedIndex + 1 + -1 + (s.suggestions.length : Int)
          = s.highlightedIndex + (s.suggestions.length : Int) := by omega
      rw [this, Int.add_emod_self, Int.emod_eq_of_lt h0 hn]
    · have heq : s.highlightedIndex + 1 = (s.suggestions.length : Int) := by omega
      rw [heq, Int.emod_self]
      have : (0 : Int) + -1 + (s.suggestions.length : Int) = s.highlightedIndex := by omega
      rw [this, Int.emod_eq_of_lt h0 hn]
  · intro t direction ht
    simp only [moveSelection, ht, List.length_nil, if_true]

/-- Witness of C18 on `heartSession` extended to three rows, with row 2 highlighted. -/
theorem C18_moveSelection_wraps_witness :
    (moveSelection { heartSession with
        suggestions := [⟨heart, 1200, []⟩, ⟨smile, 1, []⟩, ⟨joy, 1, []⟩]
        highlightedIndex := 2 } 1).highlightedIndex = (2 + 1) % ((3 : Nat) : Int) ∧
      (moveSelection { heartSession with
        suggestions := [⟨heart, 1200, []⟩, ⟨smile, 1, []⟩, ⟨joy, 1, []⟩]
        highlightedIndex := 2 } 1).highlightedIndex = 0 :=
  have h := C18_moveSelection_wraps { heartSession with
    suggestions := [⟨heart, 1200, []⟩, ⟨smile, 1, []⟩, ⟨joy, 1, []⟩]
    highlightedIndex := 2 } (by decide) (by decide)
  ⟨h.1, h.2.2.1 (by decide)⟩

/-! ## Match alias: claims -/

/-- Once an alias has been recorded, the loop over the aliases keeps it. -/
theorem aliasLoop_snd_of_ne (q : Str) : ∀ (l : List Str) (score : Nat) (matchAlias : Str),
    matchAlias ≠ [] → (aliasLoop q l (score, matchAlias)).2 = matchAlias := by
  intro l
  induction l with
  | nil => intro score matchAlias _; rfl
  | cons a rest ih =>
    intro score matchAlias hne
    have hemp : matchAlias.isEmpty = false := by
      cases matchAlias with
      | nil => exact absurd rfl hne
      | cons c cs => rfl
    simp only [aliasLoop, hemp, Bool.false_eq_true, if_false]
    split
    · exact ih _ _ hne
    · split
      · exact ih _ _ hne
      · exact ih _ _ hne

theorem ne_nil_of_includes {a q : Str} (hq : q ≠ []) (h : includes a q = true) : a ≠ [] := by
  intro ha
  subst ha
  have := includes_iff.mp h
  exact hq (List.eq_nil_of_infix_nil this)

/-- The alias recorded by the loop: the first alias in which the query occurs. -/
theorem aliasLoop_snd_nil {q : Str} (hq : q ≠ []) : ∀ (l : List Str) (score : Nat),
    (aliasLoop q l (score, [])).2 = (l.find? (fun a => includes a q)).getD [] := by
  intro l
  induction l with
  | nil => intro score; rfl
  | cons a rest ih =>
    intro score
    simp only [aliasLoop, List.isEmpty_nil, if_true]
    by_cases h1 : startsWith a q = true
    · have h2 := includes_of_startsWith h1
      simp only [h1, if_true]
      rw [aliasLoop_snd_of_ne q rest _ a (ne_nil_of_includes hq h2)]
      simp only [List.find?_cons, h2, Option.getD_some]
    · by_cases h2 : includes a q = true
      · simp only [h1, h2, if_true, Bool.false_eq_true, if_false]
        rw [aliasLoop_snd_of_ne q rest _ a (ne_nil_of_includes hq h2)]
        simp only [List.find?_cons, h2, Option.getD_some]
      · simp only [h1, h2, Bool.false_eq_true, if_false]
        have h2' : includes a q = false := by simpa using h2
        rw [ih]
        simp only [List.find?_cons, h2']

/-- Where every alias that holds the query starts with it, the first alias that starts
with it is the first that holds it. -/
theorem find?_startsWith_of_all (q : Str) : ∀ (l : List Str),
    (∀ a ∈ l, includes a q = true → startsWith a q = true) →
    l.find? (fun a => startsWith a q) = l.find? (fun a => includes a q) := by
  intro l
  induction l with
  | nil => intro _; rfl
  | cons a rest ih =>
    intro hall
    by_cases hinc : includes a q = true
    · have hsw := hall a (List.mem_cons_self a rest) hinc
      simp only [List.find?_cons, hsw, hinc]
    · have hsw : startsWith a q = false := by
        cases h : startsWith a q with
        | false => rfl
        | true => exact absurd (includes_of_startsWith h) hinc
      have hinc' : includes a q = false := by simpa using hinc
      simp only [List.find?_cons, hsw, hinc']
      exact ih (fun b hb => hall b (List.mem_cons_of_mem a hb))

/-- The alias that the loop body of `searchEmoji` records for an entry. -/
theorem scoreEntry_snd {q : Str} (hq : q ≠ []) (e : EmojiEntry) :
    (scoreEntry q e).2 =
      if e.shortcode = q then []
      else if q ∈ e.aliases then q
      else if startsWith e.shortcode q = true then []
      else (e.aliases.find? (fun a => includes a q)).getD [] := by
  unfold scoreEntry
  simp only
  by_cases h1 : e.shortcode = q
  · simp only [h1, if_true]
  · by_cases h2 : q ∈ e.aliases
    · simp only [h1, h2, if_true, if_false]
    · by_cases h3 : startsWith e.shortcode q = true
      · simp only [h1, h2, h3, if_true, if_false]
      · simp only [h1, h2, h3, if_false, Bool.false_eq_true]
        exact aliasLoop_snd_nil hq _ _

/-- The alias carried by a result of the ranked path is the one the loop body records. -/
theorem matchAlias_searchEmoji_of_ne {J : JsString} {indexed : EmojiIndex}
    {usageCounts : UsageCounts} {query : Str} {maxItems : Int}
    (hq : J.toLowerCase (J.trim query) ≠ []) {s : Suggestion}
    (hs : s ∈ searchEmoji J indexed usageCounts query maxItems) :
    s.matchAlias = (scoreEntry (J.toLowerCase (J.trim query)) s.entry).2 := by
  rw [searchEmoji_of_ne J indexed usageCounts query maxItems hq] at hs
  have h1 := (arraySort_perm _ _).mem_iff.mp (List.mem_of_mem_take hs)
  obtain ⟨e, -, -, rfl⟩ := mem_collectMatches.mp h1
  rfl

/-- Counterexample to C19 as stated: for the query `joy` the entry `glad` scores in the
alias-prefix tier (its second alias `joyful` starts with `joy`), yet the recorded
`matchAlias` is its first alias `enjoy`, which only holds `joy` inside. -/
theorem C19_counterexample :
    searchEmoji basicLatin ⟨[glad], [], []⟩ [] (utf16 "joy") 8
        = [⟨glad, 1030, utf16 "enjoy"⟩] ∧
      specBase (utf16 "joy") glad = 1030 ∧
      glad.aliases.find? (fun a => startsWith a (utf16 "joy")) = some (utf16 "joyful") := by
  decide

/-- C19 (amended): for every result of `searchEmoji` on a query `q` that is not empty once
trimmed and lowercased: in the alias-prefix tier (base 1030) and in the alias-contains tier
(base 880) the recorded `matchAlias` is the first alias of the entry, in list order, in
which `q` occurs (in the prefix tier this is the first alias that starts with `q` whenever
no alias holds `q` only inside); in the alias-exact tier it is `q` itself; in the shortcode
and keyword tiers it is empty. -/
theorem C19_matchAlias_by_tier (J : JsString) (indexed : EmojiIndex)
    (usageCounts : UsageCounts) (query : Str) (maxItems : Int)
    (hq : J.toLowerCase (J.trim query) ≠ []) (s : Suggestion)
    (hs : s ∈ searchEmoji J indexed usageCounts query maxItems) :
    ((specBase (J.toLowerCase (J.trim query)) s.entry = 1030 ∨
        specBase (J.toLowerCase (J.trim query)) s.entry = 880) →
      s.entry.aliases.find? (fun a => includes a (J.toLowerCase (J.trim query)))
        = some s.matchAlias) ∧
    (specBase (J.toLowerCase (J.trim query)) s.entry = 1030 →
      (∀ a ∈ s.entry.aliases, includes a (J.toLowerCase (J.trim query)) = true →
        startsWith a (J.toLowerCase (J.trim query)) = true) →
      s.entry.aliases.find? (fun a => startsWith a (J.toLowerCase (J.trim query)))
        = some s.matchAlias) ∧
    (specBase (J.toLowerCase (J.trim query)) s.entry = 1140 →
      s.matchAlias = J.toLowerCase (J.trim query)) ∧
    ((specBase (J.toLowerCase (J.trim query)) s.entry = 1200 ∨
        specBase (J.toLowerCase (J.trim query)) s.entry = 1080 ∨
        specBase (J.toLowerCase (J.trim query)) s.entry = 900 ∨
        specBase (J.toLowerCase (J.trim query)) s.entry = 780 ∨
        specBase (J.toLowerCase (J.trim query)) s.entry = 700) →
      s.matchAlias = []) := by
  have hma := matchAlias_searchEmoji_of_ne hq hs
  rw [scoreEntry_snd hq] at hma
  generalize J.toLowerCase (J.trim query) = q at hq hma ⊢
  have hB : (∃ a ∈ s.entry.aliases, q <:+: a) ↔
      s.entry.aliases.any (fun a => includes a q) = true := by
    simp [List.any_eq_true, includes_iff]
  have hfind : ∀ (p : Str → Bool), s.entry.aliases.any p = true →
      ∃ x, s.entry.aliases.find? p = some x := by
    intro p hp
    cases hf : s.entry.aliases.find? p with
    | some x => exact ⟨x, rfl⟩
    | none =>
      rw [List.find?_eq_none] at hf
      obtain ⟨a, ha, hpa⟩ := List.any_eq_true.mp hp
      exact absurd hpa (hf a ha)
  have hnone : s.entry.aliases.any (fun a => includes a q) = false →
      s.entry.aliases.find? (fun a => includes a q) = none := by
    intro hp
    rw [List.find?_eq_none]
    intro a ha hpa
    have : s.entry.aliases.any (fun a => includes a q) = true :=
      List.any_eq_true.mpr ⟨a, ha, hpa⟩
    rw [hp] at this
    exact Bool.noConfusion this
  -- the first alias in which `q` occurs, in the two alias tiers
  have halias : (specBase q s.entry = 1030 ∨ specBase q s.entry = 880) →
      s.entry.aliases.find? (fun a => includes a q) = some s.matchAlias := by
    intro htier
    unfold specBase at htier
    by_cases h1 : s.entry.shortcode = q
    · simp [h1] at htier
    · by_cases h2 : ∃ a ∈ s.entry.aliases, a = q
      · simp [h1, h2] at htier
      · by_cases h3 : q <+: s.entry.shortcode
        · simp [h1, h2, h3] at htier
        · by_cases h5 : ∃ a ∈ s.entry.aliases, q <:+: a
          · have h2' : q ∉ s.entry.aliases := fun h => h2 ⟨q, h, rfl⟩
            have h3' : ¬ startsWith s.entry.shortcode q = true :=
              fun h => h3 (startsWith_iff.mp h)
            rw [if_neg h1, if_neg h2', if_neg h3'] at hma
            obtain ⟨x, hx⟩ := hfind _ (hB.mp h5)
            rw [hx] at hma
            rw [hx, hma]
            rfl
          · have h4 : ¬ ∃ a ∈ s.entry.aliases, q <+: a :=
              fun ⟨a, ha, h⟩ => h5 ⟨a, ha, h.isInfix⟩
            simp only [if_neg h1, if_neg h2, if_neg h3, if_neg h4, if_neg h5] at htier
            rcases htier with h | h <;> (split at h <;> try split at h) <;>
              (try split at h) <;> simp at h
  refine ⟨halias, ?_, ?_, ?_⟩
  · intro htier hall
    have hfirst := halias (Or.inl htier)
    rw [← hfirst]
    exact find?_startsWith_of_all q s.entry.aliases hall
  · intro htier
    unfold specBase at htier
    by_cases h1 : s.entry.shortcode = q
    · simp [h1] at htier
    · by_cases h2 : ∃ a ∈ s.entry.aliases, a = q
      · obtain ⟨a, ha, rfl⟩ := h2
        rw [if_neg h1, if_pos ha] at hma
        exact hma
      · exfalso
        simp only [if_neg h1, if_neg h2] at htier
        repeat' split at htier
        all_goals simp at htier
  · intro htier
    unfold specBase at htier
    by_cases h1 : s.entry.shortcode = q
    · rw [if_pos h1] at hma; exact hma
    · by_cases h2 : ∃ a ∈ s.entry.aliases, a = q
      · exfalso
        simp [h1, h2] at htier
      · have h2' : q ∉ s.entry.aliases := fun h => h2 ⟨q, h, rfl⟩
        by_cases h3 : q <+: s.entry.shortcode
        · rw [if_neg h1, if_neg h2', if_pos (startsWith_iff.mpr h3)] at hma
          exact hma
        · have h3' : ¬ startsWith s.entry.shortcode q = true :=
            fun h => h3 (startsWith_iff.mp h)
          rw [if_neg h1, if_neg h2', if_neg h3'] at hma
          by_cases h5 : ∃ a ∈ s.entry.aliases, q <:+: a
          · exfalso
            simp only [if_neg h1, if_neg h2, if_neg h3] at htier
            by_cases h4 : ∃ a ∈ s.entry.aliases, q <+: a
            · simp [h4] at htier
            · simp [h4, h5] at htier
          · have hany : s.entry.aliases.any (fun a => includes a q) = false := by
              cases hb : s.entry.aliases.any (fun a => includes a q) with
              | false => rfl
              | true => exact absurd (hB.mpr hb) h5
            rw [hnone hany] at hma
            exact hma

/-- Witness of C19 (amended) on the entry `glad` and the query `joy`. -/
theorem C19_matchAlias_by_tier_witness :
    basicLatin.toLowerCase (basicLatin.trim (utf16 "joy")) ≠ [] ∧
      (⟨glad, 1030, utf16 "enjoy"⟩ : Suggestion)
        ∈ searchEmoji basicLatin ⟨[glad], [], []⟩ [] (utf16 "joy") 8 ∧
      glad.aliases.find?
          (fun a => includes a (basicLatin.toLowerCase (basicLatin.trim (utf16 "joy"))))
        = some (utf16 "enjoy") :=
  ⟨by decide, by decide,
    (C19_matchAlias_by_tier basicLatin ⟨[glad], [], []⟩ [] (utf16 "joy") 8 (by decide)
      ⟨glad, 1030, utf16 "enjoy"⟩ (by decide)).1 (Or.inl (by decide))⟩

/-! ## Emoticon conversion: claims -/

/-- The unit in front of a suffix is tested: the test fails exactly at the start of the
text or behind a unit that is no word character. -/
theorem prevOf_not_word_iff (p code : Str) :
    WORD_CHAR_RE (prevOf (p ++ code) p.length) = false ↔
      (p = [] ∨ ∃ p0 x, p = p0 ++ [x] ∧ isWordChar x = false) := by
  rcases List.eq_nil_or_concat p with h0 | ⟨p0, x, hx⟩
  · subst h0
    simp only [prevOf, List.length_nil, gt_iff_lt, lt_irrefl, if_false, true_or, iff_true]
    decide
  · rw [List.concat_eq_append] at hx
    subst hx
    have hpos : (p0 ++ [x]).length > 0 := by simp
    have hdrop : ((p0 ++ [x] ++ code).drop ((p0 ++ [x]).length - 1)).take 1 = [x] := by
      have : (p0 ++ [x]).length - 1 = p0.length := by simp
      rw [this, List.append_assoc, List.drop_left]
      rfl
    simp only [prevOf, if_pos hpos, hdrop, WORD_CHAR_RE, List.any_cons, List.any_nil,
      Bool.or_false]
    constructor
    · intro h; right; exact ⟨p0, x, rfl, h⟩
    · rintro (h | ⟨q0, y, hq, hy⟩)
      · simp at h
      · obtain ⟨-, hxy⟩ := List.append_inj' hq rfl
        have : x = y := by simpa using hxy
        rw [this]; exact hy

theorem endsWith_append (p code : Str) : endsWith (p ++ code) code = true := by
  simp [endsWith]

theorem length_append_sub (p code : Str) : (p ++ code).length - code.length = p.length := by
  rw [List.length_append]; omega

/-- One round of the loop over the emoticon pairs: a word character stands in front of the
suffix, the pair is passed over. -/
theorem emoticonLoop_cons_word {D : Type} (dom : Dom D) (s : Session D)
    (editor : Editor D) (p : Str) (pair : EmoticonPair) (rest : List EmoticonPair)
    (hword : WORD_CHAR_RE (prevOf (p ++ pair.code) p.length) = true) :
    emoticonLoop dom s editor (p ++ pair.code) (pair :: rest)
      = emoticonLoop dom s editor (p ++ pair.code) rest := by
  simp only [emoticonLoop, endsWith_append, length_append_sub, Bool.not_true,
    Bool.false_eq_true, if_false, hword, if_true]

/-- One round of the loop over the emoticon pairs: the replacement succeeds. -/
theorem emoticonLoop_cons_some {D : Type} (dom : Dom D) (s : Session D)
    (editor : Editor D) (p : Str) (pair : EmoticonPair) (rest : List EmoticonPair)
    (replaced : Editor D)
    (hword : WORD_CHAR_RE (prevOf (p ++ pair.code) p.length) = false)
    (hrep : replaceTextInEditor dom editor p.length (p ++ pair.code).length
      (pair.emoji ++ (if s.settings.insertTrailingSpace then [32] else [])) = some replaced) :
    emoticonLoop dom s editor (p ++ pair.code) (pair :: rest)
      = (hidePopup { s with activeEditor := some replaced }, true) := by
  simp only [emoticonLoop, endsWith_append, length_append_sub, Bool.not_true,
    Bool.false_eq_true, if_false, hword, hrep]

/-- One round of the loop over the emoticon pairs: the replacement fails, the next pair is
tried. -/
theorem emoticonLoop_cons_none {D : Type} (dom : Dom D) (s : Session D)
    (editor : Editor D) (p : Str) (pair : EmoticonPair) (rest : List EmoticonPair)
    (hword : WORD_CHAR_RE (prevOf (p ++ pair.code) p.length) = false)
    (hrep : replaceTextInEditor dom editor p.length (p ++ pair.code).length
      (pair.emoji ++ (if s.settings.insertTrailingSpace then [32] else [])) = none) :
    emoticonLoop dom s editor (p ++ pair.code) (pair :: rest)
      = emoticonLoop dom s editor (p ++ pair.code) rest := by
  simp only [emoticonLoop, endsWith_append, length_append_sub, Bool.not_true,
    Bool.false_eq_true, if_false, hword, hrep]

/-- One round of the loop over the emoticon pairs, where the code is no suffix. -/
theorem emoticonLoop_cons_of_not_suffix {D : Type} (dom : Dom D) (s : Session D)
    (editor : Editor D) (textBefore : Str) (pair : EmoticonPair) (rest : List EmoticonPair)
    (hends : endsWith textBefore pair.code = false) :
    emoticonLoop dom s editor textBefore (pair :: rest)
      = emoticonLoop dom s editor textBefore rest := by
  simp only [emoticonLoop, hends, Bool.not_false, if_true]

/-- The loop over the emoticon pairs either leaves the session as it is and reports false,
or has replaced a suffix that one pair names, in front of which no word character stands. -/
theorem emoticonLoop_result {D : Type} (dom : Dom D) (s : Session D) (editor : Editor D)
    (textBefore : Str) : ∀ pairs : List EmoticonPair,
    emoticonLoop dom s editor textBefore pairs = (s, false) ∨
      ∃ pair ∈ pairs, ∃ p replaced,
        textBefore = p ++ pair.code ∧
        (p = [] ∨ ∃ p0 x, p = p0 ++ [x] ∧ isWordChar x = false) ∧
        replaceTextInEditor dom editor p.length textBefore.length
          (pair.emoji ++ (if s.settings.insertTrailingSpace then [32] else []))
            = some replaced ∧
        emoticonLoop dom s editor textBefore pairs
          = (hidePopup { s with activeEditor := some replaced }, true) := by
  intro pairs
  induction pairs with
  | nil => left; rfl
  | cons pair rest ih =>
    have hrest : ∀ (_ : emoticonLoop dom s editor textBefore (pair :: rest)
        = emoticonLoop dom s editor textBefore rest),
        emoticonLoop dom s editor textBefore (pair :: rest) = (s, false) ∨
        ∃ pair' ∈ pair :: rest, ∃ p replaced,
          textBefore = p ++ pair'.code ∧
          (p = [] ∨ ∃ p0 x, p = p0 ++ [x] ∧ isWordChar x = false) ∧
          replaceTextInEditor dom editor p.length textBefore.length
            (pair'.emoji ++ (if s.settings.insertTrailingSpace then [32] else []))
              = some replaced ∧
          emoticonLoop dom s editor textBefore (pair :: rest)
            = (hidePopup { s with activeEditor := some replaced }, true) := by
      intro heq
      rw [heq]
      rcases ih with h | ⟨pair', hmem, p, replaced, h1, h2, h3, h4⟩
      · left; exact h
      · right; exact ⟨pair', List.mem_cons_of_mem _ hmem, p, replaced, h1, h2, h3, h4⟩
    by_cases hends : endsWith textBefore pair.code = true
    · simp only [endsWith, List.isSuffixOf_iff_suffix] at hends
      obtain ⟨p, hp⟩ := hends
      subst hp
      by_cases hword : WORD_CHAR_RE (prevOf (p ++ pair.code) p.length) = true
      · exact hrest (emoticonLoop_cons_word dom s editor p pair rest hword)
      · have hword' : WORD_CHAR_RE (prevOf (p ++ pair.code) p.length) = false := by
          simpa using hword
        cases hrep : replaceTextInEditor dom editor p.length (p ++ pair.code).length
            (pair.emoji ++ (if s.settings.insertTrailingSpace then [32] else [])) with
        | none => exact hrest (emoticonLoop_cons_none dom s editor p pair rest hword' hrep)
        | some replaced =>
          right
          exact ⟨pair, List.mem_cons_self _ _, p, replaced, rfl,
            (prevOf_not_word_iff p pair.code).mp hword', hrep,
            emoticonLoop_cons_some dom s editor p pair rest replaced hword' hrep⟩
    · have hends' : endsWith textBefore pair.code = false := by simpa using hends
      exact hrest (emoticonLoop_cons_of_not_suffix dom s editor textBefore pair rest hends')

/-- On a textarea the loop fires as soon as some pair names a suffix in front of which no
word character stands. -/
theorem emoticonLoop_fires {D : Type} (dom : Dom D) (s : Session D) (ta : Textarea)
    (textBefore : Str) : ∀ pairs : List EmoticonPair,
    (∃ pair ∈ pairs, ∃ p, textBefore = p ++ pair.code ∧
      (p = [] ∨ ∃ p0 x, p = p0 ++ [x] ∧ isWordChar x = false)) →
    (emoticonLoop dom s (Editor.textarea ta) textBefore pairs).2 = true := by
  intro pairs
  induction pairs with
  | nil => rintro ⟨pair, hmem, -⟩; exact absurd hmem (List.not_mem_nil _)
  | cons pair rest ih =>
    rintro ⟨pair', hmem, p', hp', hb'⟩
    by_cases hends : endsWith textBefore pair.code = true
    · simp only [endsWith, List.isSuffixOf_iff_suffix] at hends
      obtain ⟨p, hp⟩ := hends
      subst hp
      by_cases hword : WORD_CHAR_RE (prevOf (p ++ pair.code) p.length) = true
      · rw [emoticonLoop_cons_word dom s (Editor.textarea ta) p pair rest hword]
        apply ih
        rcases List.mem_cons.mp hmem with heq | hmem'
        · exfalso
          subst heq
          have hpp : p = p' := (List.append_inj' hp' rfl).1
          subst hpp
          rw [(prevOf_not_word_iff p pair'.code).mpr hb'] at hword
          exact Bool.noConfusion hword
        · exact ⟨pair', hmem', p', hp', hb'⟩
      · have hword' : WORD_CHAR_RE (prevOf (p ++ pair.code) p.length) = false := by
          simpa using hword
        have hle : ¬ (p ++ pair.code).length < p.length := by
          rw [List.length_append]; omega
        have hrep : replaceTextInEditor dom (Editor.textarea ta) p.length
            (p ++ pair.code).length
            (pair.emoji ++ (if s.settings.insertTrailingSpace then [32] else []))
            = some (Editor.textarea (replaceInTextarea ta p.length (p ++ pair.code).length
              (pair.emoji ++ (if s.settings.insertTrailingSpace then [32] else [])))) := by
          simp only [replaceTextInEditor, if_neg hle]
        rw [emoticonLoop_cons_some dom s (Editor.textarea ta) p pair rest _ hword' hrep]
    · have hends' : endsWith textBefore pair.code = false := by simpa using hends
      rw [emoticonLoop_cons_of_not_suffix dom s (Editor.textarea ta) textBefore pair rest
        hends']
      apply ih
      rcases List.mem_cons.mp hmem with heq | hmem'
      · exfalso
        subst heq
        have : endsWith textBefore pair'.code = true := by
          rw [hp']; simp [endsWith]
        rw [this] at hends'
        exact Bool.noConfusion hends'
      · exact ⟨pair', hmem', p', hp', hb'⟩

/-- What `maybeAutoConvertEmoticon` has done when it returns, for any editor. -/
theorem maybeAutoConvertEmoticon_result {D : Type} (dom : Dom D) (s : Session D)
    (editor : Editor D) :
    maybeAutoConvertEmoticon dom s editor = (s, false) ∨
      ∃ snapshot pair p replaced,
        getEditorSnapshot dom editor = some snapshot ∧ snapshot.isCollapsed = true ∧
        pair ∈ EMOTICON_PAIRS ∧ snapshot.textBefore = p ++ pair.code ∧
        (p = [] ∨ ∃ p0 x, p = p0 ++ [x] ∧ isWordChar x = false) ∧
        replaceTextInEditor dom editor p.length snapshot.textBefore.length
          (pair.emoji ++ (if s.settings.insertTrailingSpace then [32] else []))
            = some replaced ∧
        maybeAutoConvertEmoticon dom s editor
          = (hidePopup { s with activeEditor := some replaced }, true) := by
  unfold maybeAutoConvertEmoticon
  cases hsnap : getEditorSnapshot dom editor with
  | none => left; rfl
  | some snapshot =>
    simp only
    by_cases hcol : snapshot.isCollapsed = true
    · by_cases hemp : snapshot.textBefore.isEmpty = true
      · left; simp only [hcol, hemp, Bool.not_true, Bool.false_or, if_true]
      · simp only [hcol, hemp, Bool.not_true, Bool.or_self, Bool.false_eq_true, if_false]
        rcases emoticonLoop_result dom s editor snapshot.textBefore EMOTICON_PAIRS with
          h | ⟨pair, hmem, p, replaced, h1, h2, h3, h4⟩
        · left; exact h
        · right; exact ⟨snapshot, pair, p, replaced, rfl, hcol, hmem, h1, h2, h3, h4⟩
    · left
      have : snapshot.isCollapsed = false := by simpa using hcol
      simp only [this, Bool.not_false, Bool.true_or, if_true]

/-- No code of the table is the end of another code, and none is empty. -/
theorem emoticon_codes_apart :
    (∀ pair ∈ EMOTICON_PAIRS, ∀ pair' ∈ EMOTICON_PAIRS,
      pair.code <:+ pair'.code → pair = pair') ∧
    (∀ pair ∈ EMOTICON_PAIRS, pair.code ≠ []) := by
  decide

/-- A text ends in at most one code of the table. -/
theorem emoticon_suffix_unique {p p' : Str} {pair pair' : EmoticonPair}
    (hmem : pair ∈ EMOTICON_PAIRS) (hmem' : pair' ∈ EMOTICON_PAIRS)
    (h : p ++ pair.code = p' ++ pair'.code) : pair = pair' ∧ p = p' := by
  have hs : pair.code <:+ p ++ pair.code := List.suffix_append _ _
  have hs' : pair'.code <:+ p ++ pair.code := by rw [h]; exact List.suffix_append _ _
  have hpair : pair = pair' := by
    rcases List.suffix_or_suffix_of_suffix hs hs' with h1 | h1
    · exact emoticon_codes_apart.1 pair hmem pair' hmem' h1
    · exact (emoticon_codes_apart.1 pair' hmem' pair hmem h1).symm
  subst hpair
  exact ⟨rfl, (List.append_inj' h rfl).1⟩

/-- Counterexample to C12 as stated: with `insertTrailingSpace` switched on, the suffix
`:)` of `" :)"` is replaced by the emoji and a space, not by the paired emoji alone. -/
theorem C12_counterexample :
    (maybeAutoConvertEmoticon noDom
        (idleSession { DEFAULT_SETTINGS with insertTrailingSpace := true } smileyTextarea)
        (Editor.textarea smileyTextarea)).1.activeEditor
      = some (Editor.textarea
        { value := utf16 " 🙂 ", selectionStart := 4, selectionEnd := 4,
          focused := true, inputEvents := [utf16 "🙂 "] }) ∧
      utf16 " 🙂 " ≠ utf16 " " ++ utf16 "🙂" := by
  decide

/-- C12 (amended): `maybeAutoConvertEmoticon` mutates the text only if the caret is
collapsed, some code of the emoticon table is a suffix of the text before the caret and the
unit in front of that suffix is absent or no word character; it then replaces exactly that
suffix by the paired emoji, followed by a space when `insertTrailingSpace` is set. On a
textarea it does so whenever these conditions hold. Instances: `"x:)"` is not converted;
with the default settings `" :)"` becomes a space and the slightly smiling face. -/
theorem C12_emoticon_behind_boundary {D : Type} (dom : Dom D) (s : Session D)
    (editor : Editor D) :
    (maybeAutoConvertEmoticon dom s editor = (s, false) ∨
      ∃ snapshot pair p replaced,
        getEditorSnapshot dom editor = some snapshot ∧ snapshot.isCollapsed = true ∧
        pair ∈ EMOTICON_PAIRS ∧ snapshot.textBefore = p ++ pair.code ∧
        (p = [] ∨ ∃ p0 x, p = p0 ++ [x] ∧ isWordChar x = false) ∧
        replaceTextInEditor dom editor p.length snapshot.textBefore.length
          (pair.emoji ++ (if s.settings.insertTrailingSpace then [32] else []))
            = some replaced ∧
        maybeAutoConvertEmoticon dom s editor
          = (hidePopup { s with activeEditor := some replaced }, true)) ∧
    (∀ (ta : Textarea) (pair : EmoticonPair) (p : Str),
      pair ∈ EMOTICON_PAIRS → ta.selectionStart = ta.selectionEnd →
      ta.value.take ta.selectionStart = p ++ pair.code →
      (p = [] ∨ ∃ p0 x, p = p0 ++ [x] ∧ isWordChar x = false) →
      ∃ ta2 s2,
        maybeAutoConvertEmoticon dom s (Editor.textarea ta) = (s2, true) ∧
        s2.activeEditor = some (Editor.textarea ta2) ∧ s2.popupHidden = true ∧
        ta2.value = p
          ++ (pair.emoji ++ (if s.settings.insertTrailingSpace then [32] else []))
          ++ ta.value.drop ta.selectionStart ∧
        ta2.selectionStart = p.length
          + (pair.emoji ++ (if s.settings.insertTrailingSpace then [32] else [])).length ∧
        ta2.selectionEnd = ta2.selectionStart) ∧
    (maybeAutoConvertEmoticon noDom (idleSession DEFAULT_SETTINGS wordSmileyTextarea)
        (Editor.textarea wordSmileyTextarea)).2 = false ∧
    (maybeAutoConvertEmoticon noDom (idleSession DEFAULT_SETTINGS wordSmileyTextarea)
        (Editor.textarea wordSmileyTextarea)).1.activeEditor
      = some (Editor.textarea wordSmileyTextarea) ∧
    (maybeAutoConvertEmoticon noDom (idleSession DEFAULT_SETTINGS smileyTextarea)
        (Editor.textarea smileyTextarea)).2 = true ∧
    (maybeAutoConvertEmoticon noDom (idleSession DEFAULT_SETTINGS smileyTextarea)
        (Editor.textarea smileyTextarea)).1.activeEditor
      = some (Editor.textarea
        { value := utf16 " " ++ utf16 "🙂", selectionStart := 3, selectionEnd := 3,
          focused := true, inputEvents := [utf16 "🙂"] }) := by
  refine ⟨maybeAutoConvertEmoticon_result dom s editor, ?_, by decide, by decide, by decide,
    by decide⟩
  intro ta pair p hmem hcol hpre hboundary
  have hfires := emoticonLoop_fires dom s ta (ta.value.take ta.selectionStart)
    EMOTICON_PAIRS ⟨pair, hmem, p, hpre, hboundary⟩
  have hcode : pair.code ≠ [] := emoticon_codes_apart.2 pair hmem
  have hne : (ta.value.take ta.selectionStart).isEmpty = false := by
    rw [hpre]
    cases p with
    | nil =>
      cases hc : pair.code with
      | nil => exact absurd hc hcode
      | cons c cs => rfl
    | cons c cs => rfl
  have hunfold : maybeAutoConvertEmoticon dom s (Editor.textarea ta)
      = emoticonLoop dom s (Editor.textarea ta) (ta.value.take ta.selectionStart)
        EMOTICON_PAIRS := by
    simp only [maybeAutoConvertEmoticon, getEditorSnapshot, hcol, beq_self_eq_true,
      Bool.not_true, Bool.false_or]
    rw [← hcol, hne]
    simp only [Bool.false_eq_true, if_false]
  rcases emoticonLoop_result dom s (Editor.textarea ta) (ta.value.take ta.selectionStart)
      EMOTICON_PAIRS with h | ⟨pair', hmem', p', replaced, h1, -, h3, h4⟩
  · rw [h] at hfires
    exact Bool.noConfusion hfires
  · obtain ⟨hpair, hp⟩ := emoticon_suffix_unique hmem hmem' (hpre.symm.trans h1)
    subst hpair
    subst hp
    have hlt : p.length < (ta.value.take ta.selectionStart).length := by
      rw [hpre, List.length_append]
      have : pair.code.length ≠ 0 := fun h => hcode (List.length_eq_zero.mp h)
      omega
    have hle : ¬ (ta.value.take ta.selectionStart).length < p.length := by omega
    simp only [replaceTextInEditor, if_neg hle] at h3
    injection h3 with h3
    subst h3
    have hspan := replaceInTextarea_span ta p.length ta.selectionStart
      (pair.emoji ++ (if s.settings.insertTrailingSpace then [32] else [])) hlt
    have htake : ta.value.take p.length = p := by
      have hle2 : p.length ≤ ta.selectionStart := by
        have h5 := congrArg List.length hpre
        rw [List.length_take, List.length_append] at h5
        omega
      have h6 : List.take p.length (List.take ta.selectionStart ta.value)
          = List.take p.length ta.value := by
        rw [List.take_take, min_eq_left hle2]
      rw [← h6, hpre, List.take_left]
    rw [htake] at hspan
    rw [hunfold, h4]
    exact ⟨_, _, rfl, rfl, rfl, hspan.1, hspan.2.1, by rw [hspan.2.1, hspan.2.2]⟩

/-! ## Offsets into text leaves: claims -/

/-- The walk over the text leaves, for an offset within the text that is left: it stops in
the first leaf that reaches the offset. -/
theorem locateLoop_within (childCount : Nat) : ∀ (ls : List Str) (index remaining : Nat)
    (last : Option (Nat × Nat)), ls ≠ [] → remaining ≤ ls.flatten.length →
    ∃ A x C, ls = A ++ x :: C ∧ A.flatten.length ≤ remaining ∧
      remaining ≤ A.flatten.length + x.length ∧
      locateLoop childCount ls index remaining last
        = TextPoint.leaf (index + A.length) (remaining - A.flatten.length) ∧
      ∀ A' y C', ls = A' ++ y :: C' → A'.length < A.length →
        A'.flatten.length + y.length < remaining := by
  intro ls
  induction ls with
  | nil => intro _ _ _ hne; exact absurd rfl hne
  | cons v rest ih =>
    intro index remaining last _ hrem
    by_cases hv : remaining ≤ v.length
    · refine ⟨[], v, rest, rfl, by simp, by simpa using hv, ?_, ?_⟩
      · simp only [locateLoop, if_pos hv, List.length_nil, List.flatten_nil, Nat.add_zero,
          Nat.sub_zero]
      · intro A' y C' _ hlt
        simp at hlt
    · have hflat : (v :: rest).flatten.length = v.length + rest.flatten.length := by
        simp only [List.flatten_cons, List.length_append]
      have hrest : rest ≠ [] := by
        intro h0
        subst h0
        simp only [List.flatten_nil, List.length_nil] at hflat
        omega
      have hrem' : remaining - v.length ≤ rest.flatten.length := by omega
      obtain ⟨A, x, C, hls, h1, h2, h3, h4⟩ :=
        ih (index + 1) (remaining - v.length) (some (index, v.length)) hrest hrem'
      have hflatA : (v :: A).flatten.length = v.length + A.flatten.length := by
        simp only [List.flatten_cons, List.length_append]
      refine ⟨v :: A, x, C, by rw [hls]; rfl, by rw [hflatA]; omega, by rw [hflatA]; omega,
        ?_, ?_⟩
      · simp only [locateLoop, if_neg hv]
        rw [h3, hflatA, List.length_cons]
        congr 1
        · omega
        · omega
      · intro A' y C' hsplit hlt
        cases A' with
        | nil =>
          simp only [List.nil_append, List.cons.injEq] at hsplit
          rw [← hsplit.1]
          simp only [List.flatten_nil, List.length_nil]
          omega
        | cons w A'' =>
          simp only [List.cons_append, List.cons.injEq] at hsplit
          obtain ⟨hw, hrest'⟩ := hsplit
          subst hw
          have hlt' : A''.length < A.length := by
            simp only [List.length_cons] at hlt; omega
          have := h4 A'' y C' hrest' hlt'
          simp only [List.flatten_cons, List.length_append]
          omega

/-- The walk over the text leaves, for an offset beyond the text that is left: it ends at
the end of the last leaf. -/
theorem locateLoop_beyond (childCount : Nat) : ∀ (init : List Str) (v : Str)
    (index remaining : Nat) (last : Option (Nat × Nat)),
    (init ++ [v]).flatten.length < remaining →
    locateLoop childCount (init ++ [v]) index remaining last
      = TextPoint.leaf (index + init.length) v.length := by
  intro init
  induction init with
  | nil =>
    intro v index remaining last hrem
    have hv : ¬ remaining ≤ v.length := by
      simp only [List.nil_append, List.flatten_cons, List.flatten_nil, List.append_nil] at hrem
      omega
    simp only [List.nil_append, locateLoop, if_neg hv, List.length_nil, Nat.add_zero]
  | cons w init' ih =>
    intro v index remaining last hrem
    have hflat : (w :: init' ++ [v]).flatten.length
        = w.length + (init' ++ [v]).flatten.length := by
      simp only [List.cons_append, List.flatten_cons, List.length_append]
    have hw : ¬ remaining ≤ w.length := by omega
    simp only [List.cons_append, locateLoop, if_neg hw, List.append_eq]
    rw [ih v (index + 1) (remaining - w.length) _ (by omega), List.length_cons]
    congr 1
    omega

theorem leafStart_append (A : List Str) (x : Str) (C : List Str) :
    leafStart (A ++ x :: C) A.length = A.flatten.length := by
  simp only [leafStart, List.take_left]

theorem getD_append_cons (A : List Str) (x : Str) (C : List Str) :
    (A ++ x :: C).getD A.length [] = x := by
  induction A with
  | nil => rfl
  | cons a A ih => simpa using ih

theorem split_at_leaf (leaves : List Str) (j : Nat) (hj : j < leaves.length) :
    leaves = leaves.take j ++ leaves.getD j [] :: leaves.drop (j + 1) ∧
      (leaves.take j).length = j := by
  induction leaves generalizing j with
  | nil => simp at hj
  | cons a rest ih =>
    cases j with
    | zero => simp
    | succ j =>
      have hj' : j < rest.length := by simpa using hj
      obtain ⟨h1, h2⟩ := ih j hj'
      refine ⟨?_, by simp; omega⟩
      simp only [List.take_succ_cons, List.cons_append, List.getD_cons_succ,
        List.drop_succ_cons, List.cons.injEq, true_and]
      exact h1

theorem flatten_length_append_cons (A : List Str) (x : Str) (C : List Str) :
    (A ++ x :: C).flatten.length = A.flatten.length + x.length + C.flatten.length := by
  simp only [List.flatten_append, List.flatten_cons, List.length_append]
  omega

/-- The text of a range within one leaf. -/
theorem rangeText_same (A : List Str) (x : Str) (C : List Str) (o p : Nat) :
    rangeText (A ++ x :: C) (TextPoint.leaf A.length o) (TextPoint.leaf A.length p)
      = (x.drop o).take (p - o) := by
  simp only [rangeText, if_true, getD_append_cons]

/-- The text of a range that starts in one leaf and ends in a later one. -/
theorem rangeText_across (A : List Str) (x : Str) (M : List Str) (y : Str) (C : List Str)
    (o p : Nat) :
    rangeText (A ++ x :: (M ++ y :: C)) (TextPoint.leaf A.length o)
        (TextPoint.leaf (A ++ x :: M).length p)
      = x.drop o ++ M.flatten ++ y.take p := by
  have hlen : (A ++ x :: M).length = A.length + 1 + M.length := by
    simp only [List.length_append, List.length_cons]; omega
  have hne : ¬ A.length = (A ++ x :: M).length := by omega
  have hlt : A.length < (A ++ x :: M).length := by omega
  have hy : (A ++ x :: (M ++ y :: C)).getD (A ++ x :: M).length [] = y := by
    have h := getD_append_cons (A ++ x :: M) y C
    simpa using h
  have htake : ((A ++ x :: (M ++ y :: C)).take (A ++ x :: M).length).drop (A.length + 1)
      = M := by
    have h1 : A ++ x :: (M ++ y :: C) = (A ++ x :: M) ++ y :: C := by simp
    rw [h1, List.take_left]
    have h2 : A ++ x :: M = (A ++ [x]) ++ M := by simp
    have h3 : A.length + 1 = (A ++ [x]).length := by simp
    rw [h2, h3, List.drop_left]
  simp only [rangeText, if_neg hne, if_pos hlt, getD_append_cons, hy, htake]

/-- A slice of a text that lies within its middle part. -/
theorem slice_same (a x c : Str) (o n : Nat) (hn : o + n ≤ x.length) :
    ((a ++ x ++ c).drop (a.length + o)).take n = (x.drop o).take n := by
  have ho : o ≤ x.length := by omega
  have hlen : n ≤ (x.drop o).length := by rw [List.length_drop]; omega
  rw [List.append_assoc, ← List.drop_drop, List.drop_left,
    List.drop_append_of_le_length ho, List.take_append_of_le_length hlen]

/-- A slice of a text that starts in one part and ends in a later one. -/
theorem slice_across (a x m y c : Str) (o p : Nat) (ho : o ≤ x.length) (hp : p ≤ y.length) :
    ((a ++ x ++ m ++ y ++ c).drop (a.length + o)).take (x.length - o + m.length + p)
      = x.drop o ++ m ++ y.take p := by
  have h1 : a ++ x ++ m ++ y ++ c = a ++ (x ++ (m ++ (y ++ c))) := by
    simp only [List.append_assoc]
  have h2 : x.length - o + m.length + p = (x.drop o).length + (m.length + p) := by
    rw [List.length_drop]; omega
  rw [h1, ← List.drop_drop, List.drop_left,
    List.drop_append_of_le_length ho, h2, List.take_append, List.take_append,
    List.take_append_of_le_length hp, List.append_assoc]

theorem toNat_max_natCast (k : Nat) : (max 0 (k : Int)).toNat = k := by
  rw [max_eq_right (Int.ofNat_nonneg k), Int.toNat_ofNat]

/-- An offset within the text resolves to the first leaf that reaches it. -/
theorem locateTextPoint_within (leaves : List Str) (childCount k : Nat)
    (hne : leaves ≠ []) (hk : k ≤ leaves.flatten.length) :
    ∃ A x C, leaves = A ++ x :: C ∧ A.flatten.length ≤ k ∧
      k ≤ A.flatten.length + x.length ∧
      locateTextPoint leaves childCount (k : Int)
        = TextPoint.leaf A.length (k - A.flatten.length) ∧
      ∀ A' y C', leaves = A' ++ y :: C' → A'.length < A.length →
        A'.flatten.length + y.length < k := by
  obtain ⟨A, x, C, h0, h1, h2, h3, h4⟩ := locateLoop_within childCount leaves 0 k none hne hk
  refine ⟨A, x, C, h0, h1, h2, ?_, h4⟩
  rw [locateTextPoint, toNat_max_natCast, h3, Nat.zero_add]

/-- The range between two offsets within the text denotes the units between them. -/
theorem createRangeFromTextOffsets_text (leaves : List Str) (childCount : Nat)
    (hne : leaves ≠ []) (s e : Nat) (hse : s ≤ e) (he : e ≤ leaves.flatten.length) :
    rangeText leaves (createRangeFromTextOffsets leaves childCount s e).1
        (createRangeFromTextOffsets leaves childCount s e).2
      = (leaves.flatten.drop s).take (e - s) := by
  obtain ⟨A, x, C, hls, h1, h2, h3, h4⟩ :=
    locateTextPoint_within leaves childCount s hne (le_trans hse he)
  obtain ⟨A2, x2, C2, hls2, g1, g2, g3, -⟩ := locateTextPoint_within leaves childCount e hne he
  have hA : A.length ≤ A2.length := by
    by_contra hlt
    have := h4 A2 x2 C2 hls2 (by omega)
    omega
  simp only [createRangeFromTextOffsets, h3, g3]
  obtain ⟨o, rfl⟩ : ∃ o, s = A.flatten.length + o := ⟨s - A.flatten.length, by omega⟩
  obtain ⟨p, rfl⟩ : ∃ p, e = A2.flatten.length + p := ⟨e - A2.flatten.length, by omega⟩
  simp only [Nat.add_sub_cancel_left]
  have heq : A ++ x :: C = A2 ++ x2 :: C2 := by rw [← hls, ← hls2]
  rcases Nat.eq_or_lt_of_le hA with hlen | hlen
  · obtain ⟨hAA, hxC⟩ := List.append_inj heq hlen
    simp only [List.cons.injEq] at hxC
    obtain ⟨hx, hC⟩ := hxC
    subst hAA hx hC
    subst hls
    rw [rangeText_same, Nat.add_sub_add_left]
    have hflat : (A ++ x :: C).flatten = A.flatten ++ x ++ C.flatten := by
      simp only [List.flatten_append, List.flatten_cons, List.append_assoc]
    rw [hflat]
    by_cases hop : o ≤ p
    · rw [slice_same A.flatten x C.flatten o (p - o) (by omega)]
    · have h0 : p - o = 0 := by omega
      rw [h0, List.take_zero, List.take_zero]
  · rcases List.append_eq_append_iff.mp heq with ⟨a', ha, hc⟩ | ⟨c', hc, -⟩
    · cases a' with
      | nil =>
        rw [List.append_nil] at ha
        rw [ha] at hlen
        exact absurd hlen (lt_irrefl _)
      | cons w M =>
        simp only [List.cons_append, List.cons.injEq] at hc
        obtain ⟨hw, hC⟩ := hc
        subst hw ha hC
        subst hls
        rw [rangeText_across]
        have hflat : (A ++ x :: (M ++ x2 :: C2)).flatten
            = A.flatten ++ x ++ M.flatten ++ x2 ++ C2.flatten := by
          simp only [List.flatten_append, List.flatten_cons, List.append_assoc]
        have hA2 : (A ++ x :: M).flatten.length
            = A.flatten.length + x.length + M.flatten.length := by
          simp only [List.flatten_append, List.flatten_cons, List.length_append]
          omega
        rw [hA2] at g2 ⊢
        have hn : A.flatten.length + x.length + M.flatten.length + p - (A.flatten.length + o)
            = x.length - o + M.flatten.length + p := by omega
        rw [hflat, hn, slice_across A.flatten x M.flatten x2 C2.flatten o p (by omega)
          (by omega)]
    · rw [hc, List.length_append] at hlen
      omega

/-- C20 (counterexample). An offset past the end of the text resolves to the end of the last
leaf, which is not the first leaf that stands for the offset when the text ends in an empty
leaf: for the leaves "abc" and "" the offset 4 resolves to leaf 1, offset 0, although leaf
0 with offset 3 stands for it as well. -/
theorem C20_counterexample :
    locateTextPoint [utf16 "abc", utf16 ""] 0 4 = TextPoint.leaf 1 0 ∧
    ResolvesTo [utf16 "abc", utf16 ""] 4 0 3 ∧
    ¬ (∀ (leaves : List Str) (childCount : Nat) (k : Int), leaves ≠ [] →
        ∃ i o, locateTextPoint leaves childCount k = TextPoint.leaf i o ∧
          ResolvesTo leaves (max 0 k).toNat i o ∧
          ∀ j o', ResolvesTo leaves (max 0 k).toNat j o' → i ≤ j) := by
  have hloc : locateTextPoint [utf16 "abc", utf16 ""] 0 4 = TextPoint.leaf 1 0 := by decide
  have hres : ResolvesTo [utf16 "abc", utf16 ""] 4 0 3 := by
    unfold ResolvesTo leafStart
    decide
  refine ⟨hloc, hres, ?_⟩
  intro h
  obtain ⟨i, o, h1, -, h3⟩ := h [utf16 "abc", utf16 ""] 0 4 (by decide)
  rw [hloc] at h1
  have hi : 1 = i := by
    injection h1
  have := h3 0 3 hres
  omega

/-- C20. For text leaves of which there is at least one, `locateTextPoint` returns a leaf
`i` and an offset `o` within it such that the units in front of the point number
`min k total`, a negative `k` counting as 0; when `k` lies within the text the leaf is the
first one for which this holds, so that an offset on a boundary resolves to the end of the
earlier leaf, and when `k` lies past the end it is the last leaf, at its end. The range
that `createRangeFromTextOffsets` builds for `0 ≤ start ≤ end ≤ total` denotes the units
from `start` up to `end` of the concatenated text of the leaves. -/
theorem C20_locateTextPoint_resolves (leaves : List Str) (childCount : Nat)
    (hne : leaves ≠ []) :
    (∀ k : Int, ∃ i o, locateTextPoint leaves childCount k = TextPoint.leaf i o ∧
        ResolvesTo leaves (max 0 k).toNat i o ∧
        ((max 0 k).toNat ≤ leaves.flatten.length →
          ∀ j o', ResolvesTo leaves (max 0 k).toNat j o' → i ≤ j) ∧
        (leaves.flatten.length < (max 0 k).toNat →
          i + 1 = leaves.length ∧ o = (leaves.getD i []).length)) ∧
    ∀ s e : Nat, s ≤ e → e ≤ leaves.flatten.length →
      rangeText leaves (createRangeFromTextOffsets leaves childCount s e).1
          (createRangeFromTextOffsets leaves childCount s e).2
        = (leaves.flatten.drop s).take (e - s) := by
  refine ⟨?_, fun s e hse he => createRangeFromTextOffsets_text leaves childCount hne s e hse he⟩
  intro k
  generalize hK : (max 0 k).toNat = K
  have hloc : locateTextPoint leaves childCount k = locateLoop childCount leaves 0 K none := by
    rw [locateTextPoint, hK]
  by_cases hin : K ≤ leaves.flatten.length
  · obtain ⟨A, x, C, hls, h1, h2, h3, h4⟩ :=
      locateLoop_within childCount leaves 0 K none hne hin
    refine ⟨A.length, K - A.flatten.length, by rw [hloc, h3, Nat.zero_add], ?_, ?_, ?_⟩
    · refine ⟨?_, ?_, ?_⟩
      · rw [hls, List.length_append, List.length_cons]; omega
      · rw [hls, getD_append_cons]; omega
      · rw [min_eq_left hin]
        rw [hls, leafStart_append]; omega
    · rintro - j o' ⟨hj, ho', hsum⟩
      by_contra hlt
      obtain ⟨hsplit, hlen⟩ := split_at_leaf leaves j hj
      have := h4 _ _ _ hsplit (by rw [hlen]; omega)
      rw [min_eq_left hin] at hsum
      unfold leafStart at hsum
      omega
    · intro hout
      omega
  · have hout : leaves.flatten.length < K := by omega
    rcases List.eq_nil_or_concat leaves with h0 | ⟨init, v, hv⟩
    · exact absurd h0 hne
    · rw [List.concat_eq_append] at hv
      have hflat := flatten_length_append_cons init v []
      have hget := getD_append_cons init v []
      have hstart := leafStart_append init v []
      simp only [List.flatten_nil, List.length_nil, Nat.add_zero] at hflat
      subst hv
      refine ⟨init.length, v.length, ?_, ⟨?_, ?_, ?_⟩, ?_, ?_⟩
      · rw [hloc, locateLoop_beyond childCount init v 0 K none hout, Nat.zero_add]
      · rw [List.length_append, List.length_singleton]; omega
      · rw [hget]
      · rw [hstart, min_eq_right (le_of_lt hout), hflat]
      · intro h; omega
      · intro _
        exact ⟨by rw [List.length_append, List.length_singleton], by rw [hget]⟩

/-- C20 (witness). The leaves "abc" and "de": the range for the offsets 2 and 4 denotes the
units 2 and 3 of "abcde". -/
theorem C20_locateTextPoint_resolves_witness :
    [utf16 "abc", utf16 "de"] ≠ [] ∧
    rangeText [utf16 "abc", utf16 "de"]
        (createRangeFromTextOffsets [utf16 "abc", utf16 "de"] 0 (2 : Nat) (4 : Nat)).1
        (createRangeFromTextOffsets [utf16 "abc", utf16 "de"] 0 (2 : Nat) (4 : Nat)).2
      = (([utf16 "abc", utf16 "de"] : List Str).flatten.drop 2).take (4 - 2) :=
  ⟨by decide,
    (C20_locateTextPoint_resolves [utf16 "abc", utf16 "de"] 0 (by decide)).2 2 4
      (by decide) (by decide)⟩

/-! ## Building the index: claims -/

theorem contains_iff_mem (l : List Str) (a : Str) : l.contains a = true ↔ a ∈ l := by
  simp

theorem isEmpty_eq_false_iff (s : Str) : s.isEmpty = false ↔ s ≠ [] := by
  cases s <;> simp

theorem setAdd_nodup (set : List Str) (value : Str) (h : set.Nodup) :
    (setAdd set value).Nodup := by
  unfold setAdd
  by_cases hc : set.contains value = true
  · rw [if_pos hc]; exact h
  · rw [if_neg hc]
    rw [contains_iff_mem] at hc
    rw [List.nodup_append]
    refine ⟨h, List.nodup_singleton _, ?_⟩
    intro x hx hx'
    rw [List.mem_singleton] at hx'
    subst hx'
    exact hc hx

theorem mem_setAdd (set : List Str) (value x : Str) :
    x ∈ setAdd set value ↔ x ∈ set ∨ x = value := by
  unfold setAdd
  by_cases hc : set.contains value = true
  · rw [if_pos hc]
    rw [contains_iff_mem] at hc
    constructor
    · intro h; exact Or.inl h
    · rintro (h | h)
      · exact h
      · rw [h]; exact hc
  · rw [if_neg hc, List.mem_append, List.mem_singleton]

theorem foldl_setAdd_nodup (values : List Str) : ∀ acc : List Str, acc.Nodup →
    (values.foldl setAdd acc).Nodup := by
  induction values with
  | nil => intro acc h; exact h
  | cons v rest ih => intro acc h; exact ih _ (setAdd_nodup acc v h)

theorem mem_foldl_setAdd (values : List Str) (x : Str) : ∀ acc : List Str,
    x ∈ values.foldl setAdd acc ↔ x ∈ acc ∨ x ∈ values := by
  induction values with
  | nil => intro acc; simp
  | cons v rest ih =>
    intro acc
    rw [List.foldl_cons, ih, mem_setAdd, List.mem_cons]
    tauto

/-- The elements of a set are pairwise distinct. -/
theorem newSet_nodup (values : List Str) : (newSet values).Nodup :=
  foldl_setAdd_nodup values [] List.nodup_nil

/-- The elements of a set are the values it was made of. -/
theorem mem_newSet (values : List Str) (x : Str) : x ∈ newSet values ↔ x ∈ values := by
  unfold newSet
  rw [mem_foldl_setAdd]
  simp

theorem mapHas_eq_false_iff (map : List (Str × EmojiEntry)) (key : Str) :
    mapHas map key = false ↔ map.lookup key = none := by
  induction map with
  | nil => simp [mapHas]
  | cons kv rest ih =>
    obtain ⟨k, v⟩ := kv
    unfold mapHas at ih ⊢
    rw [List.any_cons, List.lookup_cons]
    by_cases hk : key = k
    · subst hk; simp
    · have h1 : (k == key) = false := by
        rw [beq_eq_false_iff_ne]; exact fun h => hk h.symm
      have h2 : (key == k) = false := by
        rw [beq_eq_false_iff_ne]; exact hk
      simp only [h1, h2, Bool.false_or]
      exact ih

theorem lookup_singleton (k a : Str) (v : EmojiEntry) :
    List.lookup a [(k, v)] = if a = k then some v else none := by
  rw [List.lookup_cons]
  by_cases h : a = k
  · subst h; simp
  · have h2 : (a == k) = false := by rw [beq_eq_false_iff_ne]; exact h
    simp [h2, h]

/-- What the alias map holds after the inner loop: the keys it had keep their entries, and
the aliases that were missing point to the new entry. -/
theorem aliasMapLoop_lookup (entry : EmojiEntry) (a : Str) : ∀ (aliases : List Str)
    (aliasMap : List (Str × EmojiEntry)),
    (aliasMapLoop entry aliases aliasMap).lookup a
      = (aliasMap.lookup a).or (if a ∈ aliases then some entry else none) := by
  intro aliases
  induction aliases with
  | nil => intro aliasMap; simp [aliasMapLoop]
  | cons x rest ih =>
    intro aliasMap
    by_cases hhas : mapHas aliasMap x = false
    · have hset : mapSet aliasMap x entry = aliasMap ++ [(x, entry)] := by
        unfold mapSet
        rw [hhas]
        rfl
      simp only [aliasMapLoop, hhas, Bool.not_false, if_true]
      rw [ih, hset, List.lookup_append, lookup_singleton]
      cases hl : aliasMap.lookup a with
      | some y => simp
      | none =>
        by_cases hax : a = x
        · simp [hax]
        · by_cases har : a ∈ rest
          · simp [hax, har]
          · simp [hax, har]
    · have hhas' : mapHas aliasMap x = true := by simpa using hhas
      simp only [aliasMapLoop, hhas', Bool.not_true, Bool.false_eq_true, if_false]
      rw [ih]
      cases hl : aliasMap.lookup a with
      | some y => simp
      | none =>
        have hax : a ≠ x := by
          intro h
          subst h
          rw [← mapHas_eq_false_iff] at hl
          rw [hl] at hhas'
          exact Bool.noConfusion hhas'
        by_cases har : a ∈ rest
        · simp [hax, har]
        · simp [hax, har]

theorem lookup_map_shortcode (list : List EmojiEntry) (key : Str) :
    (list.map (fun e => (e.shortcode, e))).lookup key
      = list.find? (fun e => e.shortcode == key) := by
  induction list with
  | nil => rfl
  | cons e rest ih =>
    rw [List.map_cons, List.lookup_cons, List.find?_cons]
    by_cases h : key = e.shortcode
    · subst h; simp
    · have h1 : (key == e.shortcode) = false := by rw [beq_eq_false_iff_ne]; exact h
      have h2 : (e.shortcode == key) = false := by
        rw [beq_eq_false_iff_ne]; exact fun h' => h h'.symm
      simp only [h1, h2]
      exact ih

theorem find?_shortcode_of_nodup (list : List EmojiEntry)
    (hnd : (list.map (fun e => e.shortcode)).Nodup) (e : EmojiEntry) (he : e ∈ list) :
    list.find? (fun e' => e'.shortcode == e.shortcode) = some e := by
  induction list with
  | nil => exact absurd he (List.not_mem_nil _)
  | cons x rest ih =>
    rw [List.map_cons, List.nodup_cons] at hnd
    rw [List.find?_cons]
    rcases List.mem_cons.mp he with hx | hr
    · subst hx; simp
    · have hne : (x.shortcode == e.shortcode) = false := by
        rw [beq_eq_false_iff_ne]
        intro h
        apply hnd.1
        rw [h]
        exact List.mem_map_of_mem _ hr
      simp only [hne]
      exact ih hnd.2 hr

/-- A round of the loop that skips its element. -/
theorem indexStep_skip (J : JsString) (st : IndexBuild) (raw : RawEntry)
    (h : rawEmoji raw = [] ∨ rawShortcode J raw = [] ∨ rawShortcode J raw ∈ st.seen) :
    indexStep J st (some raw) = st := by
  have hc : ((rawEmoji raw).isEmpty || (rawShortcode J raw).isEmpty
      || st.seen.contains (rawShortcode J raw)) = true := by
    rcases h with h | h | h
    · simp [h]
    · simp [h]
    · simp [h]
  simp only [indexStep, hc, if_true]

/-- A round of the loop that adds an entry. -/
theorem indexStep_push (J : JsString) (st : IndexBuild) (raw : RawEntry)
    (h1 : rawEmoji raw ≠ []) (h2 : rawShortcode J raw ≠ [])
    (h3 : rawShortcode J raw ∉ st.seen) :
    indexStep J st (some raw) =
      { list := st.list ++ [rawIndexEntry J raw]
        shortcodeMap := mapSet st.shortcodeMap (rawShortcode J raw) (rawIndexEntry J raw)
        aliasMap := aliasMapLoop (rawIndexEntry J raw) (rawIndexEntry J raw).aliases st.aliasMap
        seen := setAdd st.seen (rawShortcode J raw) } := by
  have hc : ((rawEmoji raw).isEmpty || (rawShortcode J raw).isEmpty
      || st.seen.contains (rawShortcode J raw)) = false := by
    have e1 := (isEmpty_eq_false_iff _).mpr h1
    have e2 := (isEmpty_eq_false_iff _).mpr h2
    have e3 : st.seen.contains (rawShortcode J raw) = false := by
      rw [← Bool.not_eq_true, contains_iff_mem]; exact h3
    rw [e1, e2, e3]; rfl
  simp only [indexStep, hc, Bool.false_eq_true, if_false]

/-- The invariant of the loop is kept by a round that skips its element. -/
theorem indexInvariant_skip (J : JsString) (done : List (Option RawEntry)) (st : IndexBuild)
    (raw : Option RawEntry) (hinv : IndexInvariant J done st)
    (hskip : ∀ r, raw = some r → rawEmoji r ≠ [] → rawShortcode J r ≠ [] →
      rawShortcode J r ∈ st.list.map (fun e => e.shortcode)) :
    IndexInvariant J (done ++ [raw]) st := by
  obtain ⟨i1, i2, i3, i4, i5, i6⟩ := hinv
  refine ⟨i1, i2, i3, i4, ?_, ?_⟩
  · intro e he
    obtain ⟨pre, r, post, hd, h1, h2, h3, h4⟩ := i5 e he
    exact ⟨pre, r, post ++ [raw], by rw [hd]; simp, h1, h2, h3, h4⟩
  · intro r hr h1 h2
    rcases List.mem_append.mp hr with hr | hr
    · exact i6 r hr h1 h2
    · rw [List.mem_singleton] at hr
      exact hskip r hr.symm h1 h2

/-- The invariant of the loop is kept by every round. -/
theorem indexInvariant_step (J : JsString) (done : List (Option RawEntry)) (st : IndexBuild)
    (raw : Option RawEntry) (hinv : IndexInvariant J done st) :
    IndexInvariant J (done ++ [raw]) (indexStep J st raw) := by
  cases raw with
  | none =>
    exact indexInvariant_skip J done st none hinv (fun r hr => Option.noConfusion hr)
  | some r =>
    by_cases hskip : rawEmoji r = [] ∨ rawShortcode J r = [] ∨ rawShortcode J r ∈ st.seen
    · rw [indexStep_skip J st r hskip]
      apply indexInvariant_skip J done st (some r) hinv
      intro r' hr' h1 h2
      have hrr : r = r' := Option.some.inj hr'
      subst hrr
      rcases hskip with h | h | h
      · exact absurd h h1
      · exact absurd h h2
      · rw [← hinv.1]; exact h
    · have h1 : rawEmoji r ≠ [] := fun h => hskip (Or.inl h)
      have h2 : rawShortcode J r ≠ [] := fun h => hskip (Or.inr (Or.inl h))
      have h3 : rawShortcode J r ∉ st.seen := fun h => hskip (Or.inr (Or.inr h))
      rw [indexStep_push J st r h1 h2 h3]
      obtain ⟨i1, i2, i3, i4, i5, i6⟩ := hinv
      have hsc : (rawIndexEntry J r).shortcode = rawShortcode J r := rfl
      have h3' : rawShortcode J r ∉ st.list.map (fun e => e.shortcode) := by
        rw [← i1]; exact h3
      refine ⟨?_, ?_, ?_, ?_, ?_, ?_⟩
      · show setAdd st.seen (rawShortcode J r)
          = (st.list ++ [rawIndexEntry J r]).map (fun e => e.shortcode)
        have hc : st.seen.contains (rawShortcode J r) = false := by
          rw [← Bool.not_eq_true, contains_iff_mem]; exact h3
        unfold setAdd
        rw [hc, List.map_append, i1]
        rfl
      · show mapSet st.shortcodeMap (rawShortcode J r) (rawIndexEntry J r)
          = (st.list ++ [rawIndexEntry J r]).map (fun e => (e.shortcode, e))
        have hhas : mapHas st.shortcodeMap (rawShortcode J r) = false := by
          rw [mapHas_eq_false_iff, i2, lookup_map_shortcode, List.find?_eq_none]
          intro x hx hxs
          apply h3'
          rw [beq_iff_eq] at hxs
          rw [← hxs]
          exact List.mem_map_of_mem _ hx
        unfold mapSet
        rw [hhas, List.map_append, i2]
        rfl
      · show ((st.list ++ [rawIndexEntry J r]).map (fun e => e.shortcode)).Nodup
        rw [List.map_append, List.nodup_append]
        refine ⟨i3, List.nodup_singleton _, ?_⟩
        intro x hx hx'
        rw [List.map_singleton, List.mem_singleton] at hx'
        subst hx'
        exact h3' hx
      · intro a
        show (aliasMapLoop (rawIndexEntry J r) (rawIndexEntry J r).aliases st.aliasMap).lookup a
          = (st.list ++ [rawIndexEntry J r]).find? (fun e => e.aliases.contains a)
        rw [aliasMapLoop_lookup, i4, List.find?_append]
        congr 1
        by_cases ha : a ∈ (rawIndexEntry J r).aliases
        · rw [if_pos ha, List.find?_cons]
          simp [ha]
        · rw [if_neg ha, List.find?_cons]
          simp [ha]
      · intro e he
        change e ∈ st.list ++ [rawIndexEntry J r] at he
        rcases List.mem_append.mp he with he | he
        · obtain ⟨pre, r0, post, hd, g1, g2, g3, g4⟩ := i5 e he
          exact ⟨pre, r0, post ++ [some r], by rw [hd]; simp, g1, g2, g3, g4⟩
        · rw [List.mem_singleton] at he
          subst he
          refine ⟨done, r, [], rfl, rfl, h1, h2, ?_⟩
          intro r' hr' g1 g2
          apply h3'
          rw [hsc] at g2
          rw [← g2]
          exact i6 r' hr' g1 (by rw [g2]; exact h2)
      · intro r' hr' g1 g2
        show rawShortcode J r' ∈ (st.list ++ [rawIndexEntry J r]).map (fun e => e.shortcode)
        rw [List.map_append, List.mem_append]
        rcases List.mem_append.mp hr' with hr' | hr'
        · exact Or.inl (i6 r' hr' g1 g2)
        · rw [List.mem_singleton] at hr'
          have hrr : r' = r := Option.some.inj hr'
          subst hrr
          right
          simp [hsc]

/-- The invariant holds of the variables when the loop is over. -/
theorem indexInvariant_foldl (J : JsString) (rawEntries : List (Option RawEntry)) :
    IndexInvariant J rawEntries (rawEntries.foldl (indexStep J) ⟨[], [], [], []⟩) := by
  induction rawEntries using List.reverseRecOn with
  | nil =>
    refine ⟨rfl, rfl, List.nodup_nil, fun a => rfl, ?_, ?_⟩
    · intro e he; exact absurd he (List.not_mem_nil _)
    · intro r hr; exact absurd hr (List.not_mem_nil _)
  | append_singleton done raw ih =>
    rw [List.foldl_append]
    exact indexInvariant_step J done _ raw ih

/-- The aliases of an entry that the loop builds are pairwise distinct, none is empty and
none is the shortcode. -/
theorem rawIndexEntry_aliases (J : JsString) (raw : RawEntry) :
    (rawIndexEntry J raw).aliases.Nodup ∧
      (rawIndexEntry J raw).shortcode ∉ (rawIndexEntry J raw).aliases ∧
      [] ∉ (rawIndexEntry J raw).aliases := by
  refine ⟨newSet_nodup _, ?_, ?_⟩
  · show rawShortcode J raw ∉ newSet (rawAliases J raw (rawShortcode J raw))
    rw [mem_newSet]
    unfold rawAliases
    cases raw.aliases with
    | none => exact List.not_mem_nil _
    | some as =>
      simp only [List.mem_filter, not_and]
      intro _
      simp
  · show [] ∉ newSet (rawAliases J raw (rawShortcode J raw))
    rw [mem_newSet]
    unfold rawAliases
    cases raw.aliases with
    | none => exact List.not_mem_nil _
    | some as =>
      simp only [List.mem_filter, not_and]
      intro _
      simp

/-- C14. For every corpus, in the index that `buildEmojiIndex` returns every entry has a
shortcode that is non-empty and lowercase, being a value of `toLowerCase` (which
`toLowerCase` leaves as it is, provided it leaves its own values as they are); the
shortcodes are pairwise distinct, and each entry is built from the first element of the
corpus that has its shortcode and a non-empty emoji, every such shortcode being in the
index; the aliases of an entry are pairwise distinct and do not contain its shortcode;
`shortcodeMap` maps the shortcode of each entry to that entry; and `aliasMap` maps every
string to the earliest entry of the list that has it among its aliases, and nothing else. -/
theorem C14_buildEmojiIndex_invariants (J : JsString) (rawEntries : List (Option RawEntry)) :
    (∀ e ∈ (buildEmojiIndex J rawEntries).list,
      e.shortcode ≠ [] ∧ (∃ s, e.shortcode = J.toLowerCase s) ∧
        ((∀ s, J.toLowerCase (J.toLowerCase s) = J.toLowerCase s) →
          J.toLowerCase e.shortcode = e.shortcode)) ∧
    ((buildEmojiIndex J rawEntries).list.map (fun e => e.shortcode)).Nodup ∧
    (∀ e ∈ (buildEmojiIndex J rawEntries).list, ∃ pre raw post,
      rawEntries = pre ++ some raw :: post ∧ e = rawIndexEntry J raw ∧ rawEmoji raw ≠ [] ∧
        ∀ raw', some raw' ∈ pre → rawEmoji raw' ≠ [] → rawShortcode J raw' ≠ e.shortcode) ∧
    (∀ raw, some raw ∈ rawEntries → rawEmoji raw ≠ [] → rawShortcode J raw ≠ [] →
      ∃ e ∈ (buildEmojiIndex J rawEntries).list, e.shortcode = rawShortcode J raw) ∧
    (∀ e ∈ (buildEmojiIndex J rawEntries).list,
      e.aliases.Nodup ∧ e.shortcode ∉ e.aliases) ∧
    (∀ e ∈ (buildEmojiIndex J rawEntries).list,
      (buildEmojiIndex J rawEntries).shortcodeMap.lookup e.shortcode = some e) ∧
    (∀ a, (buildEmojiIndex J rawEntries).aliasMap.lookup a
      = (buildEmojiIndex J rawEntries).list.find? (fun e => e.aliases.contains a)) := by
  obtain ⟨-, i2, i3, i4, i5, i6⟩ := indexInvariant_foldl J rawEntries
  have horigin : ∀ e ∈ (buildEmojiIndex J rawEntries).list, ∃ pre raw post,
      rawEntries = pre ++ some raw :: post ∧ e = rawIndexEntry J raw ∧ rawEmoji raw ≠ [] ∧
        rawShortcode J raw ≠ [] ∧
        ∀ raw', some raw' ∈ pre → rawEmoji raw' ≠ [] → rawShortcode J raw' ≠ e.shortcode :=
    i5
  refine ⟨?_, i3, ?_, ?_, ?_, ?_, i4⟩
  · intro e he
    obtain ⟨pre, raw, post, -, h1, -, h3, -⟩ := horigin e he
    subst h1
    have hsc : (rawIndexEntry J raw).shortcode = rawShortcode J raw := rfl
    rw [hsc] at *
    have himage : ∃ s, rawShortcode J raw = J.toLowerCase s := by
      cases hs : raw.shortcode with
      | none =>
        exfalso
        apply h3
        simp only [rawShortcode, hs]
      | some s => exact ⟨J.trim s, by simp only [rawShortcode, hs]⟩
    refine ⟨h3, himage, ?_⟩
    intro hidem
    obtain ⟨s, hs⟩ := himage
    rw [hs, hidem]
  · intro e he
    obtain ⟨pre, raw, post, h0, h1, h2, -, h4⟩ := horigin e he
    exact ⟨pre, raw, post, h0, h1, h2, h4⟩
  · intro raw hraw h1 h2
    have := i6 raw hraw h1 h2
    rw [List.mem_map] at this
    exact this
  · intro e he
    obtain ⟨pre, raw, post, -, h1, -, -, -⟩ := horigin e he
    subst h1
    exact ⟨(rawIndexEntry_aliases J raw).1, (rawIndexEntry_aliases J raw).2.1⟩
  · intro e he
    show ((rawEntries.foldl (indexStep J) ⟨[], [], [], []⟩).shortcodeMap).lookup e.shortcode
      = some e
    rw [i2, lookup_map_shortcode]
    exact find?_shortcode_of_nodup _ i3 e he

/-- The index of `exampleCorpus`: the second "smile" and the element without an emoji are
left out, the alias "happy" stays with the earlier entry. -/
theorem buildEmojiIndex_exampleCorpus :
    buildEmojiIndex basicLatin exampleCorpus =
      { list := [corpusSmile, corpusJoy]
        shortcodeMap := [(utf16 "smile", corpusSmile), (utf16 "joy", corpusJoy)]
        aliasMap := [(utf16 "happy", corpusSmile), (utf16 "joy", corpusSmile),
          (utf16 "tears", corpusJoy)] } := by
  decide

/-! ## Settings: claims -/

theorem mathRound_intCast (n : Int) : mathRound (n : ℚ) = n := by
  unfold mathRound
  rw [Int.floor_eq_iff]
  constructor
  · linarith
  · linarith

theorem coerceNumber_of_finite (N : Str → JsNumber) (value : JsValue) (min max fallback : Int)
    (q : ℚ) (h : toNumber N value = JsNumber.finite q) :
    coerceNumber N value min max fallback = Min.min max (Max.max min (mathRound q)) := by
  simp only [coerceNumber, h]

theorem coerceNumber_of_not_finite (N : Str → JsNumber) (value : JsValue)
    (min max fallback : Int) (h : isFinite (toNumber N value) = false) :
    coerceNumber N value min max fallback = fallback := by
  unfold coerceNumber
  cases hn : toNumber N value with
  | finite q => rw [hn] at h; exact Bool.noConfusion h
  | nan => rfl
  | posInf => rfl
  | negInf => rfl

theorem coerceNumber_le_max (N : Str → JsNumber) (value : JsValue) (min max fallback : Int)
    (h : isFinite (toNumber N value) = true) :
    coerceNumber N value min max fallback ≤ max := by
  cases hn : toNumber N value with
  | finite q =>
    rw [coerceNumber_of_finite N value min max fallback q hn]
    exact min_le_left _ _
  | nan => rw [hn] at h; exact Bool.noConfusion h
  | posInf => rw [hn] at h; exact Bool.noConfusion h
  | negInf => rw [hn] at h; exact Bool.noConfusion h

theorem coerceNumber_ge_min (N : Str → JsNumber) (value : JsValue) (min max fallback : Int)
    (h : isFinite (toNumber N value) = true) (hmm : min ≤ max) :
    min ≤ coerceNumber N value min max fallback := by
  cases hn : toNumber N value with
  | finite q =>
    rw [coerceNumber_of_finite N value min max fallback q hn]
    exact le_min hmm (le_max_left _ _)
  | nan => rw [hn] at h; exact Bool.noConfusion h
  | posInf => rw [hn] at h; exact Bool.noConfusion h
  | negInf => rw [hn] at h; exact Bool.noConfusion h

/-- A value that `coerceNumber` returns lies between the bounds as soon as the fallback
does. -/
theorem coerceNumber_range (N : Str → JsNumber) (value : JsValue) (min max fallback : Int)
    (hmm : min ≤ max) (h1 : min ≤ fallback) (h2 : fallback ≤ max) :
    min ≤ coerceNumber N value min max fallback ∧
      coerceNumber N value min max fallback ≤ max := by
  cases hf : isFinite (toNumber N value) with
  | true =>
    exact ⟨coerceNumber_ge_min N value min max fallback hf hmm,
      coerceNumber_le_max N value min max fallback hf⟩
  | false =>
    rw [coerceNumber_of_not_finite N value min max fallback hf]
    exact ⟨h1, h2⟩

/-- Every value of `sanitizeSettings` is within the ranges. -/
theorem sanitizeSettings_valid (N : Str → JsNumber) (candidate : JsObject) :
    ValidSettings (sanitizeSettings N candidate) := by
  refine ⟨?_, ?_, ?_, ?_, ?_, ?_⟩
  · cases (sanitizeSettings N candidate).mode
    · exact Or.inl rfl
    · exact Or.inr rfl
  · exact (coerceNumber_range N _ 0 3 1 (by decide) (by decide) (by decide)).1
  · exact (coerceNumber_range N _ 0 3 1 (by decide) (by decide) (by decide)).2
  · exact (coerceNumber_range N _ 3 20 8 (by decide) (by decide) (by decide)).1
  · exact (coerceNumber_range N _ 3 20 8 (by decide) (by decide) (by decide)).2
  · intro flag _
    cases flag
    · exact Or.inr rfl
    · exact Or.inl rfl

theorem defaultSettings_valid : ValidSettings DEFAULT_SETTINGS := by
  refine ⟨Or.inl rfl, by decide, by decide, by decide, by decide, ?_⟩
  intro flag _
  cases flag
  · exact Or.inr rfl
  · exact Or.inl rfl

/-- Every event of storage keeps the settings within the ranges. -/
theorem storageStep_valid (N : Str → JsNumber) (J : JsString) (st : StoredState)
    (event : StorageEvent) (h : ValidSettings st.settings) :
    ValidSettings (storageStep N J st event).settings := by
  cases event with
  | settingsLoaded sync =>
    cases sync with
    | unavailable => exact h
    | failed => exact sanitizeSettings_valid N _
    | items stored => exact sanitizeSettings_valid N _
  | changed changes areaName =>
    simp only [storageStep, onStorageChanged]
    by_cases h1 : areaName = utf16 "sync"
    · rw [if_pos h1]
      exact sanitizeSettings_valid N _
    · rw [if_neg h1]
      by_cases h2 : areaName = utf16 "local"
      · rw [if_pos h2]
        cases changes.lookup USAGE_KEY with
        | none => exact h
        | some v => exact h
      · rw [if_neg h2]
        exact h

theorem foldl_storageStep_valid (N : Str → JsNumber) (J : JsString) :
    ∀ (events : List StorageEvent) (st : StoredState), ValidSettings st.settings →
      ValidSettings (events.foldl (storageStep N J) st).settings := by
  intro events
  induction events with
  | nil => intro st h; exact h
  | cons event rest ih => intro st h; exact ih _ (storageStep_valid N J st event h)

/-- C15. Starting from the defaults, after any sequence of loads and change notifications,
whatever values they carry, the settings have a mode that is discord or slack, a
`triggerMinChars` that is an integer from 0 to 3, a `maxSuggestions` that is an integer from
3 to 20 and five flags that are booleans; `sanitizeSettings` maps every candidate into these
ranges; and `coerceNumber` returns the fallback when the value is no finite Number, and
otherwise an integer that is at most `max` and, when `min ≤ max`, at least `min`. -/
theorem C15_settings_stay_sanitized (N : Str → JsNumber) (J : JsString) :
    (∀ events : List StorageEvent,
      ValidSettings (events.foldl (storageStep N J) initialStoredState).settings) ∧
    (∀ candidate : JsObject, ValidSettings (sanitizeSettings N candidate)) ∧
    (∀ (value : JsValue) (min max fallback : Int),
      (isFinite (toNumber N value) = false →
        coerceNumber N value min max fallback = fallback) ∧
      (isFinite (toNumber N value) = true →
        coerceNumber N value min max fallback ≤ max ∧
          (min ≤ max → min ≤ coerceNumber N value min max fallback))) :=
  ⟨fun events => foldl_storageStep_valid N J events initialStoredState defaultSettings_valid,
    sanitizeSettings_valid N,
    fun value min max fallback =>
      ⟨coerceNumber_of_not_finite N value min max fallback,
        fun h => ⟨coerceNumber_le_max N value min max fallback h,
          coerceNumber_ge_min N value min max fallback h⟩⟩⟩

theorem lookup_eq_none_of_any_false {α : Type} (object : List (Str × α)) (key : Str)
    (h : object.any (fun kv => kv.1 == key) = false) : object.lookup key = none := by
  induction object with
  | nil => rfl
  | cons kv rest ih =>
    obtain ⟨k, v⟩ := kv
    rw [List.any_cons, Bool.or_eq_false_iff] at h
    have hk : (key == k) = false := by
      rw [beq_eq_false_iff_ne]
      intro heq
      have h1 := h.1
      rw [beq_eq_false_iff_ne] at h1
      exact h1 heq.symm
    rw [List.lookup_cons, hk]
    exact ih h.2

theorem lookup_map_set {α : Type} (object : List (Str × α)) (key k : Str) (value : α) :
    (object.map (fun kv => if kv.1 == key then (key, value) else kv)).lookup k
      = if k = key then (object.lookup k).map (fun _ => value) else object.lookup k := by
  induction object with
  | nil => simp
  | cons kv rest ih =>
    obtain ⟨k0, v0⟩ := kv
    rw [List.map_cons]
    by_cases h0 : k0 = key
    · subst h0
      simp only [beq_self_eq_true, if_true, List.lookup_cons]
      by_cases hk : k = k0
      · subst hk; simp
      · have hb : (k == k0) = false := by rw [beq_eq_false_iff_ne]; exact hk
        simp only [hb, if_neg hk] at ih ⊢
        exact ih
    · have hb0 : (k0 == key) = false := by rw [beq_eq_false_iff_ne]; exact h0
      simp only [hb0, Bool.false_eq_true, if_false, List.lookup_cons]
      by_cases hk : k = k0
      · subst hk
        simp [h0]
      · have hb : (k == k0) = false := by rw [beq_eq_false_iff_ne]; exact hk
        simp only [hb]
        exact ih

/-- An assignment to a property, on the list of own properties: a read of the key gives the
new value, every other read gives what it gave. -/
theorem lookup_assign {α : Type} (object : List (Str × α)) (key k : Str) (value : α) :
    (if object.any (fun kv => kv.1 == key) = true then
        object.map (fun kv => if kv.1 == key then (key, value) else kv)
      else object ++ [(key, value)]).lookup k
      = if k = key then some value else object.lookup k := by
  by_cases hany : object.any (fun kv => kv.1 == key) = true
  · rw [if_pos hany, lookup_map_set]
    by_cases hk : k = key
    · subst hk
      rw [if_pos rfl, if_pos rfl]
      rw [List.any_eq_true] at hany
      obtain ⟨kv, hmem, hkv⟩ := hany
      cases hl : object.lookup k with
      | none =>
        exfalso
        rw [List.lookup_eq_none_iff] at hl
        have := hl kv hmem
        rw [beq_iff_eq] at hkv
        rw [hkv] at this
        simp at this
      | some x => rfl
    · rw [if_neg hk, if_neg hk]
  · have hany' : object.any (fun kv => kv.1 == key) = false := (Bool.not_eq_true _).mp hany
    rw [if_neg hany, List.lookup_append]
    by_cases hk : k = key
    · subst hk
      rw [lookup_eq_none_of_any_false object k hany', if_pos rfl]
      simp [List.lookup_cons]
    · rw [if_neg hk]
      have hb : (k == key) = false := by rw [beq_eq_false_iff_ne]; exact hk
      cases object.lookup k with
      | none => simp [List.lookup_cons, hb]
      | some x => simp

/-- An assignment changes what a read of its key gives and no other read. -/
theorem getProperty_setProperty (object : JsObject) (key k : Str) (value : JsValue) :
    getProperty (setProperty object key value) k
      = if k = key then value else getProperty object k := by
  unfold getProperty setProperty
  rw [lookup_assign]
  by_cases hk : k = key
  · rw [if_pos hk, if_pos hk]; rfl
  · rw [if_neg hk, if_neg hk]

/-- An assignment to the usage table changes the count of its key and no other. -/
theorem lookup_objectSet (object : UsageCounts) (key k : Str) (value : Nat) :
    (objectSet object key value).lookup k
      = if k = key then some value else object.lookup k := by
  unfold objectSet
  exact lookup_assign object key k value

/-- What a read gives after the loop over the keys: the new value where the changes have
one for a key of the loop, and what it gave before otherwise. -/
theorem getProperty_assignChanges (changes : JsObject) (k : Str) :
    ∀ (keys : List Str) (next : JsObject),
      getProperty (assignChanges changes keys next) k
        = if k ∈ keys then (changes.lookup k).getD (getProperty next k)
          else getProperty next k := by
  intro keys
  induction keys with
  | nil => intro next; simp [assignChanges]
  | cons key rest ih =>
    intro next
    cases hl : changes.lookup key with
    | none =>
      simp only [assignChanges, hl]
      rw [ih]
      by_cases hr : k ∈ rest
      · rw [if_pos hr, if_pos (List.mem_cons_of_mem _ hr)]
      · rw [if_neg hr]
        by_cases hk : k = key
        · subst hk
          rw [if_pos (List.mem_cons_self _ _), hl]
          rfl
        · have : k ∉ key :: rest := by
            intro h
            rcases List.mem_cons.mp h with h | h
            · exact hk h
            · exact hr h
          rw [if_neg this]
    | some newValue =>
      simp only [assignChanges, hl]
      rw [ih, getProperty_setProperty]
      by_cases hk : k = key
      · subst hk
        rw [if_pos (List.mem_cons_self _ _), hl, if_pos rfl]
        by_cases hr : k ∈ rest
        · rw [if_pos hr]
          rfl
        · rw [if_neg hr]
          rfl
      · rw [if_neg hk]
        by_cases hr : k ∈ rest
        · rw [if_pos hr, if_pos (List.mem_cons_of_mem _ hr)]
        · have : k ∉ key :: rest := by
            intro h
            rcases List.mem_cons.mp h with h | h
            · exact hk h
            · exact hr h
          rw [if_neg hr, if_neg this]

theorem lookup_storageGet (defaults items : JsObject) (k : Str) :
    (storageGet defaults items).lookup k
      = (defaults.lookup k).map (fun d => (items.lookup k).getD d) := by
  unfold storageGet
  induction defaults with
  | nil => rfl
  | cons kv rest ih =>
    obtain ⟨k0, v0⟩ := kv
    rw [List.map_cons, List.lookup_cons, List.lookup_cons]
    by_cases hk : k = k0
    · subst hk; simp
    · have hb : (k == k0) = false := by rw [beq_eq_false_iff_ne]; exact hk
      simp only [hb]
      exact ih

/-- What the callback of `loadSettings` reads: the stored item, or the default. -/
theorem getProperty_storageGet (items : JsObject) (k : Str) (hk : k ∈ SETTINGS_KEYS) :
    getProperty (storageGet (spreadSettings DEFAULT_SETTINGS) items) k
      = (items.lookup k).getD (getProperty (spreadSettings DEFAULT_SETTINGS) k) := by
  unfold getProperty
  rw [lookup_storageGet]
  have hsome : ∃ d, (spreadSettings DEFAULT_SETTINGS).lookup k = some d := by
    simp only [SETTINGS_KEYS, List.mem_cons, List.mem_singleton, List.not_mem_nil,
      or_false] at hk
    rcases hk with h | h | h | h | h | h | h | h <;> subst h <;> exact ⟨_, rfl⟩
  obtain ⟨d, hd⟩ := hsome
  rw [hd]
  rfl

theorem settingsField_mode (s : Settings) :
    settingsField s (utf16 "mode") = JsValue.string (modeName s.mode) := rfl

theorem settingsField_triggerMinChars (s : Settings) :
    settingsField s (utf16 "triggerMinChars")
      = JsValue.number (JsNumber.finite s.triggerMinChars) := rfl

theorem settingsField_maxSuggestions (s : Settings) :
    settingsField s (utf16 "maxSuggestions")
      = JsValue.number (JsNumber.finite s.maxSuggestions) := rfl

theorem settingsField_commitWithTab (s : Settings) :
    settingsField s (utf16 "commitWithTab") = JsValue.bool s.commitWithTab := rfl

theorem settingsField_commitWithEnter (s : Settings) :
    settingsField s (utf16 "commitWithEnter") = JsValue.bool s.commitWithEnter := rfl

theorem settingsField_convertOnCloseColon (s : Settings) :
    settingsField s (utf16 "convertOnCloseColon") = JsValue.bool s.convertOnCloseColon := rfl

theorem settingsField_insertTrailingSpace (s : Settings) :
    settingsField s (utf16 "insertTrailingSpace") = JsValue.bool s.insertTrailingSpace := rfl

theorem settingsField_enableEmoticonConversion (s : Settings) :
    settingsField s (utf16 "enableEmoticonConversion")
      = JsValue.bool s.enableEmoticonConversion := rfl

theorem mem_SETTINGS_KEYS (key : Str) (h : key ∈ SETTINGS_KEYS) :
    key = utf16 "mode" ∨ key = utf16 "triggerMinChars" ∨ key = utf16 "maxSuggestions" ∨
      key = utf16 "commitWithTab" ∨ key = utf16 "commitWithEnter" ∨
      key = utf16 "convertOnCloseColon" ∨ key = utf16 "insertTrailingSpace" ∨
      key = utf16 "enableEmoticonConversion" := by
  simpa only [SETTINGS_KEYS, List.mem_cons, List.mem_singleton, List.not_mem_nil,
    or_false] using h

/-- Each field of the value of `sanitizeSettings` is made of the property of its name. -/
theorem settingsField_sanitizeSettings_congr (N : Str → JsNumber) (c c' : JsObject) (key : Str)
    (hk : key ∈ SETTINGS_KEYS) (h : getProperty c key = getProperty c' key) :
    settingsField (sanitizeSettings N c) key = settingsField (sanitizeSettings N c') key := by
  rcases mem_SETTINGS_KEYS key hk with h0 | h0 | h0 | h0 | h0 | h0 | h0 | h0 <;> subst h0
  · rw [settingsField_mode, settingsField_mode]
    simp only [sanitizeSettings, h]
  · rw [settingsField_triggerMinChars, settingsField_triggerMinChars]
    simp only [sanitizeSettings, h]
  · rw [settingsField_maxSuggestions, settingsField_maxSuggestions]
    simp only [sanitizeSettings, h]
  · rw [settingsField_commitWithTab, settingsField_commitWithTab]
    simp only [sanitizeSettings, h]
  · rw [settingsField_commitWithEnter, settingsField_commitWithEnter]
    simp only [sanitizeSettings, h]
  · rw [settingsField_convertOnCloseColon, settingsField_convertOnCloseColon]
    simp only [sanitizeSettings, h]
  · rw [settingsField_insertTrailingSpace, settingsField_insertTrailingSpace]
    simp only [sanitizeSettings, h]
  · rw [settingsField_enableEmoticonConversion, settingsField_enableEmoticonConversion]
    simp only [sanitizeSettings, h]

/-- The value of `sanitizeSettings` is made of the properties that the keys of
`DEFAULT_SETTINGS` name. -/
theorem sanitizeSettings_congr (N : Str → JsNumber) (c c' : JsObject)
    (h : ∀ key ∈ SETTINGS_KEYS, getProperty c key = getProperty c' key) :
    sanitizeSettings N c = sanitizeSettings N c' := by
  have h1 := h (utf16 "mode") (by decide)
  have h2 := h (utf16 "triggerMinChars") (by decide)
  have h3 := h (utf16 "maxSuggestions") (by decide)
  have h4 := h (utf16 "commitWithTab") (by decide)
  have h5 := h (utf16 "commitWithEnter") (by decide)
  have h6 := h (utf16 "convertOnCloseColon") (by decide)
  have h7 := h (utf16 "insertTrailingSpace") (by decide)
  have h8 := h (utf16 "enableEmoticonConversion") (by decide)
  simp only [sanitizeSettings, h1, h2, h3, h4, h5, h6, h7, h8]

theorem coerceNumber_intCast (N : Str → JsNumber) (n min max fallback : Int)
    (h1 : min ≤ n) (h2 : n ≤ max) :
    coerceNumber N (JsValue.number (JsNumber.finite n)) min max fallback = n := by
  rw [coerceNumber_of_finite N (JsValue.number (JsNumber.finite n)) min max fallback n rfl,
    mathRound_intCast,
    max_eq_right h1, min_eq_right h2]

/-- Settings within the ranges come back from `sanitizeSettings` as they are. -/
theorem sanitizeSettings_spreadSettings (N : Str → JsNumber) (s : Settings)
    (h : ValidSettings s) : sanitizeSettings N (spreadSettings s) = s := by
  obtain ⟨-, h1, h2, h3, h4, -⟩ := h
  obtain ⟨mode, t, m, f1, f2, f3, f4, f5⟩ := s
  have e1 : getProperty (spreadSettings ⟨mode, t, m, f1, f2, f3, f4, f5⟩) (utf16 "mode")
      = JsValue.string (modeName mode) := rfl
  have e2 : getProperty (spreadSettings ⟨mode, t, m, f1, f2, f3, f4, f5⟩)
      (utf16 "triggerMinChars") = JsValue.number (JsNumber.finite t) := rfl
  have e3 : getProperty (spreadSettings ⟨mode, t, m, f1, f2, f3, f4, f5⟩)
      (utf16 "maxSuggestions") = JsValue.number (JsNumber.finite m) := rfl
  have e4 : getProperty (spreadSettings ⟨mode, t, m, f1, f2, f3, f4, f5⟩)
      (utf16 "commitWithTab") = JsValue.bool f1 := rfl
  have e5 : getProperty (spreadSettings ⟨mode, t, m, f1, f2, f3, f4, f5⟩)
      (utf16 "commitWithEnter") = JsValue.bool f2 := rfl
  have e6 : getProperty (spreadSettings ⟨mode, t, m, f1, f2, f3, f4, f5⟩)
      (utf16 "convertOnCloseColon") = JsValue.bool f3 := rfl
  have e7 : getProperty (spreadSettings ⟨mode, t, m, f1, f2, f3, f4, f5⟩)
      (utf16 "insertTrailingSpace") = JsValue.bool f4 := rfl
  have e8 : getProperty (spreadSettings ⟨mode, t, m, f1, f2, f3, f4, f5⟩)
      (utf16 "enableEmoticonConversion") = JsValue.bool f5 := rfl
  have hm : (if modeName mode = utf16 "slack" then Mode.slack else Mode.discord) = mode := by
    cases mode <;> decide
  simp only [sanitizeSettings, e1, e2, e3, e4, e5, e6, e7, e8, toBoolean, hm,
    coerceNumber_intCast N t 0 3 _ h1 h2, coerceNumber_intCast N m 3 20 _ h3 h4]

/-- What `sanitizeSettings` makes of an object without properties. -/
theorem sanitizeSettings_empty (N : Str → JsNumber) :
    sanitizeSettings N [] =
      { mode := Mode.discord, triggerMinChars := 1, maxSuggestions := 8,
        commitWithTab := false, commitWithEnter := false, convertOnCloseColon := false,
        insertTrailingSpace := false, enableEmoticonConversion := false } := rfl

/-- At load, a field that storage does not hold gets its default. -/
theorem loadSettings_absent (N : Str → JsNumber) (settings : Settings) (stored : JsObject)
    (key : Str) (hk : key ∈ SETTINGS_KEYS) (habsent : stored.lookup key = none) :
    settingsField (loadSettings N settings (SyncStorage.items stored)) key
      = settingsField DEFAULT_SETTINGS key := by
  have h1 : getProperty (storageGet (spreadSettings DEFAULT_SETTINGS) stored) key
      = getProperty (spreadSettings DEFAULT_SETTINGS) key := by
    rw [getProperty_storageGet stored key hk, habsent]
    rfl
  have h2 := settingsField_sanitizeSettings_congr N _ _ key hk h1
  rw [sanitizeSettings_spreadSettings N DEFAULT_SETTINGS defaultSettings_valid] at h2
  exact h2

/-- A change notification leaves a field that it does not name as it is. -/
theorem onStorageChanged_absent (N : Str → JsNumber) (J : JsString) (st : StoredState)
    (hvalid : ValidSettings st.settings) (changes : JsObject) (key : Str)
    (hk : key ∈ SETTINGS_KEYS) (habsent : changes.lookup key = none) :
    settingsField (onStorageChanged N J st changes (utf16 "sync")).settings key
      = settingsField st.settings key := by
  have h1 : getProperty (assignChanges changes SETTINGS_KEYS (spreadSettings st.settings)) key
      = getProperty (spreadSettings st.settings) key := by
    rw [getProperty_assignChanges, if_pos hk, habsent]
    rfl
  have h2 := settingsField_sanitizeSettings_congr N _ _ key hk h1
  rw [sanitizeSettings_spreadSettings N st.settings hvalid] at h2
  simp only [onStorageChanged, if_true]
  exact h2

/-- A change notification that names a field without a new value makes of the field what
`sanitizeSettings` makes of `undefined`. -/
theorem onStorageChanged_without_value (N : Str → JsNumber) (J : JsString) (st : StoredState)
    (changes : JsObject) (key : Str) (hk : key ∈ SETTINGS_KEYS)
    (hvalue : changes.lookup key = some JsValue.undefined) :
    settingsField (onStorageChanged N J st changes (utf16 "sync")).settings key
      = settingsField (sanitizeSettings N []) key := by
  have h1 : getProperty (assignChanges changes SETTINGS_KEYS (spreadSettings st.settings)) key
      = getProperty [] key := by
    rw [getProperty_assignChanges, if_pos hk, hvalue]
    rfl
  have h2 := settingsField_sanitizeSettings_congr N _ _ key hk h1
  simp only [onStorageChanged, if_true]
  exact h2

/-- The loop over the keys reads the changes at the keys only. -/
theorem assignChanges_congr (changes changes' : JsObject) : ∀ (keys : List Str)
    (next : JsObject), (∀ key ∈ keys, changes.lookup key = changes'.lookup key) →
    assignChanges changes keys next = assignChanges changes' keys next := by
  intro keys
  induction keys with
  | nil => intro next _; rfl
  | cons key rest ih =>
    intro next h
    have hkey := h key (List.mem_cons_self _ _)
    have hrest : ∀ k ∈ rest, changes.lookup k = changes'.lookup k :=
      fun k hk => h k (List.mem_cons_of_mem _ hk)
    simp only [assignChanges, ← hkey]
    cases changes.lookup key with
    | none => exact ih next hrest
    | some v => exact ih _ hrest

theorem storageGet_congr (defaults items items' : JsObject)
    (h : ∀ kv ∈ defaults, items.lookup kv.1 = items'.lookup kv.1) :
    storageGet defaults items = storageGet defaults items' := by
  unfold storageGet
  apply List.map_congr_left
  intro kv hkv
  rw [h kv hkv]

theorem keys_spreadSettings (s : Settings) :
    ∀ kv ∈ spreadSettings s, kv.1 ∈ SETTINGS_KEYS := by
  intro kv hkv
  simp only [spreadSettings, List.mem_cons, List.mem_singleton, List.not_mem_nil,
    or_false] at hkv
  rcases hkv with h | h | h | h | h | h | h | h <;> subst h <;> dsimp only <;> decide

/-- After a load that found 12 for `maxSuggestions`, a change notification that names the
mode only leaves `maxSuggestions` at 12. -/
theorem onStorageChanged_keeps_loaded (N : Str → JsNumber) (J : JsString) :
    (onStorageChanged N J
      (storageStep N J initialStoredState (StorageEvent.settingsLoaded
        (SyncStorage.items [(utf16 "maxSuggestions", JsValue.number (JsNumber.finite 12))])))
      [(utf16 "mode", JsValue.string (utf16 "slack"))] (utf16 "sync")).settings.maxSuggestions
      = 12 := by
  have hload : (storageStep N J initialStoredState (StorageEvent.settingsLoaded
      (SyncStorage.items [(utf16 "maxSuggestions", JsValue.number (JsNumber.finite 12))])
      )).settings.maxSuggestions = 12 := by
    show coerceNumber N (JsValue.number (JsNumber.finite ((12 : Int) : ℚ))) 3 20 8 = 12
    exact coerceNumber_intCast N 12 3 20 8 (by decide) (by decide)
  have hvalid := storageStep_valid N J initialStoredState (StorageEvent.settingsLoaded
      (SyncStorage.items [(utf16 "maxSuggestions", JsValue.number (JsNumber.finite 12))]))
      defaultSettings_valid
  have hkeep := onStorageChanged_absent N J _ hvalid
    [(utf16 "mode", JsValue.string (utf16 "slack"))] (utf16 "maxSuggestions") (by decide) rfl
  rw [settingsField_maxSuggestions, settingsField_maxSuggestions, hload] at hkeep
  injection hkeep with hkeep
  injection hkeep with hkeep
  exact_mod_cast hkeep

/-- C16 (counterexample). After a load that found 12 for `maxSuggestions`, a change
notification that names the mode only leaves `maxSuggestions` at 12, which is not the
default 8. The host is the reference one, and reads no string as a Number. -/
theorem C16_counterexample :
    List.lookup (utf16 "maxSuggestions") [(utf16 "mode", JsValue.string (utf16 "slack"))]
      = none ∧
    (onStorageChanged (fun _ => JsNumber.nan) basicLatin
      (storageStep (fun _ => JsNumber.nan) basicLatin initialStoredState
        (StorageEvent.settingsLoaded
          (SyncStorage.items
            [(utf16 "maxSuggestions", JsValue.number (JsNumber.finite 12))])))
      [(utf16 "mode", JsValue.string (utf16 "slack"))] (utf16 "sync")).settings.maxSuggestions
      = 12 ∧
    DEFAULT_SETTINGS.maxSuggestions = 8 :=
  ⟨rfl, onStorageChanged_keeps_loaded (fun _ => JsNumber.nan) basicLatin, rfl⟩

/-- C16. At load, every field that the stored settings do not hold gets its default from
`DEFAULT_SETTINGS`; a change notification leaves every field that it does not name at the
value it has; a change notification that names the mode, `triggerMinChars` or
`maxSuggestions` without a new value sets that field to its default; and what is stored or
notified under other keys than the eight is ignored. -/
theorem C16_missing_fields (N : Str → JsNumber) (J : JsString) (st : StoredState)
    (hvalid : ValidSettings st.settings) :
    (∀ (stored : JsObject) (key : Str), key ∈ SETTINGS_KEYS → stored.lookup key = none →
      settingsField (loadSettings N st.settings (SyncStorage.items stored)) key
        = settingsField DEFAULT_SETTINGS key) ∧
    (∀ (changes : JsObject) (key : Str), key ∈ SETTINGS_KEYS → changes.lookup key = none →
      settingsField (onStorageChanged N J st changes (utf16 "sync")).settings key
        = settingsField st.settings key) ∧
    (∀ (changes : JsObject) (key : Str),
      key ∈ [utf16 "mode", utf16 "triggerMinChars", utf16 "maxSuggestions"] →
      changes.lookup key = some JsValue.undefined →
      settingsField (onStorageChanged N J st changes (utf16 "sync")).settings key
        = settingsField DEFAULT_SETTINGS key) ∧
    (∀ stored stored' : JsObject,
      (∀ key ∈ SETTINGS_KEYS, stored.lookup key = stored'.lookup key) →
      loadSettings N st.settings (SyncStorage.items stored)
        = loadSettings N st.settings (SyncStorage.items stored')) ∧
    (∀ changes changes' : JsObject,
      (∀ key ∈ SETTINGS_KEYS, changes.lookup key = changes'.lookup key) →
      (onStorageChanged N J st changes (utf16 "sync")).settings
        = (onStorageChanged N J st changes' (utf16 "sync")).settings) := by
  refine ⟨?_, ?_, ?_, ?_, ?_⟩
  · intro stored key hk habsent
    exact loadSettings_absent N st.settings stored key hk habsent
  · intro changes key hk habsent
    exact onStorageChanged_absent N J st hvalid changes key hk habsent
  · intro changes key hk hvalue
    have hk' : key ∈ SETTINGS_KEYS := by
      simp only [List.mem_cons, List.mem_singleton, List.not_mem_nil, or_false] at hk
      rcases hk with h | h | h <;> subst h <;> decide
    rw [onStorageChanged_without_value N J st changes key hk' hvalue, sanitizeSettings_empty]
    simp only [List.mem_cons, List.mem_singleton, List.not_mem_nil, or_false] at hk
    rcases hk with h | h | h <;> subst h <;> rfl
  · intro stored stored' h
    simp only [loadSettings]
    rw [storageGet_congr _ stored stored'
      (fun kv hkv => h kv.1 (keys_spreadSettings DEFAULT_SETTINGS kv hkv))]
  · intro changes changes' h
    simp only [onStorageChanged, if_true]
    rw [assignChanges_congr changes changes' SETTINGS_KEYS _ h]

/-- C16 (witness). From the defaults, a change notification that names the mode only
leaves `maxSuggestions` at 8. -/
theorem C16_missing_fields_witness :
    ValidSettings initialStoredState.settings ∧
    settingsField (onStorageChanged (fun _ => JsNumber.nan) basicLatin initialStoredState
        [(utf16 "mode", JsValue.string (utf16 "slack"))] (utf16 "sync")).settings
        (utf16 "maxSuggestions")
      = settingsField initialStoredState.settings (utf16 "maxSuggestions") :=
  ⟨defaultSettings_valid,
    (C16_missing_fields (fun _ => JsNumber.nan) basicLatin initialStoredState
      defaultSettings_valid).2.1 [(utf16 "mode", JsValue.string (utf16 "slack"))]
      (utf16 "maxSuggestions") (by decide) rfl⟩

/-- A change notification that names a flag without a new value clears the flag, also where
the default of the flag is `true`. -/
theorem onStorageChanged_flag_without_value (N : Str → JsNumber) (J : JsString)
    (st : StoredState) (changes : JsObject)
    (hvalue : changes.lookup (utf16 "commitWithTab") = some JsValue.undefined) :
    (onStorageChanged N J st changes (utf16 "sync")).settings.commitWithTab = false ∧
      DEFAULT_SETTINGS.commitWithTab = true := by
  have h := onStorageChanged_without_value N J st changes (utf16 "commitWithTab") (by decide)
    hvalue
  rw [settingsField_commitWithTab, settingsField_commitWithTab, sanitizeSettings_empty] at h
  injection h with h
  exact ⟨h, rfl⟩

/-- A load that fails clears the five flags, also where the default of a flag is `true`. -/
theorem loadSettings_failed (N : Str → JsNumber) (settings : Settings) :
    loadSettings N settings SyncStorage.failed =
      { mode := Mode.discord, triggerMinChars := 1, maxSuggestions := 8,
        commitWithTab := false, commitWithEnter := false, convertOnCloseColon := false,
        insertTrailingSpace := false, enableEmoticonConversion := false } := rfl

/-! ## Usage table: claims -/

/-- What the loop of `sanitizeUsageObject` keeps of every table: keys that are non-empty
values of `toLowerCase`, with counts that are the floor of a positive finite Number. -/
theorem usageLoop_lookup (N : Str → JsNumber) (J : JsString) (P : Str → Nat → Prop)
    (hP : ∀ (key : Str) (count : ℚ), J.toLowerCase (J.trim key) ≠ [] → 0 < count →
      P (J.toLowerCase (J.trim key)) (mathFloor count).toNat) :
    ∀ (entries : List (Str × JsValue)) (clean : UsageCounts),
      (∀ k n, clean.lookup k = some n → P k n) →
      ∀ k n, (usageLoop N J entries clean).lookup k = some n → P k n := by
  intro entries
  induction entries with
  | nil => intro clean h; exact h
  | cons kv rest ih =>
    obtain ⟨key, value⟩ := kv
    intro clean h
    by_cases hkey : key.isEmpty = true
    · simp only [usageLoop, hkey, if_true]
      exact ih clean h
    · by_cases hnorm : (J.toLowerCase (J.trim key)).isEmpty = true
      · simp only [usageLoop, hkey, hnorm, Bool.false_eq_true, if_false, if_true]
        exact ih clean h
      · have hne : J.toLowerCase (J.trim key) ≠ [] := by
          intro h0
          rw [h0] at hnorm
          exact hnorm rfl
        cases hnum : toNumber N value with
        | finite count =>
          by_cases hle : count ≤ 0
          · simp only [usageLoop, hkey, hnorm, Bool.false_eq_true, if_false, hnum,
              if_pos hle]
            exact ih clean h
          · simp only [usageLoop, hkey, hnorm, Bool.false_eq_true, if_false, hnum,
              if_neg hle]
            apply ih
            intro k n hk
            rw [lookup_objectSet] at hk
            by_cases hkk : k = J.toLowerCase (J.trim key)
            · rw [if_pos hkk] at hk
              injection hk with hk
              rw [hkk, ← hk]
              exact hP key count hne (lt_of_not_le hle)
            · rw [if_neg hkk] at hk
              exact h k n hk
        | nan =>
          simp only [usageLoop, hkey, hnorm, Bool.false_eq_true, if_false, hnum]
          exact ih clean h
        | posInf =>
          simp only [usageLoop, hkey, hnorm, Bool.false_eq_true, if_false, hnum]
          exact ih clean h
        | negInf =>
          simp only [usageLoop, hkey, hnorm, Bool.false_eq_true, if_false, hnum]
          exact ih clean h

/-- Every key of a sanitized table is a non-empty value of `toLowerCase`, and its count is
the floor of a positive finite Number. -/
theorem sanitizeUsageObject_lookup (N : Str → JsNumber) (J : JsString) (raw : JsValue)
    (k : Str) (n : Nat) (h : (sanitizeUsageObject N J raw).lookup k = some n) :
    k ≠ [] ∧ (∃ s, k = J.toLowerCase s) ∧
      ∃ count : ℚ, 0 < count ∧ n = (mathFloor count).toNat := by
  cases raw with
  | object asNumber entries =>
    exact usageLoop_lookup N J
      (fun k n => k ≠ [] ∧ (∃ s, k = J.toLowerCase s) ∧
        ∃ count : ℚ, 0 < count ∧ n = (mathFloor count).toNat)
      (fun key count hne hpos => ⟨hne, ⟨J.trim key, rfl⟩, count, hpos, rfl⟩)
      entries [] (fun k n hk => Option.noConfusion hk) k n h
  | undefined => exact Option.noConfusion h
  | null => exact Option.noConfusion h
  | bool b => exact Option.noConfusion h
  | number x => exact Option.noConfusion h
  | string s => exact Option.noConfusion h

/-- A call of `recordUsage` raises the count of the lowercased shortcode by one and leaves
every other count as it is. -/
theorem getUsageScore_recordUsage (J : JsString) (usageCounts : UsageCounts)
    (shortcode k : Str) (hne : shortcode ≠ []) :
    getUsageScore (recordUsage J usageCounts shortcode) k
      = if k = J.toLowerCase shortcode then getUsageScore usageCounts k + 1
        else getUsageScore usageCounts k := by
  have hempty : shortcode.isEmpty = false := by
    cases shortcode with
    | nil => exact absurd rfl hne
    | cons c cs => rfl
  simp only [recordUsage, hempty, Bool.false_eq_true, if_false, getUsageScore,
    lookup_objectSet]
  by_cases hk : k = J.toLowerCase shortcode
  · subst hk
    rw [if_pos rfl, if_pos rfl]
    rfl
  · rw [if_neg hk, if_neg hk]

theorem mathFloor_half : mathFloor (1 / 2) = 0 := by
  unfold mathFloor
  rw [Int.floor_eq_iff]
  constructor <;> norm_num

/-- The loop of `sanitizeUsageObject` on the one entry "smile" with the count 0.5. -/
theorem usageLoop_half (N : Str → JsNumber) :
    usageLoop N basicLatin [(utf16 "smile", JsValue.number (JsNumber.finite (1 / 2)))] []
      = [(utf16 "smile", 0)] := by
  have hkey : (utf16 "smile").isEmpty = false := by decide
  have hnorm : basicLatin.toLowerCase (basicLatin.trim (utf16 "smile")) = utf16 "smile" := by
    decide
  have hpos : ¬ ((1 / 2 : ℚ) ≤ 0) := by norm_num
  have hset : objectSet [] (utf16 "smile") (0 : Int).toNat = [(utf16 "smile", 0)] := by decide
  simp only [usageLoop, hkey, hnorm, toNumber, if_neg hpos, mathFloor_half,
    Bool.false_eq_true, if_false, hset]

/-- C17. The stored usage object that gives "smile" the count 0.5 is sanitized to a table
in which "smile" has the count 0: the test `count <= 0` comes before `Math.floor`. So a
change notification brings the table of the script into a state with a count that is not
positive. -/
theorem C17_fraction_is_stored_as_zero (N : Str → JsNumber) :
    sanitizeUsageObject N basicLatin
        (JsValue.object JsNumber.nan
          [(utf16 "smile", JsValue.number (JsNumber.finite (1 / 2)))])
      = [(utf16 "smile", 0)] ∧
    (onStorageChanged N basicLatin initialStoredState
        [(USAGE_KEY, JsValue.object JsNumber.nan
          [(utf16 "smile", JsValue.number (JsNumber.finite (1 / 2)))])]
        (utf16 "local")).usageCounts
      = [(utf16 "smile", 0)] := by
  have hsync : ¬ (utf16 "local" = utf16 "sync") := by decide
  refine ⟨usageLoop_half N, ?_⟩
  simp only [onStorageChanged, if_neg hsync, if_true]
  exact usageLoop_half N

end EmojiCompleter
